import Mathlib

/-!
Verification of the route/tour optimization engine (`src/utils/algorithms.ts`,
`src/data/maps.ts`, `src/pages/Index.tsx` and the point-to-point brute-force
variant).

Modeling conventions (shallow embedding of the TypeScript source):
* JS numbers are modeled as exact rationals `ℚ`.  `Number.MAX_SAFE_INTEGER`
  is the rational constant `MAXQ = 2^53 - 1`.
* Because `Rat.add`/`Rat.mul`/... are `@[irreducible]`, the embedding writes
  JS `x + y`, `x - y`, `x * y`, `x / y` as `qadd`, `qsub`, `qmul`, `qdiv`:
  kernel-reducible definitions proved equal to `+`, `-`, `*`, `/` by
  `qadd_eq` etc., so that concrete runs evaluate by `decide`.
* A JS `Record<string, number>` is modeled as a total function
  `String → Option ℚ`; `none` models a missing key (JS `undefined`).
  JS comparisons involving `undefined` evaluate to `false` (via `NaN`),
  which is captured by `jsLt`/`jsLe`; JS arithmetic on `undefined` yields
  `NaN`, captured by `jsAdd`/`jsAdd2` returning `none`.
* JS `Set<string>` is modeled as a duplicate-free `List String`
  (only membership and size are ever used by the source).
* `while` loops whose termination is not structural are modeled with an
  explicit fuel parameter; the fuel passed by the wrapper definitions is
  large enough for every behaviour proved about them below, and the
  fuel-exhaustion branches mirror the value the loop would produce on its
  regular exit.
* Code paths that throw a `TypeError` in JS (property access on
  `undefined`) are modeled by an `Option` result, `none` meaning the
  exception.
-/

/-- JS `x + y`, in a kernel-reducible form (see `qadd_eq`). -/
def qadd (a b : ℚ) : ℚ := mkRat (a.num * b.den + b.num * a.den) (a.den * b.den)


/-- JS `x - y`, in a kernel-reducible form (see `qsub_eq`). -/
def qsub (a b : ℚ) : ℚ := mkRat (a.num * b.den - b.num * a.den) (a.den * b.den)


/-- JS `x * y`, in a kernel-reducible form (see `qmul_eq`). -/
def qmul (a b : ℚ) : ℚ := mkRat (a.num * b.num) (a.den * b.den)


/-- JS `1 / x`, in a kernel-reducible form (see `qinv_eq`). -/
def qinv (b : ℚ) : ℚ := Rat.divInt (b.den : ℤ) b.num


/-- JS `x / y`, in a kernel-reducible form (see `qdiv_eq`). -/
def qdiv (a b : ℚ) : ℚ := qmul a (qinv b)


/-- `Number.MAX_SAFE_INTEGER` (`2^53 - 1`), used by the source as an in-band
infinity. -/
def MAXQ : ℚ := (9007199254740991 : ℚ)


/-- Node of a route graph (`RouteNode` in `types.ts`). -/
structure RouteNode where
  id : String
  lat : ℚ
  lng : ℚ
deriving DecidableEq

/-- Edge of a route graph (`RouteEdge` in `types.ts`).  The source field
`from` is a Lean keyword, so it is called `frm` here. -/
structure RouteEdge where
  frm : String
  «to» : String
  distance : ℚ
  time : ℚ
  trafficFactor : ℚ
deriving DecidableEq

/-- A route graph (`RouteGraph` in `types.ts`): `nodes` models the insertion
ordered `Record<string, RouteNode>` (so `Object.keys(nodes)` is
`nodes.map (·.id)`), `edges` the edge array. -/
structure RouteGraph where
  nodes : List RouteNode
  edges : List RouteEdge
deriving DecidableEq

/-- `Object.keys(graph.nodes)`. -/
def RouteGraph.nodeIds (g : RouteGraph) : List String :=
  g.nodes.map (·.id)

/-- JS `a < b` where either side may be `undefined` (then the comparison is
`false`). -/
def jsLt (a b : Option ℚ) : Bool :=
  match a, b with
  | some x, some y => decide (x < y)
  | _, _ => false

/-- JS `a <= b` where either side may be `undefined`. -/
def jsLe (a b : Option ℚ) : Bool :=
  match a, b with
  | some x, some y => decide (x ≤ y)
  | _, _ => false

/-- JS `a + w` where `a` may be `undefined` (then the result is `NaN`,
modeled as `none`). -/
def jsAdd (a : Option ℚ) (w : ℚ) : Option ℚ :=
  a.map (qadd · w)

/-- JS `a + b` on two possibly-`undefined` values. -/
def jsAdd2 (a b : Option ℚ) : Option ℚ :=
  match a, b with
  | some x, some y => some (qadd x y)
  | _, _ => none

/-- Result record `{ path, distance, time }` of the TSP solvers (these
always return plain numbers). -/
structure TourResult where
  path : List String
  distance : ℚ
  time : ℚ
deriving DecidableEq

/-- Result record `{ path, distance, time }` of the point-to-point solvers:
`distance`/`time` may be `undefined` (e.g. `dist[end]` when `end` is not a
key of the distance record). -/
structure SolveResult where
  path : List String
  distance : Option ℚ
  time : Option ℚ
deriving DecidableEq

namespace TSP

/-- `calculatePathCost` helper: `none` exactly when the JS loop takes the
early `return Number.MAX_SAFE_INTEGER` exit (a consecutive pair with no
matching edge); `find?` mirrors `edges.find`. -/
def pathCostAux (g : RouteGraph) : List String → Option ℚ
  | a :: b :: rest =>
    match g.edges.find? (fun e => e.frm == a && e.to == b) with
    | some e => (pathCostAux g (b :: rest)).map (qadd e.distance ·)
    | none => none
  | _ => some 0

/-- `calculatePathCost` from the TSP part of `algorithms.ts`. -/
def calculatePathCost (path : List String) (g : RouteGraph) : ℚ :=
  if path.length < 2 then 0
  else
    match pathCostAux g path with
    | some s => s
    | none => MAXQ

/-- Time analogue of `pathCostAux`. -/
def pathTimeAux (g : RouteGraph) : List String → Option ℚ
  | a :: b :: rest =>
    match g.edges.find? (fun e => e.frm == a && e.to == b) with
    | some e => (pathTimeAux g (b :: rest)).map (qadd e.time ·)
    | none => none
  | _ => some 0

/-- `calculatePathTime` from the TSP part of `algorithms.ts`. -/
def calculatePathTime (path : List String) (g : RouteGraph) : ℚ :=
  if path.length < 2 then 0
  else
    match pathTimeAux g path with
    | some s => s
    | none => MAXQ

/-- The recursive `permute` helper of `bruteForce`.  The fuel equals the
length of the list (each recursive call removes one element, so the fuel is
never exhausted; the unreachable zero-fuel branch returns `[]`). -/
def permuteAux : Nat → List String → List (List String)
  | 0, arr => if arr.length ≤ 1 then [arr] else []
  | fuel + 1, arr =>
    if arr.length ≤ 1 then [arr]
    else
      (List.range arr.length).foldl
        (fun acc i =>
          let rest := arr.take i ++ arr.drop (i + 1)
          acc ++ (permuteAux fuel rest).map (fun p => arr.getD i "" :: p))
        []

/-- `permute` of `bruteForce`. -/
def permute (arr : List String) : List (List String) :=
  permuteAux arr.length arr

/-- The TSP `bruteForce` solver: tries every permutation of the non-start
nodes as a tour `start :: perm ++ [start]`, keeping the cheapest candidate
with `0 < cost < best` (the JS guard `pathCost < bestDistance && pathCost > 0`). -/
def bruteForce (g : RouteGraph) (start : String) : TourResult :=
  let nodeIds := g.nodeIds
  if !(nodeIds.contains start) then ⟨[], 0, 0⟩
  else
    let otherNodes := nodeIds.filter (fun n => n != start)
    let best := (permute otherNodes).foldl
      (fun (b : List String × ℚ × ℚ) perm =>
        let fullPath := start :: (perm ++ [start])
        let pathCost := calculatePathCost fullPath g
        let pathTime := calculatePathTime fullPath g
        if pathCost < b.2.1 ∧ 0 < pathCost then (fullPath, pathCost, pathTime) else b)
      ([], MAXQ, MAXQ)
    ⟨best.1, if best.2.1 = MAXQ then 0 else best.2.1,
     if best.2.2 = MAXQ then 0 else best.2.2⟩

/-- State of the Held-Karp solver: the `dp` and `parent` records, keyed by
(bitmask, node index); `none` is a missing key. -/
structure DPState where
  dp : Nat → Nat → Option ℚ
  parent : Nat → Nat → Option Nat

/-- Simultaneous `dp[newMask][v] = cost; parent[newMask][v] = u`. -/
def dpUpdate (st : DPState) (m v : Nat) (c : ℚ) (p : Nat) : DPState :=
  ⟨fun m' v' => if m' = m ∧ v' = v then some c else st.dp m' v',
   fun m' v' => if m' = m ∧ v' = v then some p else st.parent m' v'⟩

/-- One iteration of the Held-Karp mask loop (`for u ... for v ...`); the
guard mirrors `if (!(mask & (1 << u)) || dp[mask][u] === undefined) continue`,
and the inner body re-reads `dp[mask][u]` as the JS does (the inner updates
never touch `(mask, u)`, whose mask has strictly fewer bits). -/
def dpStep (dist : Nat → Nat → ℚ) (n : Nat) (st : DPState) (mask : Nat) : DPState :=
  (List.range n).foldl
    (fun st u =>
      if !(Nat.testBit mask u) ∨ st.dp mask u = none then st
      else
        (List.range n).foldl
          (fun st v =>
            if Nat.testBit mask v ∨ dist u v = MAXQ then st
            else
              let newMask := mask ||| 2 ^ v
              match st.dp mask u with
              | none => st
              | some du =>
                let newCost := qadd du (dist u v)
                match st.dp newMask v with
                | none => dpUpdate st newMask v newCost u
                | some c => if newCost < c then dpUpdate st newMask v newCost u else st)
          st)
    st

/-- Reconstruction loop of the Held-Karp solver (`while (currentMask > 0)`),
with the `path.unshift` accumulation.  The `parent`-is-`undefined` branch,
never reached from the states the main loop builds, stops the loop. -/
def dpReconstruct (parent : Nat → Nat → Option Nat) (indexToNode : Nat → String)
    (startMask : Nat) : Nat → Nat → Nat → List String → List String
  | 0, _, _, acc => acc
  | fuel + 1, currentMask, currentCity, acc =>
    if currentMask = 0 then acc
    else
      let acc := indexToNode currentCity :: acc
      if currentMask = startMask then acc
      else
        match parent currentMask currentCity with
        | none => acc
        | some prevCity =>
          dpReconstruct parent indexToNode startMask fuel
            (currentMask ^^^ 2 ^ currentCity) prevCity acc

/-- The Held-Karp `dynamicProgramming` TSP solver.  The JS `time` matrix is
built but never read (the returned time is `calculatePathTime`), so it is
omitted.  When `start` is not a node the JS table stays empty thanks to its
`undefined` start index, and the result is the empty tour; `List.indexOf`
(which returns `n` in that case) produces the same observable result, since
the mask `2^n` lies outside the iterated range. -/
def dynamicProgramming (g : RouteGraph) (start : String) : TourResult :=
  let nodeIds := g.nodeIds
  let n := nodeIds.length
  if n ≤ 1 then ⟨[start], 0, 0⟩
  else
    let nodeToIndex : String → Nat := fun s => nodeIds.indexOf s
    let indexToNode : Nat → String := fun i => nodeIds.getD i ""
    let startIndex := nodeToIndex start
    let dist : Nat → Nat → ℚ :=
      g.edges.foldl
        (fun d e =>
          if nodeIds.contains e.frm && nodeIds.contains e.to then
            fun i j => if i = nodeToIndex e.frm ∧ j = nodeToIndex e.to then e.distance else d i j
          else d)
        (fun _ _ => MAXQ)
    let startMask := 2 ^ startIndex
    let st0 : DPState :=
      ⟨fun m i => if m = startMask ∧ i = startIndex then some 0 else none, fun _ _ => none⟩
    let stF := (List.range (2 ^ n)).foldl
      (fun st mask => if mask = 0 then st else dpStep dist n st mask) st0
    let fullMask := 2 ^ n - 1
    let best := (List.range n).foldl
      (fun (b : ℚ × Option Nat) i =>
        if i = startIndex then b
        else
          match stF.dp fullMask i with
          | none => b
          | some c =>
            let totalCost := qadd c (dist i startIndex)
            if totalCost < b.1 then (totalCost, some i) else b)
      (MAXQ, none)
    match best.2 with
    | none => ⟨[], 0, 0⟩
    | some lastCity =>
      let path := dpReconstruct stF.parent indexToNode startMask (n + 1) fullMask lastCity []
      let path := path ++ [indexToNode startIndex]
      ⟨path, if best.1 = MAXQ then 0 else best.1, calculatePathTime path g⟩

/-- State of the `nearestNeighbor` greedy loop. -/
structure NNState where
  visited : List String
  path : List String
  current : String
  totalDistance : ℚ
  totalTime : ℚ

/-- The nearest-unvisited-neighbor scan of `nearestNeighbor` (strict `<`,
so the first minimal edge wins; `""` means none found). -/
def nnNearest (g : RouteGraph) (visited : List String) (current : String) : ℚ × ℚ × String :=
  (g.edges.filter (fun e => e.frm == current && !(visited.contains e.to))).foldl
    (fun (b : ℚ × ℚ × String) e =>
      if e.distance < b.1 then (e.distance, e.time, e.to) else b)
    (MAXQ, 0, "")

/-- The `while (visited.size < nodeIds.length)` loop of `nearestNeighbor`. -/
def nnLoop (g : RouteGraph) (nodeIds : List String) : Nat → NNState → NNState
  | 0, st => st
  | fuel + 1, st =>
    if st.visited.length < nodeIds.length then
      let b := nnNearest g st.visited st.current
      if b.2.2 = "" then st
      else
        nnLoop g nodeIds fuel
          ⟨st.visited ++ [b.2.2], st.path ++ [b.2.2], b.2.2,
           qadd st.totalDistance b.1, qadd st.totalTime b.2.1⟩
    else st

/-- The TSP `nearestNeighbor` solver. -/
def nearestNeighbor (g : RouteGraph) (start : String) : TourResult :=
  let nodeIds := g.nodeIds
  let st := nnLoop g nodeIds (nodeIds.length + 1) ⟨[start], [start], start, 0, 0⟩
  match g.edges.find? (fun e => e.frm == st.current && e.to == start) with
  | some returnEdge =>
    if st.visited.length = nodeIds.length then
      ⟨st.path ++ [start], qadd st.totalDistance returnEdge.distance,
       qadd st.totalTime returnEdge.time⟩
    else ⟨[], 0, 0⟩
  | none => ⟨[], 0, 0⟩

/-- A queue entry of `branchAndBound` (its local `Node` interface). -/
structure BBNode where
  path : List String
  cost : ℚ
  time : ℚ
  visited : List String
  bound : ℚ
deriving DecidableEq

/-- `calculateTSPBound`: with all nodes visited, the direct return edge (or
`MAX`); otherwise the sum over unvisited nodes of the cheapest outgoing edge
to a still-unvisited node (skipping nodes with no such edge). -/
def calculateTSPBound (g : RouteGraph) (nodeIds : List String) (start : String)
    (path : List String) (visited : List String) : ℚ :=
  if visited.length = nodeIds.length then
    match g.edges.find? (fun e => e.frm == path.getLastD "" && e.to == start) with
    | some e => e.distance
    | none => MAXQ
  else
    nodeIds.foldl
      (fun acc nodeId =>
        if visited.contains nodeId then acc
        else
          let minEdge :=
            (g.edges.filter (fun e => e.frm == nodeId && !(visited.contains e.to))).foldl
              (fun m e => min m e.distance) MAXQ
          if minEdge ≠ MAXQ then qadd acc minEdge else acc)
      0

/-- Stable insertion into a queue sorted by `cost + bound` (ties keep the
existing element first, as JS's stable `Array.sort`). -/
def bbInsert (x : BBNode) : List BBNode → List BBNode
  | [] => [x]
  | y :: ys =>
    if qadd x.cost x.bound < qadd y.cost y.bound then x :: y :: ys else y :: bbInsert x ys

/-- Stable sort of the queue by `cost + bound` (JS `queue.sort((a, b) =>
(a.cost + a.bound) - (b.cost + b.bound))`, which is stable per ES2019). -/
def bbSort (l : List BBNode) : List BBNode :=
  l.foldl (fun acc x => bbInsert x acc) []

/-- The best-first `while (queue.length > 0)` loop of `branchAndBound`:
sort, shift, prune on `cost + bound >= bestCost`, close the tour when all
nodes are visited, else expand to unvisited neighbors (pushing only states
that beat the best known cost). -/
def bbLoop (g : RouteGraph) (nodeIds : List String) (start : String) :
    Nat → List BBNode → Option BBNode → ℚ → Option BBNode
  | 0, _, best, _ => best
  | fuel + 1, queue, best, bestCost =>
    match bbSort queue with
    | [] => best
    | current :: rest =>
      if bestCost ≤ qadd current.cost current.bound then
        bbLoop g nodeIds start fuel rest best bestCost
      else if current.visited.length = nodeIds.length then
        match g.edges.find? (fun e => e.frm == current.path.getLastD "" && e.to == start) with
        | some returnEdge =>
          let totalCost := qadd current.cost returnEdge.distance
          let totalTime := qadd current.time returnEdge.time
          if totalCost < bestCost then
            bbLoop g nodeIds start fuel rest
              (some ⟨current.path ++ [start], totalCost, totalTime, current.visited, 0⟩)
              totalCost
          else bbLoop g nodeIds start fuel rest best bestCost
        | none => bbLoop g nodeIds start fuel rest best bestCost
      else
        let currentNode := current.path.getLastD ""
        let expanded :=
          (g.edges.filter (fun e => e.frm == currentNode && !(current.visited.contains e.to))).foldl
            (fun q e =>
              let newVisited := current.visited ++ [e.to]
              let newPath := current.path ++ [e.to]
              let newCost := qadd current.cost e.distance
              let newTime := qadd current.time e.time
              let newBound := calculateTSPBound g nodeIds start newPath newVisited
              if qadd newCost newBound < bestCost then
                q ++ [(⟨newPath, newCost, newTime, newVisited, newBound⟩ : BBNode)]
              else q)
            rest
        bbLoop g nodeIds start fuel expanded best bestCost

/-- The TSP `branchAndBound` solver.  The fuel bounds the number of loop
iterations; every state in the queue is a duplicate-free path from `start`,
of which there are fewer than `(n + 2)!·(edges + n + 2)`, so the fuel is
never exhausted on terminating runs. -/
def branchAndBound (g : RouteGraph) (start : String) : TourResult :=
  let nodeIds := g.nodeIds
  let q0 : List BBNode :=
    [⟨[start], 0, 0, [start], calculateTSPBound g nodeIds start [start] [start]⟩]
  match bbLoop g nodeIds start
      ((nodeIds.length + 2).factorial * (g.edges.length + nodeIds.length + 2)) q0 none MAXQ with
  | some best => ⟨best.path, best.cost, best.time⟩
  | none => ⟨[], 0, 0⟩

end TSP

namespace P2P

/-- The `minDistance` helper of the point-to-point file: scans the keys of
the `dist` record, keeping the last unvisited key whose distance is `<=` the
running minimum (initially `MAX_SAFE_INTEGER`); returns `""` when no
unvisited key qualifies. -/
def minDistance (keys : List String) (dist : String → Option ℚ)
    (visited : String → Bool) : String :=
  (keys.foldl
    (fun (p : ℚ × String) v =>
      match dist v with
      | some dv => if !(visited v) && decide (dv ≤ p.1) then (dv, v) else p
      | none => p)
    (MAXQ, "")).2

/-- State of `dijkstra`: the `dist`, `time`, `prev` and `visited` records. -/
structure DijkState where
  dist : String → Option ℚ
  time : String → Option ℚ
  prev : String → Option String
  visited : String → Bool

/-- One iteration of the dijkstra main loop: select the minimum unvisited
node (skip if `""`), mark it visited, relax its outgoing edges. -/
def dijkstraStep (g : RouteGraph) (keys : List String) (st : DijkState) : DijkState :=
  let u := minDistance keys st.dist st.visited
  if u = "" then st
  else
    (g.edges.filter (fun e => e.frm == u)).foldl
      (fun st e =>
        let v := e.to
        if !(st.visited v) && jsLt (jsAdd (st.dist u) e.distance) (st.dist v) then
          { st with
            dist := fun x => if x = v then jsAdd (st.dist u) e.distance else st.dist x,
            time := fun x => if x = v then jsAdd (st.time u) e.time else st.time x,
            prev := fun x => if x = v then some u else st.prev x }
        else st)
      { st with visited := fun v => if v = u then true else st.visited v }

/-- The shared path-reconstruction `while (current)` loop of `dijkstra` and
`bellmanFord` (and the identical inline loop of `astar`), with its
`path.unshift` accumulation: stop on the `start` node, on a missing `prev`
entry (JS `undefined`, which ends the `while`), or on the falsy `""`. -/
def reconstructGo (prev : String → Option String) (start : String) :
    Nat → String → List String → List String
  | 0, _, acc => acc
  | fuel + 1, current, acc =>
    if current = "" then acc
    else
      let acc := current :: acc
      if current = start then acc
      else
        match prev current with
        | none => acc
        | some p => reconstructGo prev start fuel p acc

/-- Reconstruction of `dijkstra`/`bellmanFord`, guarded by
`if (prev[current] || current === start)` (a `""` predecessor is falsy). -/
def reconstructPath (prev : String → Option String) (start dst : String)
    (fuel : Nat) : List String :=
  let entry : Bool :=
    (match prev dst with
     | some p => p != ""
     | none => false) || dst == start
  if entry then reconstructGo prev start fuel dst [] else []

/-- Initial distance/time record shared by `dijkstra` and `bellmanFord`:
every node key gets `MAX_SAFE_INTEGER`, then `dist[start] = 0` (which adds
the key when `start` is not a node). -/
def initDist (g : RouteGraph) (start : String) : String → Option ℚ :=
  fun v => if v = start then some 0 else if g.nodeIds.contains v then some MAXQ else none

/-- The `dijkstra` solver of the point-to-point file. -/
def dijkstra (g : RouteGraph) (start dst : String) : SolveResult :=
  let keys := g.nodeIds ++ (if g.nodeIds.contains start then [] else [start])
  let st0 : DijkState :=
    ⟨initDist g start, initDist g start, fun _ => none, fun _ => false⟩
  let stF := (List.range g.nodeIds.length).foldl (fun st _ => dijkstraStep g keys st) st0
  ⟨reconstructPath stF.prev start dst (keys.length + 1), stF.dist dst, stF.time dst⟩

/-- State of `bellmanFord`. -/
structure BFState where
  dist : String → Option ℚ
  time : String → Option ℚ
  prev : String → Option String

/-- One full relaxation pass of `bellmanFord` over the edge array.  The JS
guard `dist[u] !== MAX && dist[u] + e.distance < dist[v]` is true on an
`undefined` `dist[u]` for its first conjunct but false for the second
(`NaN` comparison), which the model mirrors. -/
def bellmanFordRound (g : RouteGraph) (st : BFState) : BFState :=
  g.edges.foldl
    (fun st e =>
      let u := e.frm
      let v := e.to
      if (st.dist u ≠ some MAXQ) ∧ jsLt (jsAdd (st.dist u) e.distance) (st.dist v) then
        { dist := fun x => if x = v then jsAdd (st.dist u) e.distance else st.dist x,
          time := fun x => if x = v then jsAdd (st.time u) e.time else st.time x,
          prev := fun x => if x = v then some u else st.prev x }
      else st)
    st

/-- The `bellmanFord` solver: `|V| - 1` full passes, then the shared
reconstruction. -/
def bellmanFord (g : RouteGraph) (start dst : String) : SolveResult :=
  let st0 : BFState := ⟨initDist g start, initDist g start, fun _ => none⟩
  let stF := (List.range (g.nodeIds.length - 1)).foldl (fun st _ => bellmanFordRound g st) st0
  ⟨reconstructPath stF.prev start dst (g.nodeIds.length + 2), stF.dist dst, stF.time dst⟩

/-- The `astar` heuristic `sqrt(dx² + dy²) * 111000`; `sq` abstracts JS
`Math.sqrt` (the concrete instances below use an `sq` that agrees with the
real square root on every value the run feeds it).  `none` models the JS
`TypeError` on a missing node. -/
def heuristic (sq : ℚ → ℚ) (g : RouteGraph) (dst v : String) : Option ℚ :=
  match g.nodes.find? (fun n => n.id == v), g.nodes.find? (fun n => n.id == dst) with
  | some node, some endNode =>
    let dx := qsub node.lng endNode.lng
    let dy := qsub node.lat endNode.lat
    some (qmul (sq (qadd (qmul dx dx) (qmul dy dy))) 111000)
  | _, _ => none

/-- State of the `astar` loop. -/
structure AStarState where
  openSet : List String
  cameFrom : String → Option String
  gScore : String → Option ℚ
  fScore : String → Option ℚ
  times : String → Option ℚ

/-- The lowest-`fScore` scan of `astar` (starts from `openSet[0]`; an
`undefined` score never wins a `<` comparison). -/
def astarLowest (openSet : List String) (fScore : String → Option ℚ) : String :=
  match openSet with
  | [] => ""
  | c0 :: _ =>
    (openSet.foldl
      (fun (p : Option ℚ × String) v =>
        if jsLt (fScore v) p.1 then (fScore v, v) else p)
      (fScore c0, c0)).2

/-- The main `while (openSet.length > 0)` loop of `astar`.  On fuel
exhaustion it returns the no-path result the loop would produce on its
regular exit. -/
def astarGo (sq : ℚ → ℚ) (g : RouteGraph) (start dst : String) :
    Nat → AStarState → SolveResult
  | 0, _ => ⟨[], some 0, some 0⟩
  | fuel + 1, st =>
    match st.openSet with
    | [] => ⟨[], some 0, some 0⟩
    | _ :: _ =>
      let current := astarLowest st.openSet st.fScore
      if current = dst then
        ⟨reconstructGo st.cameFrom start (g.nodeIds.length + 2) current [],
         st.gScore dst, st.times dst⟩
      else
        let st := { st with openSet := st.openSet.erase current }
        let st :=
          (g.edges.filter (fun e => e.frm == current)).foldl
            (fun st e =>
              let neighbor := e.to
              let tentativeGScore := jsAdd (st.gScore current) e.distance
              if jsLt tentativeGScore (st.gScore neighbor) then
                { openSet :=
                    if st.openSet.contains neighbor then st.openSet
                    else st.openSet ++ [neighbor],
                  cameFrom := fun x => if x = neighbor then some current else st.cameFrom x,
                  gScore := fun x => if x = neighbor then tentativeGScore else st.gScore x,
                  fScore := fun x =>
                    if x = neighbor then jsAdd2 tentativeGScore (heuristic sq g dst neighbor)
                    else st.fScore x,
                  times := fun x =>
                    if x = neighbor then jsAdd (st.times current) e.time else st.times x }
              else st)
            st
        astarGo sq g start dst fuel st

/-- The `astar` solver.  `none` models the JS `TypeError` thrown by the
initial `heuristic(start)` when `start` or `end` is not a node (every later
heuristic call is made on a node that owns a `gScore`, hence on a graph
node, so it cannot throw). -/
def astar (sq : ℚ → ℚ) (g : RouteGraph) (start dst : String) : Option SolveResult :=
  match heuristic sq g dst start with
  | none => none
  | some h0 =>
    let st0 : AStarState :=
      ⟨[start],
       fun _ => none,
       initDist g start,
       fun v => if v = start then some h0 else if g.nodeIds.contains v then some MAXQ else none,
       fun v => if v = start then some 0 else none⟩
    some (astarGo sq g start dst
      ((g.nodeIds.length + 2).factorial * (g.edges.length + g.nodeIds.length + 2)) st0)

/-- State of `floydWarshall`: the `dist`, `times` and `next` matrices as
records of records (`none` is a missing key). -/
structure FWState where
  dist : String → String → Option ℚ
  times : String → String → Option ℚ
  next : String → String → Option String

/-- Matrix initialization of `floydWarshall` (diagonal 0, `MAX` elsewhere,
`next[i][j] = j`). -/
def fwInit (g : RouteGraph) : FWState :=
  ⟨fun i j =>
     if g.nodeIds.contains i ∧ g.nodeIds.contains j then
       some (if i = j then 0 else MAXQ)
     else none,
   fun i j =>
     if g.nodeIds.contains i ∧ g.nodeIds.contains j then
       some (if i = j then 0 else MAXQ)
     else none,
   fun i j =>
     if g.nodeIds.contains i ∧ g.nodeIds.contains j then some j else none⟩

/-- Direct-edge fill of `floydWarshall`: `dist[e.from][e.to] = e.distance`
(also for a target key outside the node set, which JS adds to the row). -/
def fwFill (g : RouteGraph) (st : FWState) : FWState :=
  g.edges.foldl
    (fun st e =>
      { st with
        dist := fun i j => if i = e.frm ∧ j = e.to then some e.distance else st.dist i j,
        times := fun i j => if i = e.frm ∧ j = e.to then some e.time else st.times i j })
    st

/-- The two inner loops of `floydWarshall` for a fixed intermediate `k`. -/
def fwStep (ids : List String) (k : String) (st : FWState) : FWState :=
  ids.foldl
    (fun st i =>
      ids.foldl
        (fun st j =>
          if (st.dist i k ≠ some MAXQ) ∧ (st.dist k j ≠ some MAXQ) ∧
              jsLt (jsAdd2 (st.dist i k) (st.dist k j)) (st.dist i j) = true then
            { dist := fun a b =>
                if a = i ∧ b = j then jsAdd2 (st.dist i k) (st.dist k j) else st.dist a b,
              times := fun a b =>
                if a = i ∧ b = j then jsAdd2 (st.times i k) (st.times k j) else st.times a b,
              next := fun a b =>
                if a = i ∧ b = j then st.next i k else st.next a b }
          else st)
        st)
    st

/-- The `while (current !== end)` reconstruction of `floydWarshall`;
`none` models the `TypeError` the JS loop hits when a `next` lookup yields
`undefined` (target outside the node set). -/
def fwPath (next : String → String → Option String) (dst : String) :
    Nat → String → List String → Option (List String)
  | 0, _, acc => some acc
  | fuel + 1, current, acc =>
    if current ≠ dst then
      match next current dst with
      | some nxt => fwPath next dst fuel nxt (acc ++ [nxt])
      | none => none
    else some acc

/-- The `floydWarshall` solver.  `none` models the JS `TypeError` cases: an
edge whose source is not a node (matrix fill writes to an `undefined` row),
a `start` that is not a node (the `dist[start][end]` read), or a
reconstruction step reading a missing `next` entry. -/
def floydWarshall (g : RouteGraph) (start dst : String) : Option SolveResult :=
  let ids := g.nodeIds
  if !(g.edges.all (fun e => ids.contains e.frm)) then none
  else if !(ids.contains start) then none
  else
    let stF := ids.foldl (fun st k => fwStep ids k st) (fwFill g (fwInit g))
    if stF.dist start dst = some MAXQ then some ⟨[], some 0, some 0⟩
    else
      match stF.dist start dst with
      | none => none
      | some d =>
        match fwPath stF.next dst (ids.length + 1) start [start] with
        | none => none
        | some p => some ⟨p, some d, stF.times start dst⟩

end P2P

/-- `Vehicle` from `types.ts`. -/
inductive Vehicle
  | car
  | bike
  | truck
  | ambulance
  | bus
  | ev
deriving DecidableEq

/-- `Weather` from `types.ts`. -/
inductive Weather
  | sunny
  | rainy
  | foggy
  | snowy
  | windy
deriving DecidableEq

/-- `TimeOfDay` from `types.ts`. -/
inductive TimeOfDay
  | morning
  | afternoon
  | evening
  | night
deriving DecidableEq

/-- `MapType` from `types.ts` (`'city' | 'rural' | 'mountain'`). -/
inductive MapType
  | city
  | rural
  | mountain
deriving DecidableEq

/-- `Algorithm` from `types.ts` (`'dijkstra' | 'astar' | 'bellman-ford' |
'floyd-warshall'`). -/
inductive Algorithm
  | dijkstra
  | astar
  | bellmanFord
  | floydWarshall
deriving DecidableEq

/-- `SimulationParams` from `types.ts`. -/
structure SimulationParams where
  algorithm : Algorithm
  mapType : MapType
  weather : Weather
  timeOfDay : TimeOfDay
  startLocation : String
  endLocation : String
  vehicle : Vehicle
deriving DecidableEq

/-- The metrics record of `SimulationResult`; the fields computed from the
solver's `distance`/`time` are `Option`s because those can be `undefined`
(and JS arithmetic then yields `NaN`). -/
structure Metrics where
  time : Option ℚ
  distance : Option ℚ
  cost : Option ℚ
  fuel : Option ℚ
  trafficImpact : ℚ
  weatherImpact : ℚ
  totalScore : Option ℚ
deriving DecidableEq

/-- `SimulationResult` from `types.ts`. -/
structure SimulationResult where
  algorithm : Algorithm
  path : List String
  metrics : Metrics
deriving DecidableEq

namespace P2P

/-- `baseConsumption` (liters or kWh per km). -/
def baseConsumption : Vehicle → ℚ
  | .car => mkRat 8 100
  | .bike => 0
  | .truck => mkRat 25 100
  | .ambulance => mkRat 15 100
  | .bus => mkRat 28 100
  | .ev => mkRat 20 100

/-- `weatherFactor` of `calculateFuelConsumption`. -/
def weatherFactor : Weather → ℚ
  | .sunny => 1
  | .rainy => mkRat 112 100
  | .foggy => mkRat 105 100
  | .snowy => mkRat 125 100
  | .windy => mkRat 108 100

/-- `timeFactor` of `calculateFuelConsumption`. -/
def timeFactor : TimeOfDay → ℚ
  | .morning => mkRat 11 10
  | .afternoon => 1
  | .evening => mkRat 115 100
  | .night => mkRat 9 10

/-- `calculateFuelConsumption`: `base · weather · time · (distance/1000)`. -/
def calculateFuelConsumption (vehicle : Vehicle) (distance : Option ℚ)
    (weather : Weather) (timeOfDay : TimeOfDay) : Option ℚ :=
  let consumptionPerKm :=
    qmul (qmul (baseConsumption vehicle) (weatherFactor weather)) (timeFactor timeOfDay)
  distance.map (fun d => qmul consumptionPerKm (qdiv d 1000))

/-- `baseCostPerKm` of `calculateCost`. -/
def baseCostPerKm : Vehicle → ℚ
  | .car => mkRat 15 100
  | .bike => mkRat 2 100
  | .truck => mkRat 40 100
  | .ambulance => mkRat 50 100
  | .bus => mkRat 30 100
  | .ev => mkRat 10 100

/-- `weatherSurcharge` of `calculateCost`. -/
def weatherSurcharge : Weather → ℚ
  | .sunny => 0
  | .rainy => mkRat 15 10
  | .foggy => 1
  | .snowy => 3
  | .windy => mkRat 8 10

/-- `calculateCost`: `(distance/1000)·baseCost + (time/60)·0.5 + surcharge`. -/
def calculateCost (vehicle : Vehicle) (distance time : Option ℚ)
    (weather : Weather) : Option ℚ :=
  match distance, time with
  | some d, some t =>
    some (qadd
      (qadd (qmul (qdiv d 1000) (baseCostPerKm vehicle)) (qmul (qdiv t 60) (mkRat 1 2)))
      (weatherSurcharge weather))
  | _, _ => none

/-- `timeMultiplier` of `calculateTrafficImpact`. -/
def timeMultiplier : TimeOfDay → ℚ
  | .morning => mkRat 15 10
  | .afternoon => 1
  | .evening => mkRat 14 10
  | .night => mkRat 6 10

/-- `calculateTrafficImpact`: 0 on an empty edge list, else the clamped
`mean(trafficFactor) · timeMultiplier · 2`. -/
def calculateTrafficImpact (routeEdges : List RouteEdge) (timeOfDay : TimeOfDay) : ℚ :=
  if routeEdges.length = 0 then 0
  else
    let avgTrafficFactor :=
      qdiv (routeEdges.foldl (fun s e => qadd s e.trafficFactor) 0) (routeEdges.length : ℚ)
    let impact := qmul (qmul avgTrafficFactor (timeMultiplier timeOfDay)) 2
    min 10 (max 0 impact)

/-- `baseImpact` of `calculateWeatherImpact`. -/
def baseImpact : Weather → ℚ
  | .sunny => 1
  | .rainy => 5
  | .foggy => 6
  | .snowy => 8
  | .windy => 4

/-- `mapModifier` of `calculateWeatherImpact` (`city`/`rural`/`mountain`). -/
def mapModifier : MapType → ℚ
  | .city => mkRat 9 10
  | .rural => mkRat 12 10
  | .mountain => mkRat 15 10

/-- `calculateWeatherImpact`: the clamped `baseImpact · mapModifier`.  It
does not depend on the solved path at all. -/
def calculateWeatherImpact (weather : Weather) (mapType : MapType) : ℚ :=
  min 10 (max 0 (qmul (baseImpact weather) (mapModifier mapType)))

/-- `calculateTotalScore`: the fixed-weight sum of the normalized metrics. -/
def calculateTotalScore (time distance cost fuel : Option ℚ)
    (trafficImpact weatherImpact : ℚ) : Option ℚ :=
  match time, distance, cost, fuel with
  | some t, some d, some c, some f =>
    let normalizedTime := min 100 (qmul (qdiv t 3600) 100)
    let normalizedDistance := min 100 (qmul (qdiv d 10000) 100)
    let normalizedCost := min 100 (qmul c 10)
    let normalizedFuel := min 100 (qmul f 20)
    some (qadd (qadd (qadd (qadd (qadd
      (qmul normalizedTime (mkRat 3 10))
      (qmul normalizedDistance (mkRat 25 100)))
      (qmul normalizedCost (mkRat 15 100)))
      (qmul normalizedFuel (mkRat 1 10)))
      (qmul (qmul trafficImpact 10) (mkRat 1 10)))
      (qmul (qmul weatherImpact 10) (mkRat 1 10)))
  | _, _, _, _ => none

/-- `findPathEdges`: the matching edges of consecutive path pairs (missing
edges are skipped). -/
def findPathEdges (g : RouteGraph) : List String → List RouteEdge
  | a :: b :: rest =>
    (match g.edges.find? (fun e => e.frm == a && e.to == b) with
     | some e => [e]
     | none => []) ++ findPathEdges g (b :: rest)
  | _ => []

/-- `runSimulation` of the point-to-point file.  `getRouteGraph(mapType)` is
the out-of-scope graph-construction collaborator (it draws `Math.random`
traffic factors), so the graph it returned for this call is passed as the
`graph` argument; `sq` abstracts `Math.sqrt` for the astar heuristic.  The
result is `none` when the dispatched solver throws (astar/floydWarshall
`TypeError` cases).  The `default` switch case (dijkstra) is unreachable:
`Algorithm` is closed over exactly the four ids. -/
def runSimulation (sq : ℚ → ℚ) (graph : RouteGraph) (params : SimulationParams) :
    Option SimulationResult :=
  let result? : Option SolveResult :=
    match params.algorithm with
    | .dijkstra => some (dijkstra graph params.startLocation params.endLocation)
    | .astar => astar sq graph params.startLocation params.endLocation
    | .bellmanFord => some (bellmanFord graph params.startLocation params.endLocation)
    | .floydWarshall => floydWarshall graph params.startLocation params.endLocation
  match result? with
  | none => none
  | some r =>
    let pathEdges := findPathEdges graph r.path
    let fuel := calculateFuelConsumption params.vehicle r.distance params.weather params.timeOfDay
    let cost := calculateCost params.vehicle r.distance r.time params.weather
    let trafficImpact := calculateTrafficImpact pathEdges params.timeOfDay
    let weatherImpact := calculateWeatherImpact params.weather params.mapType
    let totalScore := calculateTotalScore r.time r.distance cost fuel trafficImpact weatherImpact
    some ⟨params.algorithm, r.path,
      ⟨r.time, r.distance, cost, fuel, trafficImpact, weatherImpact, totalScore⟩⟩

/-- The `handleRunSimulation` click handler of `Index.tsx`: it rejects
`startLocation === endLocation` with an error toast before `runSimulation`
is ever invoked.  `none` means no simulation result was produced (the
rejection, or a caught exception). -/
def handleRunSimulation (sq : ℚ → ℚ) (graph : RouteGraph) (params : SimulationParams) :
    Option SimulationResult :=
  if params.startLocation = params.endLocation then none
  else runSimulation sq graph params

end P2P

namespace Variant

/-- Best candidate of the point-to-point `bruteForce` variant
(`bestPath`/`bestDistance`/`bestTime`). -/
structure VBest where
  path : List String
  distance : ℚ
  time : ℚ
deriving DecidableEq

/-- The recursive `findAllPaths` of the point-to-point `bruteForce` variant:
record the path when the target is reached, otherwise stop silently once
`path.length > 5` (the depth cap), else extend along unvisited edges.  The
fuel (number of nodes + 2) exceeds the recursion depth, which grows the
visited set at every level. -/
def findAllPaths (g : RouteGraph) (target : String) :
    Nat → String → List String → List String → VBest → VBest
  | 0, _, _, _, best => best
  | fuel + 1, current, visited, path, best =>
    if current = target then
      let pathCost := TSP.calculatePathCost path g
      let pathTime := TSP.calculatePathTime path g
      if pathCost < best.distance then ⟨path, pathCost, pathTime⟩ else best
    else if 5 < path.length then best
    else
      (g.edges.filter (fun e => e.frm == current && !(visited.contains e.to))).foldl
        (fun best e =>
          findAllPaths g target fuel e.to (visited ++ [e.to]) (path ++ [e.to]) best)
        best

/-- The point-to-point `bruteForce` variant (the file with the silent
5-hop depth cap); `calculatePathCost`/`calculatePathTime` are that file's
identical copies of the TSP helpers. -/
def bruteForce (g : RouteGraph) (start dst : String) : TourResult :=
  let nodeIds := g.nodeIds
  if !(nodeIds.contains start) || !(nodeIds.contains dst) then ⟨[], 0, 0⟩
  else
    let best :=
      findAllPaths g dst (nodeIds.length + 2) start [start] [start] ⟨[], MAXQ, MAXQ⟩
    ⟨best.path, if best.distance = MAXQ then 0 else best.distance,
     if best.time = MAXQ then 0 else best.time⟩

end Variant


/-! ### Concrete inputs used by the claim instances -/

/-- Helper to build an edge with `time = distance` and traffic factor 1. -/
def mkEdge (a b : String) (d : ℚ) : RouteEdge := ⟨a, b, d, d, 1⟩

/-- The four-node graph on which `branchAndBound` prunes the optimal branch:
its lower bound counts, for every unvisited node, only edges to unvisited
nodes, so the expensive edge `D→C` (50) inflates the bound of the partial
tour `[A, B]` beyond the cost of the complete tour found first. -/
def bbBugGraph : RouteGraph :=
  ⟨[⟨"A", 0, 0⟩, ⟨"B", 0, 1⟩, ⟨"C", 1, 1⟩, ⟨"D", 1, 0⟩],
   [mkEdge "A" "B" 1, mkEdge "B" "A" 2, mkEdge "B" "C" 1, mkEdge "C" "B" 2,
    mkEdge "C" "D" 1, mkEdge "D" "C" 50, mkEdge "D" "A" 1, mkEdge "A" "D" 2,
    mkEdge "A" "C" 2, mkEdge "C" "A" 2, mkEdge "B" "D" 2, mkEdge "D" "B" 2]⟩

/-- Two isolated nodes: no path from `A` to `B`. -/
def disconnGraph : RouteGraph := ⟨[⟨"A", 0, 0⟩, ⟨"B", 0, 1⟩], []⟩

/-- Two parallel edges `A→B` (5 listed first, then 3): the solvers relax
with the minimum while `edges.find` sums with the first. -/
def parallelGraph : RouteGraph :=
  ⟨[⟨"A", 0, 0⟩, ⟨"B", 0, 1⟩], [mkEdge "A" "B" 5, mkEdge "A" "B" 3]⟩

/-- Square-root oracle for `parallelGraph`: the only input the astar run
produces is `dx² + dy² = 1`, and `sqrt 1 = 1`. -/
def sqP : ℚ → ℚ := fun q => if q = 1 then 1 else 0

/-- Square-root oracle for `astarGraph`: agrees with the real square root
on every input the run produces (see `sq0_matches_sqrt`). -/
def sq0 : ℚ → ℚ :=
  fun q =>
    if q = mkRat 1 1232100 then mkRat 1 1110
    else if q = mkRat 4 1232100 then mkRat 2 1110
    else 0

/-- Graph on which the built-in heuristic overestimates: the cheap relay
`M` sits at straight-line distance 100 m from `E` while the edges `S→M→E`
cost 1 + 1; the direct edge `S→E` costs 10. -/
def astarGraph : RouteGraph :=
  ⟨[⟨"S", 0, mkRat 2 1110⟩, ⟨"M", 0, mkRat 1 1110⟩, ⟨"E", 0, 0⟩],
   [mkEdge "S" "M" 1, mkEdge "M" "E" 1, mkEdge "S" "E" 10]⟩

/-- An eight-node chain `A0 → A1 → ... → A7`: the only `A0`-to-`A7` path
has 7 hops, beyond the 5-hop cap of the brute-force variant. -/
def chainGraph : RouteGraph :=
  ⟨[⟨"A0", 0, 0⟩, ⟨"A1", 0, 1⟩, ⟨"A2", 0, 2⟩, ⟨"A3", 0, 3⟩,
    ⟨"A4", 0, 4⟩, ⟨"A5", 0, 5⟩, ⟨"A6", 0, 6⟩, ⟨"A7", 0, 7⟩],
   [mkEdge "A0" "A1" 1, mkEdge "A1" "A2" 1, mkEdge "A2" "A3" 1, mkEdge "A3" "A4" 1,
    mkEdge "A4" "A5" 1, mkEdge "A5" "A6" 1, mkEdge "A6" "A7" 1]⟩

/-- A graph whose node set is `{B, C}` while the edges reference a foreign
start node `S`: `nearestNeighbor` then closes its "tour" after visiting only
`B` (the visited-set size already equals the node count). -/
def foreignStartGraph : RouteGraph :=
  ⟨[⟨"B", 0, 0⟩, ⟨"C", 0, 1⟩], [mkEdge "S" "B" 1, mkEdge "B" "S" 1]⟩

/-- Parameters of the `C2`/`C5` instances. -/
def paramsDisc : SimulationParams :=
  ⟨.dijkstra, .city, .sunny, .afternoon, "A", "B", .car⟩

/-- The simulation result of `runSimulation` on `disconnGraph` with
`paramsDisc` (extracted with a default that the run never returns). -/
def resultDisc : SimulationResult :=
  (P2P.runSimulation (fun _ => 0) disconnGraph paramsDisc).getD
    ⟨.dijkstra, ["x"], ⟨none, none, none, none, 0, 0, none⟩⟩

/-! ### Predicates used by the general theorems -/

/-- Invariant of the dijkstra/bellmanFord relaxation state: a node whose
predecessor was never set still carries its initial distance and time; a
recorded predecessor is never the falsy `""`; and a node that owns a
distance value or a predecessor is a key of the initial record (a graph
node or `start`). -/
def RelaxInv (g : RouteGraph) (s : String)
    (dist time : String → Option ℚ) (prev : String → Option String) : Prop :=
  (∀ v, prev v = none → dist v = P2P.initDist g s v ∧ time v = P2P.initDist g s v) ∧
  (∀ v u, prev v = some u → u ≠ "") ∧
  (∀ v, dist v ≠ none ∨ prev v ≠ none → v ∈ g.nodeIds ∨ v = s)

/-- The first matching edge of an ordered node pair (JS `edges.find`). -/
def findEdge (g : RouteGraph) (a b : String) : Option RouteEdge :=
  g.edges.find? (fun e => e.frm == a && e.to == b)

/-- Whether consecutive entries of a vertex list are all joined by edges. -/
def chainOk (g : RouteGraph) : List String → Bool
  | a :: b :: rest => (findEdge g a b).isSome && chainOk g (b :: rest)
  | _ => true

/-- The sum of an edge field over the first matching edges of consecutive
pairs of a vertex list (`0` stands in for a missing edge). -/
def chainSum (g : RouteGraph) (f : RouteEdge → ℚ) : List String → ℚ
  | a :: b :: rest => qadd (((findEdge g a b).map f).getD 0) (chainSum g f (b :: rest))
  | _ => 0

/-- The duplicate-free vertex lists over the node ids that lead from `s`
to `e` along edges: the simple paths of the graph. -/
def simpleChains (g : RouteGraph) (s e : String) : List (List String) :=
  (g.nodeIds.sublists.flatMap (fun l => TSP.permute l)).filter
    (fun p => p.head? == some s && p.getLast? == some e && chainOk g p)

/-- The least `distance`-sum over the simple paths from `s` to `e`: the
mathematical shortest-path distance, `none` when not connected. -/
def deltaDist (g : RouteGraph) (s e : String) : Option ℚ :=
  (simpleChains g s e).foldl
    (fun acc p =>
      match acc with
      | none => some (chainSum g (fun ed => ed.distance) p)
      | some a => some (min a (chainSum g (fun ed => ed.distance) p)))
    none

/-- Kernel-computable sum of all edge distances of the graph. -/
def edgeSum (g : RouteGraph) : ℚ := g.edges.foldl (fun a e => qadd a e.distance) 0

/-- Invariant of the dijkstra main loop under the well-formedness
hypotheses of the shortest-path claims: the start keeps distance and time
`0`; every node owns a distance in `[0, MAX]` realized (below the
sentinel) by a duplicate-free edge-joined chain from the start through
visited nodes; visited nodes are never farther than unvisited ones; edges
out of visited nodes are fully relaxed; and every predecessor entry
records the exact edge relaxation that produced the current values. -/
def DijkInv (g : RouteGraph) (s : String) (st : P2P.DijkState) : Prop :=
  st.dist s = some 0 ∧ st.time s = some 0 ∧
  (∀ v ∈ g.nodeIds, ∃ dv tv, st.dist v = some dv ∧ st.time v = some tv ∧
      0 ≤ dv ∧ dv ≤ MAXQ ∧
      (dv ≠ MAXQ ∨ v = s →
        ∃ p, p.Nodup ∧ chainOk g p = true ∧ p.head? = some s ∧ p.getLast? = some v ∧
          (∀ w ∈ p, w ∈ g.nodeIds) ∧ (∀ w ∈ p, st.visited w = true ∨ w = v) ∧
          chainSum g (fun ed => ed.distance) p = dv ∧
          chainSum g (fun ed => ed.time) p = tv)) ∧
  (∀ x ∈ g.nodeIds, ∀ y ∈ g.nodeIds, st.visited x = true → st.visited y = false →
      ∀ dx dy, st.dist x = some dx → st.dist y = some dy → dx ≤ dy) ∧
  (∀ e ∈ g.edges, st.visited e.frm = true →
      ∀ du dv, st.dist e.frm = some du → st.dist e.to = some dv → dv ≤ du + e.distance) ∧
  (∀ v u, st.prev v = some u → st.visited u = true ∧ u ∈ g.nodeIds ∧ v ∈ g.nodeIds ∧ v ≠ s ∧
      ∃ ed du tu, findEdge g u v = some ed ∧ st.dist u = some du ∧ st.time u = some tu ∧
        st.dist v = some (du + ed.distance) ∧ st.time v = some (tu + ed.time) ∧
        du + ed.distance ≠ MAXQ) ∧
  (∀ v ∈ g.nodeIds, v ≠ s → ∀ dv, st.dist v = some dv → dv ≠ MAXQ → st.prev v ≠ none)

/-- State of the dijkstra loop right after marking the selected node `u`
(whose frozen distance is `du`) visited, and between the relaxations of
its outgoing edges: the global invariant, except that only edges out of
previously visited nodes are known to be relaxed, plus the facts that `u`
is visited, holds `du`, and no visited node is farther than `du`. -/
def DijkMid (g : RouteGraph) (s u : String) (du : ℚ) (st : P2P.DijkState) : Prop :=
  st.visited u = true ∧ st.dist u = some du ∧
  (∀ x ∈ g.nodeIds, st.visited x = true → ∀ dx, st.dist x = some dx → dx ≤ du) ∧
  st.dist s = some 0 ∧ st.time s = some 0 ∧
  (∀ v ∈ g.nodeIds, ∃ dv tv, st.dist v = some dv ∧ st.time v = some tv ∧
      0 ≤ dv ∧ dv ≤ MAXQ ∧
      (dv ≠ MAXQ ∨ v = s →
        ∃ p, p.Nodup ∧ chainOk g p = true ∧ p.head? = some s ∧ p.getLast? = some v ∧
          (∀ w ∈ p, w ∈ g.nodeIds) ∧ (∀ w ∈ p, st.visited w = true ∨ w = v) ∧
          chainSum g (fun ed => ed.distance) p = dv ∧
          chainSum g (fun ed => ed.time) p = tv)) ∧
  (∀ x ∈ g.nodeIds, ∀ y ∈ g.nodeIds, st.visited x = true → st.visited y = false →
      ∀ dx dy, st.dist x = some dx → st.dist y = some dy → dx ≤ dy) ∧
  (∀ e ∈ g.edges, e.frm ≠ u → st.visited e.frm = true →
      ∀ dx dv, st.dist e.frm = some dx → st.dist e.to = some dv → dv ≤ dx + e.distance) ∧
  (∀ v w, st.prev v = some w → st.visited w = true ∧ w ∈ g.nodeIds ∧ v ∈ g.nodeIds ∧ v ≠ s ∧
      ∃ ed dw tw, findEdge g w v = some ed ∧ st.dist w = some dw ∧ st.time w = some tw ∧
        st.dist v = some (dw + ed.distance) ∧ st.time v = some (tw + ed.time) ∧
        dw + ed.distance ≠ MAXQ) ∧
  (∀ v ∈ g.nodeIds, v ≠ s → ∀ dv, st.dist v = some dv → dv ≠ MAXQ → st.prev v ≠ none)

/-- The tour-validity property of spec claim C7: the tour starts and ends
at the requested start node, and every other node of the graph appears in
it exactly once. -/
def ValidTour (g : RouteGraph) (start : String) (p : List String) : Prop :=
  p.head? = some start ∧ p.getLast? = some start ∧
  ∀ v ∈ g.nodeIds, v ≠ start → p.count v = 1

/-- Well-formedness of the Held-Karp tables: a defined `dp[mask][v]` entry
is over a mask that contains both `v` and the start bit and lies below
`2 ^ n`; the start city only ever owns the singleton start mask; and away
from the start mask the matching `parent` entry points to a different city
of the mask whose own entry (for the mask without `v`) is defined. -/
def DPInv (n startIndex : Nat) (st : TSP.DPState) : Prop :=
  ∀ m v, st.dp m v ≠ none →
    v < n ∧ m < 2 ^ n ∧ m.testBit v = true ∧ m.testBit startIndex = true ∧
    (v = startIndex → m = 2 ^ startIndex) ∧
    (m ≠ 2 ^ startIndex → ∃ u, st.parent m v = some u ∧ u ≠ v ∧
      m.testBit u = true ∧ st.dp (m ^^^ 2 ^ v) u ≠ none)

/-- Invariant of the bellmanFord relaxation passes: the start keeps `0`;
nodes outside the graph stay undefined; every node owns a distance in
`[0, MAX]` realized (below the sentinel) by an edge-joined chain from the
start; and every predecessor entry records an edge relaxation whose source
value can only have shrunk since (with the time tied to an unchanged
source). -/
def BFInv (g : RouteGraph) (s : String) (st : P2P.BFState) : Prop :=
  st.dist s = some 0 ∧ st.time s = some 0 ∧
  (∀ w, w ∉ g.nodeIds → st.dist w = none) ∧
  (∀ v ∈ g.nodeIds, ∃ dv tv, st.dist v = some dv ∧ st.time v = some tv ∧
      0 ≤ dv ∧ dv ≤ MAXQ ∧
      (dv ≠ MAXQ ∨ v = s →
        ∃ p, chainOk g p = true ∧ p.head? = some s ∧ p.getLast? = some v ∧
          (∀ w ∈ p, w ∈ g.nodeIds) ∧
          chainSum g (fun ed => ed.distance) p = dv ∧
          chainSum g (fun ed => ed.time) p = tv)) ∧
  (∀ v u, st.prev v = some u → u ∈ g.nodeIds ∧ v ∈ g.nodeIds ∧ v ≠ s ∧
      ∃ ed dr tr du tu, findEdge g u v = some ed ∧
        st.dist v = some (dr + ed.distance) ∧ st.time v = some (tr + ed.time) ∧
        dr + ed.distance ≠ MAXQ ∧
        st.dist u = some du ∧ st.time u = some tu ∧ du ≤ dr ∧ (du = dr → tu = tr)) ∧
  (∀ v ∈ g.nodeIds, v ≠ s → ∀ dv, st.dist v = some dv → dv ≠ MAXQ → st.prev v ≠ none)

/-- Invariant of the floydWarshall matrices: every in-graph pair owns
defined distance/time entries with the distance in `[0, MAX]` realized
(below the sentinel) by an edge-joined chain; the diagonal is `0`; and a
non-sentinel off-diagonal entry owns a `next` record: an actual first edge
together with a chain completing it whose total is the recorded entry. -/
def FWInv (g : RouteGraph) (st : P2P.FWState) : Prop :=
  (∀ i ∈ g.nodeIds, ∀ j ∈ g.nodeIds, ∃ d t, st.dist i j = some d ∧ st.times i j = some t ∧
      0 ≤ d ∧ d ≤ MAXQ ∧
      (d ≠ MAXQ ∨ i = j →
        ∃ p, chainOk g p = true ∧ p.head? = some i ∧ p.getLast? = some j ∧
          (∀ w ∈ p, w ∈ g.nodeIds) ∧ chainSum g (fun ed => ed.distance) p = d)) ∧
  (∀ i ∈ g.nodeIds, st.dist i i = some 0) ∧
  (∀ i ∈ g.nodeIds, ∀ j ∈ g.nodeIds, i ≠ j → ∀ d, st.dist i j = some d → d ≠ MAXQ →
      ∃ v, st.next i j = some v ∧ v ∈ g.nodeIds ∧
        ∃ ed, findEdge g i v = some ed ∧
          ∃ q, chainOk g q = true ∧ q.head? = some v ∧ q.getLast? = some j ∧
            (∀ w ∈ q, w ∈ g.nodeIds) ∧
            st.dist i j = some (ed.distance + chainSum g (fun e2 => e2.distance) q))

/-- The loop body of `fwStep` for the pair `(i, j)` with intermediate `k`
(the innermost statement of the triple loop of `floydWarshall`). -/
def fwPair (k i : String) : P2P.FWState → String → P2P.FWState := fun st j =>
  if (st.dist i k ≠ some MAXQ) ∧ (st.dist k j ≠ some MAXQ) ∧
      jsLt (jsAdd2 (st.dist i k) (st.dist k j)) (st.dist i j) = true then
    { dist := fun a b =>
        if a = i ∧ b = j then jsAdd2 (st.dist i k) (st.dist k j) else st.dist a b,
      times := fun a b =>
        if a = i ∧ b = j then jsAdd2 (st.times i k) (st.times k j) else st.times a b,
      next := fun a b =>
        if a = i ∧ b = j then st.next i k else st.next a b }
  else st

/-- Completeness of a floydWarshall state with respect to a processed
prefix of intermediates: every simple chain whose interior vertices lie in
the prefix already bounds the recorded entry of its endpoints. -/
def FWComp (g : RouteGraph) (K : List String) (st : P2P.FWState) : Prop :=
  ∀ i ∈ g.nodeIds, ∀ j ∈ g.nodeIds, ∀ mid : List String,
    (i :: mid ++ [j]).Nodup → chainOk g (i :: mid ++ [j]) = true →
    (∀ w ∈ mid, w ∈ g.nodeIds) → (∀ w ∈ mid, w ∈ K) →
    ∀ d, st.dist i j = some d → d ≤ chainSum g (fun ed => ed.distance) (i :: mid ++ [j])

set_option maxRecDepth 400000

/-! ### Bridging lemmas for the kernel-reducible arithmetic -/

theorem qadd_eq (a b : ℚ) : qadd a b = a + b := (Rat.add_def' a b).symm

theorem qsub_eq (a b : ℚ) : qsub a b = a - b := (Rat.sub_def' a b).symm

theorem qmul_eq (a b : ℚ) : qmul a b = a * b := by
  rw [qmul, Rat.mul_def, Rat.normalize_eq_mkRat]

theorem qinv_eq (b : ℚ) : qinv b = b⁻¹ := (Rat.inv_def' b).symm

theorem qdiv_eq (a b : ℚ) : qdiv a b = a / b := by
  rw [qdiv, qmul_eq, qinv_eq, div_eq_mul_inv]

theorem MAXQ_eq : MAXQ = 2 ^ 53 - 1 := by norm_num [MAXQ]

/-! ### C1 -/

/-- C1: the claim that Brute-Force, Held-Karp and Branch-and-Bound report
identical minimum tour costs fails: on `bbBugGraph`, Brute-Force and
Held-Karp report the optimal cost 4 (tour `A→B→C→D→A`), but Branch-and-Bound
reports 7 — its `calculateTSPBound` counts, for each unvisited node, only
edges towards unvisited nodes, so the expensive `D→C` edge inflates the
bound of the optimal partial tour `[A, B]` past the first complete tour
found, and the optimal branch is pruned.  This contradicts the solver's own
description ("Guarantees optimal TSP solution"), so the code, not the
claim, is at fault. -/
theorem C1_branchAndBound_suboptimal_on_bbBugGraph :
    (TSP.bruteForce bbBugGraph "A").distance = 4 ∧
    (TSP.dynamicProgramming bbBugGraph "A").distance = 4 ∧
    (TSP.nearestNeighbor bbBugGraph "A").distance = 4 ∧
    (TSP.branchAndBound bbBugGraph "A").distance = 7 ∧
    (TSP.branchAndBound bbBugGraph "A").path = ["A", "D", "B", "C", "A"] := by
  decide

/-! ### C8 -/

/-- C8: the point-to-point brute-force variant caps its search depth at 5
hops without signaling truncation (its result type carries no flag): on the
eight-node chain `chainGraph` every `A0→A7` path is 7 hops long, a path
exists (the explicit chain, cost 7, which `dijkstra` finds), yet the
variant returns the empty path with distance 0 and time 0. -/
theorem C8_bruteForce_depth_cap_returns_empty :
    Variant.bruteForce chainGraph "A0" "A7" = ⟨[], 0, 0⟩ ∧
    TSP.calculatePathCost ["A0", "A1", "A2", "A3", "A4", "A5", "A6", "A7"] chainGraph = 7 ∧
    (P2P.dijkstra chainGraph "A0" "A7").distance = some 7 := by
  decide

/-! ### C9 -/

/-- C9: re-running `runSimulation` with the same `SimulationParams` and the
same graph yields identical `path`, `distance` and `time` fields.  In the
source the only nondeterminism is `Math.random` inside the external
`getRouteGraph` collaborator; holding the graph (and the `Math.sqrt`
oracle) fixed, `runSimulation` is a pure function of its inputs, so the two
runs coincide definitionally. -/
theorem C9_runSimulation_idempotent (sq : ℚ → ℚ) (graph : RouteGraph)
    (params : SimulationParams) :
    (P2P.runSimulation sq graph params).map
        (fun r => (r.path, r.metrics.distance, r.metrics.time))
      = (P2P.runSimulation sq graph params).map
        (fun r => (r.path, r.metrics.distance, r.metrics.time)) :=
  rfl

/-! ### C10 -/

/-- C10: on a graph with exactly one node (the start node) and no self-edge
back to it, `dynamicProgramming` short-circuits its `n <= 1` guard to the
one-element tour `[start]` with distance 0 and time 0, while `bruteForce`
(whose only candidate `[start, start]` has no edge, hence cost
`MAX_SAFE_INTEGER`, mapped to the empty result) and `nearestNeighbor`
(whose closing `start→start` edge is missing) return the empty path with
distance 0 and time 0. -/
theorem C10_single_node_disagreement (nd : RouteNode) (edges : List RouteEdge)
    (h : ∀ e ∈ edges, ¬(e.frm = nd.id ∧ e.to = nd.id)) :
    TSP.dynamicProgramming ⟨[nd], edges⟩ nd.id = ⟨[nd.id], 0, 0⟩ ∧
    TSP.bruteForce ⟨[nd], edges⟩ nd.id = ⟨[], 0, 0⟩ ∧
    TSP.nearestNeighbor ⟨[nd], edges⟩ nd.id = ⟨[], 0, 0⟩ := by
  have hfind : edges.find? (fun e => e.frm == nd.id && e.to == nd.id) = none := by
    rw [List.find?_eq_none]
    intro e he
    have := h e he
    simp only [Bool.and_eq_true, beq_iff_eq]
    intro hc
    exact this ⟨hc.1, hc.2⟩
  refine ⟨?_, ?_, ?_⟩
  · simp [TSP.dynamicProgramming, RouteGraph.nodeIds]
  · simp only [TSP.bruteForce, RouteGraph.nodeIds, List.map_cons, List.map_nil,
      List.contains_cons, beq_self_eq_true, Bool.true_or, Bool.not_true,
      Bool.false_eq_true, if_false]
    have hperm : TSP.permute (([nd.id] : List String).filter (fun n => n != nd.id)) = [[]] := by
      simp [TSP.permute, TSP.permuteAux]
    rw [hperm]
    simp [TSP.calculatePathCost, TSP.calculatePathTime, TSP.pathCostAux, TSP.pathTimeAux, hfind]
  · simp [TSP.nearestNeighbor, RouteGraph.nodeIds, TSP.nnLoop, hfind]

/-- Witness for `C10_single_node_disagreement` at the concrete single-node
graph `⟨[A], []⟩`. -/
theorem C10_single_node_disagreement_witness :
    TSP.dynamicProgramming ⟨[⟨"A", 0, 0⟩], []⟩ "A" = ⟨["A"], 0, 0⟩ ∧
    TSP.bruteForce ⟨[⟨"A", 0, 0⟩], []⟩ "A" = ⟨[], 0, 0⟩ ∧
    TSP.nearestNeighbor ⟨[⟨"A", 0, 0⟩], []⟩ "A" = ⟨[], 0, 0⟩ :=
  C10_single_node_disagreement ⟨"A", 0, 0⟩ [] (by simp)

/-! ### C5 -/

/-- C5 counterexample: `runSimulation`, given a point-to-point request with
`startLocation == endLocation`, performs no validation and solves it: the
dispatched dijkstra returns the one-node path `[start]` (with zero
distance), so the result is a solved route, not a rejection. -/
theorem C5_runSimulation_solves_start_eq_end :
    ((P2P.runSimulation (fun _ => 0) disconnGraph
        ⟨.dijkstra, .city, .sunny, .afternoon, "A", "A", .car⟩).map
          (fun r => (r.path, r.metrics.distance)))
      = some (["A"], some 0) := by
  decide

/-- C5 amended: the `start ≠ end` validation is performed by the UI click
handler `handleRunSimulation` (which returns without producing a result)
before `runSimulation` is ever invoked; `runSimulation` itself solves such
requests — dijkstra's reconstruction returns `[start]` for any nonempty
`start` whenever `end = start`. -/
theorem C5_validation_in_handleRunSimulation (sq : ℚ → ℚ) (graph : RouteGraph)
    (params : SimulationParams) (h : params.startLocation = params.endLocation)
    (hne : params.startLocation ≠ "") :
    P2P.handleRunSimulation sq graph params = none ∧
    (P2P.dijkstra graph params.startLocation params.endLocation).path
      = [params.startLocation] := by
  constructor
  · simp [P2P.handleRunSimulation, h]
  · rw [← h]
    simp [P2P.dijkstra, P2P.reconstructPath, P2P.reconstructGo, hne]

/-- Witness for `C5_validation_in_handleRunSimulation` on `disconnGraph`. -/
theorem C5_validation_in_handleRunSimulation_witness :
    P2P.handleRunSimulation (fun _ => 0) disconnGraph
        ⟨.dijkstra, .city, .sunny, .afternoon, "A", "A", .car⟩ = none ∧
    (P2P.dijkstra disconnGraph "A" "A").path = ["A"] :=
  C5_validation_in_handleRunSimulation (fun _ => 0) disconnGraph
    ⟨.dijkstra, .city, .sunny, .afternoon, "A", "A", .car⟩ rfl (by decide)

/-! ### C2 -/

/-- `calculateWeatherImpact` is strictly positive for every weather and map
type (the smallest table value is `1 × 0.9`). -/
theorem calculateWeatherImpact_pos (w : Weather) (m : MapType) :
    0 < P2P.calculateWeatherImpact w m := by
  cases w <;> cases m <;> decide

/-- C2 counterexample: on `disconnGraph` (no path `A→B`), dijkstra's
simulation returns the empty path, but the metrics are not all zero:
`distance` and `time` carry the `MAX_SAFE_INTEGER` sentinel and
`weatherImpact` is `0.9` (sunny × city). -/
theorem C2_empty_path_with_nonzero_metrics :
    ((P2P.runSimulation (fun _ => 0) disconnGraph paramsDisc).map
        (fun r => (r.path, r.metrics.distance, r.metrics.time, r.metrics.weatherImpact)))
      = some ([], some MAXQ, some MAXQ, mkRat 9 10) ∧
    MAXQ ≠ 0 ∧ mkRat 9 10 ≠ 0 := by
  decide

/-- C2 amended: when the returned path is empty, `trafficImpact` is 0 (it is
computed from the path's edges), but the other metrics are not all zero:
`weatherImpact = clamp(0, 10, baseImpact × mapModifier)` is strictly
positive for every weather/map combination, and the `distance`/`time`
fields simply repeat the solver's sentinels (see
`C2_empty_path_with_nonzero_metrics`). -/
theorem C2_empty_path_metrics (sq : ℚ → ℚ) (graph : RouteGraph)
    (params : SimulationParams) (r : SimulationResult)
    (hr : P2P.runSimulation sq graph params = some r) (hp : r.path = []) :
    r.metrics.trafficImpact = 0 ∧ 0 < r.metrics.weatherImpact := by
  rcases params with ⟨alg, mt, w, tod, s, e, veh⟩
  cases alg
  case dijkstra =>
    simp only [P2P.runSimulation, Option.some_inj] at hr
    subst hr
    simp only at hp ⊢
    rw [hp]
    exact ⟨rfl, calculateWeatherImpact_pos w mt⟩
  case bellmanFord =>
    simp only [P2P.runSimulation, Option.some_inj] at hr
    subst hr
    simp only at hp ⊢
    rw [hp]
    exact ⟨rfl, calculateWeatherImpact_pos w mt⟩
  case astar =>
    simp only [P2P.runSimulation] at hr
    cases hA : P2P.astar sq graph s e with
    | none => rw [hA] at hr; simp at hr
    | some r0 =>
      rw [hA] at hr
      simp only [Option.some_inj] at hr
      subst hr
      simp only at hp ⊢
      rw [hp]
      exact ⟨rfl, calculateWeatherImpact_pos w mt⟩
  case floydWarshall =>
    simp only [P2P.runSimulation] at hr
    cases hA : P2P.floydWarshall graph s e with
    | none => rw [hA] at hr; simp at hr
    | some r0 =>
      rw [hA] at hr
      simp only [Option.some_inj] at hr
      subst hr
      simp only at hp ⊢
      rw [hp]
      exact ⟨rfl, calculateWeatherImpact_pos w mt⟩

/-- Witness for `C2_empty_path_metrics` on `disconnGraph`. -/
theorem C2_empty_path_metrics_witness :
    resultDisc.metrics.trafficImpact = 0 ∧ 0 < resultDisc.metrics.weatherImpact :=
  C2_empty_path_metrics (fun _ => 0) disconnGraph paramsDisc resultDisc
    (by decide) (by decide)

/-! ### C3 -/

/-- C3 counterexample: on `disconnGraph` both endpoints are nodes and no
path exists, yet `dijkstra` and `bellmanFord` return the empty path with
`distance = time = MAX_SAFE_INTEGER` — not `0` as the claim states. -/
theorem C3_sentinel_distance_on_disconnected :
    P2P.dijkstra disconnGraph "A" "B" = ⟨[], some MAXQ, some MAXQ⟩ ∧
    P2P.bellmanFord disconnGraph "A" "B" = ⟨[], some MAXQ, some MAXQ⟩ ∧
    MAXQ ≠ 0 ∧ "A" ∈ disconnGraph.nodeIds ∧ "B" ∈ disconnGraph.nodeIds := by
  decide

/-! ### C4 -/

/-- The square-root oracles fed to `astar` below agree with the real square
root on every input their runs produce. -/
theorem sq_oracles_match_sqrt :
    Real.sqrt ((mkRat 1 1232100 : ℚ) : ℝ) = ((sq0 (mkRat 1 1232100) : ℚ) : ℝ) ∧
    Real.sqrt ((mkRat 4 1232100 : ℚ) : ℝ) = ((sq0 (mkRat 4 1232100) : ℚ) : ℝ) ∧
    Real.sqrt ((0 : ℚ) : ℝ) = ((sq0 0 : ℚ) : ℝ) ∧
    Real.sqrt ((1 : ℚ) : ℝ) = ((sqP 1 : ℚ) : ℝ) ∧
    Real.sqrt ((0 : ℚ) : ℝ) = ((sqP 0 : ℚ) : ℝ) := by
  have e1 : sq0 (mkRat 1 1232100) = mkRat 1 1110 := by decide
  have e2 : sq0 (mkRat 4 1232100) = mkRat 2 1110 := by decide
  have e3 : sq0 0 = 0 := by decide
  have e4 : sqP 1 = 1 := by decide
  have e5 : sqP 0 = 0 := by decide
  rw [e1, e2, e3, e4, e5]
  have c1 : ((mkRat 1 1232100 : ℚ) : ℝ) = ((mkRat 1 1110 : ℚ) : ℝ) ^ 2 := by
    rw [Rat.mkRat_eq_div, Rat.mkRat_eq_div]
    push_cast
    norm_num
  have c2 : ((mkRat 4 1232100 : ℚ) : ℝ) = ((mkRat 2 1110 : ℚ) : ℝ) ^ 2 := by
    rw [Rat.mkRat_eq_div, Rat.mkRat_eq_div]
    push_cast
    norm_num
  have p1 : (0 : ℝ) ≤ ((mkRat 1 1110 : ℚ) : ℝ) := by
    rw [Rat.mkRat_eq_div]; positivity
  have p2 : (0 : ℝ) ≤ ((mkRat 2 1110 : ℚ) : ℝ) := by
    rw [Rat.mkRat_eq_div]; positivity
  refine ⟨?_, ?_, ?_, ?_, ?_⟩
  · rw [c1, Real.sqrt_sq p1]
  · rw [c2, Real.sqrt_sq p2]
  · simp
  · simp
  · simp

/-- C4 counterexample: on `astarGraph` (non-negative weights, `E` reachable
from `S`), dijkstra, bellmanFord and floydWarshall all return the true
shortest distance 2 (`S→M→E`), while astar returns 10 (the direct edge):
its coordinate heuristic places `M` 100 m from `E`, overestimating the true
remaining cost 1, so `M` is never expanded before `E` is popped. -/
theorem C4_astar_disagrees_on_astarGraph :
    (P2P.astar sq0 astarGraph "S" "E").map (·.distance) = some (some 10) ∧
    (P2P.dijkstra astarGraph "S" "E").distance = some 2 ∧
    (P2P.bellmanFord astarGraph "S" "E").distance = some 2 ∧
    (P2P.floydWarshall astarGraph "S" "E").map (·.distance) = some (some 2) ∧
    ((10 : ℚ)) ≠ 2 := by
  decide

/-! ### C6 -/

/-- C6 counterexample: with two parallel `A→B` edges (5 listed before 3),
all four solvers return the path `[A, B]` with distance 3 (the cheaper
edge), while the sum of the edge weights along the returned path — which
`edges.find` resolves to the first matching edge — is 5. -/
theorem C6_distance_differs_from_path_sum :
    P2P.dijkstra parallelGraph "A" "B" = ⟨["A", "B"], some 3, some 3⟩ ∧
    P2P.bellmanFord parallelGraph "A" "B" = ⟨["A", "B"], some 3, some 3⟩ ∧
    P2P.floydWarshall parallelGraph "A" "B" = some ⟨["A", "B"], some 3, some 3⟩ ∧
    P2P.astar sqP parallelGraph "A" "B" = some ⟨["A", "B"], some 3, some 3⟩ ∧
    TSP.calculatePathCost ["A", "B"] parallelGraph = 5 ∧
    TSP.calculatePathTime ["A", "B"] parallelGraph = 5 ∧
    (3 : ℚ) ≠ 5 := by
  decide

/-! ### C7 -/

/-- C7 counterexample: on `foreignStartGraph` the requested start `S` is not
a graph node; `nearestNeighbor` counts it in its visited set, so after
visiting `B` alone the set size equals the node count and the tour is
closed as `[S, B, S]` — a non-empty tour that never visits the graph node
`C`. -/
theorem C7_nearestNeighbor_misses_a_node :
    (TSP.nearestNeighbor foreignStartGraph "S").path = ["S", "B", "S"] ∧
    "C" ∈ foreignStartGraph.nodeIds ∧
    "C" ∉ (TSP.nearestNeighbor foreignStartGraph "S").path := by
  decide

/-! ### Loop lemmas for C3 -/

/-- A fold preserves any invariant its body preserves. -/
theorem foldl_preserve {α β : Type} (P : α → Prop) (f : α → β → α) (l : List β)
    (h : ∀ a, ∀ b ∈ l, P a → P (f a b)) : ∀ a, P a → P (l.foldl f a) := by
  induction l with
  | nil => exact fun a ha => ha
  | cons x xs ih =>
    intro a ha
    exact ih (fun a b hb => h a b (List.mem_cons_of_mem x hb)) (f a x)
      (h a x (List.mem_cons_self x xs) ha)

/-- `reconstructGo` never shrinks a non-empty accumulator away. -/
theorem reconstructGo_ne_nil_of_acc (prev : String → Option String) (s : String) :
    ∀ (f : Nat) (cur : String) (acc : List String), acc ≠ [] →
      P2P.reconstructGo prev s f cur acc ≠ [] := by
  intro f
  induction f with
  | zero => intro cur acc h; simpa [P2P.reconstructGo] using h
  | succ f ih =>
    intro cur acc h
    simp only [P2P.reconstructGo]
    by_cases hc : cur = ""
    · simpa [hc] using h
    · simp only [hc, if_false]
      by_cases hst : cur = s
      · simp [hst]
      · simp only [hst, if_false]
        cases prev cur with
        | none => simp
        | some p => exact ih p (cur :: acc) (by simp)

/-- `reconstructGo` on a node that is not the falsy `""` returns a
non-empty path. -/
theorem reconstructGo_ne_nil (prev : String → Option String) (s : String)
    (f : Nat) (cur : String) (h : cur ≠ "") :
    P2P.reconstructGo prev s (f + 1) cur [] ≠ [] := by
  simp only [P2P.reconstructGo, h, if_false]
  by_cases hst : cur = s
  · simp [hst]
  · simp only [hst, if_false]
    cases prev cur with
    | none => simp
    | some p => exact reconstructGo_ne_nil_of_acc prev s f p [cur] (by simp)

/-- The initial relaxation state satisfies `RelaxInv`. -/
theorem relaxInv_init (g : RouteGraph) (s : String) :
    RelaxInv g s (P2P.initDist g s) (P2P.initDist g s) (fun _ => none) := by
  refine ⟨fun v _ => ⟨rfl, rfl⟩, fun v u h => absurd h (by simp), fun v hv => ?_⟩
  rcases hv with hv | hv
  · by_cases hvs : v = s
    · exact Or.inr hvs
    · by_cases hm : v ∈ g.nodeIds
      · exact Or.inl hm
      · refine absurd ?_ hv
        simp [P2P.initDist, hvs, hm]
  · exact absurd rfl hv

/-- A single relaxation update (of `dist`, `time` and `prev` together, at a
target that already owns a distance value, from a non-`""` relaxer)
preserves `RelaxInv`. -/
theorem relaxInv_update (g : RouteGraph) (s : String)
    (dist time : String → Option ℚ) (prev : String → Option String)
    (hInv : RelaxInv g s dist time prev) (u v : String) (d t : Option ℚ)
    (hu : u ≠ "") (hv : dist v ≠ none) :
    RelaxInv g s (fun x => if x = v then d else dist x)
      (fun x => if x = v then t else time x)
      (fun x => if x = v then some u else prev x) := by
  obtain ⟨h1, h2, h3⟩ := hInv
  refine ⟨fun w hw => ?_, fun w u' hw => ?_, fun w hw => ?_⟩
  · by_cases hwv : w = v
    · simp [hwv] at hw
    · simp only [hwv, if_false] at hw ⊢
      exact h1 w hw
  · by_cases hwv : w = v
    · simp only [hwv, if_true] at hw
      cases hw
      exact hu
    · simp only [hwv, if_false] at hw
      exact h2 w u' hw
  · by_cases hwv : w = v
    · exact h3 w (Or.inl (hwv ▸ hv))
    · simp only [hwv, if_false] at hw
      exact h3 w hw

/-- One `dijkstraStep` preserves `RelaxInv`. -/
theorem relaxInv_dijkstraStep (g : RouteGraph) (s : String) (keys : List String)
    (st : P2P.DijkState) (hInv : RelaxInv g s st.dist st.time st.prev) :
    RelaxInv g s (P2P.dijkstraStep g keys st).dist (P2P.dijkstraStep g keys st).time
      (P2P.dijkstraStep g keys st).prev := by
  unfold P2P.dijkstraStep
  by_cases hu : P2P.minDistance keys st.dist st.visited = ""
  · simpa [hu] using hInv
  · simp only [hu, if_false]
    refine foldl_preserve
      (fun (a : P2P.DijkState) => RelaxInv g s a.dist a.time a.prev) _ _
      (fun a e _ ha => ?_) _ hInv
    dsimp only
    by_cases hcond :
        (!(a.visited e.to) &&
          jsLt (jsAdd (a.dist (P2P.minDistance keys st.dist st.visited)) e.distance)
            (a.dist e.to)) = true
    · simp only [hcond, if_true]
      have hvd : a.dist e.to ≠ none := by
        rcases hlt : a.dist e.to with _ | dv
        · rw [hlt] at hcond
          simp [jsLt] at hcond
        · simp
      exact relaxInv_update g s a.dist a.time a.prev ha _ _ _ _ hu hvd
    · simpa [hcond] using ha

/-- One `bellmanFordRound` preserves `RelaxInv` on a graph whose node ids
do not contain the falsy `""` and whose start is not `""`. -/
theorem relaxInv_bellmanFordRound (g : RouteGraph) (s : String)
    (h0 : "" ∉ g.nodeIds) (hs : s ≠ "")
    (st : P2P.BFState) (hInv : RelaxInv g s st.dist st.time st.prev) :
    RelaxInv g s (P2P.bellmanFordRound g st).dist (P2P.bellmanFordRound g st).time
      (P2P.bellmanFordRound g st).prev := by
  unfold P2P.bellmanFordRound
  refine foldl_preserve
    (fun (a : P2P.BFState) => RelaxInv g s a.dist a.time a.prev) _ _
    (fun a e _ ha => ?_) _ hInv
  dsimp only
  by_cases hcond :
      a.dist e.frm ≠ some MAXQ ∧ jsLt (jsAdd (a.dist e.frm) e.distance) (a.dist e.to) = true
  · simp only [if_pos hcond]
    have hud : a.dist e.frm ≠ none := by
      rcases hfu : a.dist e.frm with _ | du
      · rw [hfu] at hcond
        simp [jsLt, jsAdd] at hcond
      · simp
    have hu : e.frm ≠ "" := by
      rcases ha.2.2 e.frm (Or.inl hud) with h | h
      · intro hc; exact h0 (hc ▸ h)
      · intro hc; exact hs (by rw [← h, hc])
    have hvd : a.dist e.to ≠ none := by
      rcases hlt : a.dist e.to with _ | dv
      · rw [hlt] at hcond
        simp [jsLt] at hcond
      · simp
    exact relaxInv_update g s a.dist a.time a.prev ha _ _ _ _ hu hvd
  · simpa [if_neg hcond] using ha

/-- If the shared reconstruction returns the empty path from a state
satisfying `RelaxInv`, the reported distance and time are the untouched
initial values: `undefined` or the `MAX_SAFE_INTEGER` sentinel. -/
theorem relaxResult_empty_path_shape (g : RouteGraph) (s e : String)
    (dist time : String → Option ℚ) (prev : String → Option String) (f : Nat)
    (h0 : "" ∉ g.nodeIds) (hs : s ≠ "")
    (hInv : RelaxInv g s dist time prev)
    (hp : P2P.reconstructPath prev s e (f + 1) = []) :
    (dist e = none ∨ dist e = some MAXQ) ∧ (time e = none ∨ time e = some MAXQ) := by
  by_cases he : e = ""
  · subst he
    have hprev : prev "" = none := by
      rcases hpe : prev "" with _ | u
      · rfl
      · exfalso
        rcases hInv.2.2 "" (Or.inr (by simp [hpe])) with h | h
        · exact h0 h
        · exact hs h.symm
    have hboth := hInv.1 "" hprev
    have hinit : P2P.initDist g s "" = none := by
      simp [P2P.initDist, Ne.symm hs, h0]
    rw [hboth.1, hboth.2, hinit]
    exact ⟨Or.inl rfl, Or.inl rfl⟩
  · simp only [P2P.reconstructPath] at hp
    by_cases hentry :
        ((match prev e with | some p => p != "" | none => false) || (e == s)) = true
    · rw [if_pos hentry] at hp
      exact absurd hp (reconstructGo_ne_nil prev s f e he)
    · have hes : e ≠ s := by
        intro hq
        exact hentry (by simp [hq])
      have hprev : prev e = none := by
        rcases hpe : prev e with _ | u
        · rfl
        · exfalso
          exact hentry (by simp [hpe, hInv.2.1 e u hpe])
      have hboth := hInv.1 e hprev
      rw [hboth.1, hboth.2]
      unfold P2P.initDist
      simp only [hes, if_false]
      by_cases hm : e ∈ g.nodeIds
      · simp [hm]
      · simp [hm]

/-- The element `astarLowest` selects belongs to the open set. -/
theorem astarLowest_mem (openSet : List String) (fScore : String → Option ℚ)
    (h : openSet ≠ []) : P2P.astarLowest openSet fScore ∈ openSet := by
  have key : ∀ (l : List String) (S : List String) (p : Option ℚ × String),
      p.2 ∈ S → (∀ x ∈ l, x ∈ S) →
      (l.foldl (fun p v => if jsLt (fScore v) p.1 then (fScore v, v) else p) p).2 ∈ S := by
    intro l
    induction l with
    | nil => intro S p hp _; exact hp
    | cons x xs ih =>
      intro S p hp hsub
      dsimp only [List.foldl]
      by_cases hc : jsLt (fScore x) p.1 = true
      · simp only [hc, if_true]
        exact ih S (fScore x, x) (hsub x (by simp)) (fun y hy => hsub y (by simp [hy]))
      · simp only [hc, if_false]
        exact ih S p hp (fun y hy => hsub y (by simp [hy]))
  match openSet, h with
  | c0 :: rest, _ =>
    simp only [P2P.astarLowest]
    exact key (c0 :: rest) (c0 :: rest) (fScore c0, c0) (by simp) (fun x hx => hx)

/-- A node id outside `Object.keys(nodes)` has no matching node entry. -/
theorem nodes_find_eq_none (g : RouteGraph) (v : String) (h : v ∉ g.nodeIds) :
    g.nodes.find? (fun n => n.id == v) = none := by
  apply List.find?_eq_none.mpr
  intro n hn hq
  exact h (List.mem_map.mpr ⟨n, hn, by simpa using hq⟩)

/-- When `dijkstra` reconstructs an empty path, the reported distance and
time are untouched initial values: `undefined` or the `MAX_SAFE_INTEGER`
sentinel — never `0` (for an end node distinct from `start`). -/
theorem dijkstra_empty_sentinel (g : RouteGraph) (s e : String)
    (h0 : "" ∉ g.nodeIds) (hs : s ≠ "")
    (hp : (P2P.dijkstra g s e).path = []) :
    ((P2P.dijkstra g s e).distance = none ∨ (P2P.dijkstra g s e).distance = some MAXQ) ∧
    ((P2P.dijkstra g s e).time = none ∨ (P2P.dijkstra g s e).time = some MAXQ) := by
  simp only [P2P.dijkstra] at hp ⊢
  refine relaxResult_empty_path_shape g s e _ _ _ _ h0 hs ?_ hp
  exact foldl_preserve (fun (a : P2P.DijkState) => RelaxInv g s a.dist a.time a.prev)
    _ _ (fun a _ _ ha => relaxInv_dijkstraStep g s _ a ha) _ (relaxInv_init g s)

/-- The `bellmanFord` analogue of `dijkstra_empty_sentinel`. -/
theorem bellmanFord_empty_sentinel (g : RouteGraph) (s e : String)
    (h0 : "" ∉ g.nodeIds) (hs : s ≠ "")
    (hp : (P2P.bellmanFord g s e).path = []) :
    ((P2P.bellmanFord g s e).distance = none ∨ (P2P.bellmanFord g s e).distance = some MAXQ) ∧
    ((P2P.bellmanFord g s e).time = none ∨ (P2P.bellmanFord g s e).time = some MAXQ) := by
  simp only [P2P.bellmanFord] at hp ⊢
  refine relaxResult_empty_path_shape g s e _ _ _ (g.nodeIds.length + 1) h0 hs ?_ hp
  exact foldl_preserve (fun (a : P2P.BFState) => RelaxInv g s a.dist a.time a.prev)
    _ _ (fun a _ _ ha => relaxInv_bellmanFordRound g s h0 hs a ha) _ (relaxInv_init g s)

/-- `astar` throws a `TypeError` (modelled as `none`) as soon as `start` or
`end` is not a node: the initial `heuristic(start)` dereferences both. -/
theorem astar_absent_none (sq : ℚ → ℚ) (g : RouteGraph) (s e : String)
    (h : s ∉ g.nodeIds ∨ e ∉ g.nodeIds) : P2P.astar sq g s e = none := by
  have hh : P2P.heuristic sq g e s = none := by
    unfold P2P.heuristic
    rcases h with h | h
    · rw [nodes_find_eq_none g s h]
    · rw [nodes_find_eq_none g e h]
      cases g.nodes.find? (fun n => n.id == s) <;> rfl
  simp [P2P.astar, hh]

/-- `floydWarshall` throws a `TypeError` (modelled as `none`) when `start`
is not a node: the `dist[start][end]` read dereferences a missing row. -/
theorem floydWarshall_absent_start (g : RouteGraph) (s e : String)
    (h : s ∉ g.nodeIds) : P2P.floydWarshall g s e = none := by
  have hc : g.nodeIds.contains s = false := by
    rcases hb : g.nodeIds.contains s
    · rfl
    · exact absurd (by simpa using hb) h
  rcases hall : g.edges.all (fun e => g.nodeIds.contains e.frm)
  · simp only [P2P.floydWarshall, hall]
    rfl
  · simp only [P2P.floydWarshall, hall, hc]
    rfl

/-- C3 (amended): a failed point-to-point solve does not return the claimed
`([], 0, 0)` except through the two explicit no-path exits.  `dijkstra` and
`bellmanFord` pair the empty path with the raw `dist[end]`: `undefined` or
the `MAX_SAFE_INTEGER` sentinel, never `0`.  `astar` throws a `TypeError`
when `start` or `end` is absent, `floydWarshall` when `start` is absent;
only their genuine no-path exits return `([], 0, 0)`, as the disconnected
two-node instance shows for both. -/
theorem C3_failed_solve_shapes (g : RouteGraph) (s e : String) (sq : ℚ → ℚ)
    (h0 : "" ∉ g.nodeIds) (hs : s ≠ "") :
    ((P2P.dijkstra g s e).path = [] →
      ((P2P.dijkstra g s e).distance = none ∨ (P2P.dijkstra g s e).distance = some MAXQ) ∧
      ((P2P.dijkstra g s e).time = none ∨ (P2P.dijkstra g s e).time = some MAXQ)) ∧
    ((P2P.bellmanFord g s e).path = [] →
      ((P2P.bellmanFord g s e).distance = none ∨
        (P2P.bellmanFord g s e).distance = some MAXQ) ∧
      ((P2P.bellmanFord g s e).time = none ∨ (P2P.bellmanFord g s e).time = some MAXQ)) ∧
    (s ∉ g.nodeIds ∨ e ∉ g.nodeIds → P2P.astar sq g s e = none) ∧
    (s ∉ g.nodeIds → P2P.floydWarshall g s e = none) ∧
    P2P.astar sqP disconnGraph "A" "B" = some ⟨[], some 0, some 0⟩ ∧
    P2P.floydWarshall disconnGraph "A" "B" = some ⟨[], some 0, some 0⟩ :=
  ⟨dijkstra_empty_sentinel g s e h0 hs, bellmanFord_empty_sentinel g s e h0 hs,
   astar_absent_none sq g s e, floydWarshall_absent_start g s e,
   by decide, by decide⟩

/-- Witness for `C3_failed_solve_shapes`: the disconnected two-node graph
(no `A`-to-`B` path) and a foreign start node `C`. -/
theorem C3_failed_solve_shapes_witness :
    "" ∉ disconnGraph.nodeIds ∧ "A" ≠ "" ∧
    ((P2P.dijkstra disconnGraph "A" "B").distance = none ∨
      (P2P.dijkstra disconnGraph "A" "B").distance = some MAXQ) ∧
    P2P.floydWarshall disconnGraph "C" "B" = none :=
  ⟨by decide, by decide,
   ((C3_failed_solve_shapes disconnGraph "A" "B" sqP (by decide) (by decide)).1 (by decide)).1,
   (C3_failed_solve_shapes disconnGraph "C" "B" sqP (by decide) (by decide)).2.2.2.1
     (by decide)⟩

/-- Every list produced by the recursive `permute` helper of `bruteForce`
is a permutation of its input. -/
theorem permuteAux_perm (fuel : Nat) :
    ∀ (arr : List String), arr.length ≤ fuel →
      ∀ p ∈ TSP.permuteAux fuel arr, p.Perm arr := by
  induction fuel with
  | zero =>
    intro arr hlen p hp
    have harr : arr = [] := List.eq_nil_of_length_eq_zero (Nat.le_zero.mp hlen)
    subst harr
    simp [TSP.permuteAux] at hp
    simp [hp]
  | succ fuel ih =>
    intro arr hlen p hp
    unfold TSP.permuteAux at hp
    by_cases h1 : arr.length ≤ 1
    · rw [if_pos h1] at hp
      simp only [List.mem_singleton] at hp
      simp [hp]
    · rw [if_neg h1] at hp
      have hfold : ∀ q ∈ (List.range arr.length).foldl
          (fun acc i =>
            acc ++ (TSP.permuteAux fuel (arr.take i ++ arr.drop (i + 1))).map
              (fun r => arr.getD i "" :: r)) [], q.Perm arr := by
        refine foldl_preserve (fun (acc : List (List String)) => ∀ q ∈ acc, q.Perm arr)
          _ _ ?_ [] (by intro q hq; simp at hq)
        intro acc i hi hacc q hq
        rw [List.mem_append] at hq
        rcases hq with hq | hq
        · exact hacc q hq
        · rw [List.mem_map] at hq
          obtain ⟨r, hr, rfl⟩ := hq
          have hilt : i < arr.length := List.mem_range.mp hi
          have hrest : (arr.take i ++ arr.drop (i + 1)).length ≤ fuel := by
            rw [List.length_append, List.length_take, List.length_drop]
            omega
          have hrp := ih _ hrest r hr
          rw [List.getD_eq_getElem arr "" hilt]
          refine List.Perm.trans (List.Perm.cons _ hrp) ?_
          refine List.Perm.trans List.perm_middle.symm ?_
          rw [List.getElem_cons_drop, List.take_append_drop]
      exact hfold p hp

/-- `permute` returns permutations of its input. -/
theorem permute_perm (arr : List String) (p : List String)
    (hp : p ∈ TSP.permute arr) : p.Perm arr :=
  permuteAux_perm arr.length arr (Nat.le_refl _) p hp

/-- A tour obtained by closing a permutation of the node ids (led by
`start`) back to `start` is a valid tour. -/
theorem validTour_append_start (g : RouteGraph) (start : String)
    (hnd : g.nodeIds.Nodup) (p : List String)
    (hp : p.Perm g.nodeIds) (hhead : p.head? = some start) :
    ValidTour g start (p ++ [start]) := by
  obtain ⟨t, rfl⟩ : ∃ t, p = start :: t := by
    cases p with
    | nil => simp at hhead
    | cons a t =>
      simp only [List.head?_cons, Option.some.injEq] at hhead
      exact ⟨t, by rw [hhead]⟩
  refine ⟨rfl, ?_, ?_⟩
  · exact List.getLast?_concat _
  · intro v hv hvs
    have hc : (start :: t).count v = 1 := by
      rw [hp.count_eq]
      exact List.count_eq_one_of_mem hnd hv
    rw [List.count_append, hc]
    simp [List.count_singleton, hvs]

/-- Prepending `start` to the non-start nodes recovers the node ids up to
permutation. -/
theorem start_cons_filter_perm (g : RouteGraph) (start : String)
    (hs : start ∈ g.nodeIds) (hnd : g.nodeIds.Nodup) :
    (start :: g.nodeIds.filter (fun n => n != start)).Perm g.nodeIds := by
  have he : g.nodeIds.filter (fun n => n != start) = g.nodeIds.erase start := by
    rw [List.Nodup.erase_eq_filter hnd]
  rw [he]
  exact (List.perm_cons_erase hs).symm

/-- A non-empty `bruteForce` tour is valid: it is `start`, then a
permutation of the remaining nodes, then `start` again. -/
theorem bruteForce_valid (g : RouteGraph) (start : String)
    (hs : start ∈ g.nodeIds) (hnd : g.nodeIds.Nodup)
    (hne : (TSP.bruteForce g start).path ≠ []) :
    ValidTour g start (TSP.bruteForce g start).path := by
  have hcontains : g.nodeIds.contains start = true := by simpa using hs
  simp only [TSP.bruteForce, hcontains, Bool.not_true, Bool.false_eq_true, if_false] at hne ⊢
  have hP := foldl_preserve
    (fun (b : List String × ℚ × ℚ) => b.1 = [] ∨
      ∃ perm, perm ∈ TSP.permute (g.nodeIds.filter fun n => n != start) ∧
        b.1 = start :: (perm ++ [start]))
    (fun b perm =>
      if TSP.calculatePathCost (start :: (perm ++ [start])) g < b.2.1 ∧
          0 < TSP.calculatePathCost (start :: (perm ++ [start])) g then
        (start :: (perm ++ [start]), TSP.calculatePathCost (start :: (perm ++ [start])) g,
          TSP.calculatePathTime (start :: (perm ++ [start])) g)
      else b)
    (TSP.permute (g.nodeIds.filter fun n => n != start))
    (by
      intro b perm hperm hb
      dsimp only
      by_cases hcond : TSP.calculatePathCost (start :: (perm ++ [start])) g < b.2.1 ∧
          0 < TSP.calculatePathCost (start :: (perm ++ [start])) g
      · rw [if_pos hcond]
        exact Or.inr ⟨perm, hperm, rfl⟩
      · rw [if_neg hcond]
        exact hb)
    ([], MAXQ, MAXQ) (Or.inl rfl)
  rcases hP with h | ⟨perm, hmem, heq⟩
  · exact absurd h hne
  · have hpp : (start :: perm).Perm g.nodeIds :=
      List.Perm.trans (List.Perm.cons _ (permute_perm _ _ hmem))
        (start_cons_filter_perm g start hs hnd)
    have hv := validTour_append_start g start hnd (start :: perm) hpp rfl
    rw [List.cons_append] at hv
    exact heq ▸ hv

/-- A non-`""` node chosen by the nearest-neighbor scan is an unvisited
graph node. -/
theorem nnNearest_mem (g : RouteGraph) (hto : ∀ e ∈ g.edges, e.to ∈ g.nodeIds)
    (visited : List String) (current : String)
    (hne : (TSP.nnNearest g visited current).2.2 ≠ "") :
    (TSP.nnNearest g visited current).2.2 ∈ g.nodeIds ∧
    (TSP.nnNearest g visited current).2.2 ∉ visited := by
  unfold TSP.nnNearest at hne ⊢
  have hP := foldl_preserve
    (fun (b : ℚ × ℚ × String) => b.2.2 = "" ∨ (b.2.2 ∈ g.nodeIds ∧ b.2.2 ∉ visited))
    (fun b e => if e.distance < b.1 then (e.distance, e.time, e.to) else b)
    (g.edges.filter (fun e => e.frm == current && !(visited.contains e.to)))
    (by
      intro b e he hb
      dsimp only
      by_cases hc : e.distance < b.1
      · rw [if_pos hc]
        rw [List.mem_filter] at he
        have he2 := he.2
        simp only [Bool.and_eq_true, Bool.not_eq_true', beq_iff_eq] at he2
        refine Or.inr ⟨hto e he.1, ?_⟩
        dsimp only
        simpa using he2.2
      · rw [if_neg hc]
        exact hb)
    (MAXQ, 0, "") (Or.inl rfl)
  rcases hP with h | h
  · exact absurd h hne
  · exact h

/-- The nearest-neighbor loop preserves: visited equals the path, the path
starts at `start`, is duplicate-free, and stays inside the node set. -/
theorem nnLoop_inv (g : RouteGraph) (start : String) (nodeIds : List String)
    (hto : ∀ e ∈ g.edges, e.to ∈ g.nodeIds) :
    ∀ (fuel : Nat) (st : TSP.NNState),
      st.visited = st.path → (∃ t, st.path = start :: t) → st.path.Nodup →
      (∀ v ∈ st.path, v ∈ g.nodeIds) →
      (TSP.nnLoop g nodeIds fuel st).visited = (TSP.nnLoop g nodeIds fuel st).path ∧
      (∃ t, (TSP.nnLoop g nodeIds fuel st).path = start :: t) ∧
      (TSP.nnLoop g nodeIds fuel st).path.Nodup ∧
      (∀ v ∈ (TSP.nnLoop g nodeIds fuel st).path, v ∈ g.nodeIds) := by
  intro fuel
  induction fuel with
  | zero =>
    intro st h1 h2 h3 h4
    exact ⟨h1, h2, h3, h4⟩
  | succ fuel ih =>
    intro st h1 h2 h3 h4
    simp only [TSP.nnLoop]
    by_cases hlt : st.visited.length < nodeIds.length
    · rw [if_pos hlt]
      by_cases hb : (TSP.nnNearest g st.visited st.current).2.2 = ""
      · rw [if_pos hb]
        exact ⟨h1, h2, h3, h4⟩
      · rw [if_neg hb]
        have hmem := nnNearest_mem g hto st.visited st.current hb
        have hx : (TSP.nnNearest g st.visited st.current).2.2 ∉ st.path := h1 ▸ hmem.2
        refine ih _ ?_ ?_ ?_ ?_
        · dsimp only
          rw [h1]
        · dsimp only
          obtain ⟨t, ht⟩ := h2
          exact ⟨t ++ [(TSP.nnNearest g st.visited st.current).2.2], by rw [ht]; simp⟩
        · dsimp only
          simp [List.nodup_append, h3, hx]
        · dsimp only
          intro v hv
          rw [List.mem_append] at hv
          rcases hv with hv | hv
          · exact h4 v hv
          · rw [List.mem_singleton] at hv
            rw [hv]
            exact hmem.1
    · rw [if_neg hlt]
      exact ⟨h1, h2, h3, h4⟩

/-- A non-empty `nearestNeighbor` tour is valid. -/
theorem nearestNeighbor_valid (g : RouteGraph) (start : String)
    (hs : start ∈ g.nodeIds) (hnd : g.nodeIds.Nodup)
    (hto : ∀ e ∈ g.edges, e.to ∈ g.nodeIds)
    (hne : (TSP.nearestNeighbor g start).path ≠ []) :
    ValidTour g start (TSP.nearestNeighbor g start).path := by
  simp only [TSP.nearestNeighbor] at hne ⊢
  set st := TSP.nnLoop g g.nodeIds (g.nodeIds.length + 1) ⟨[start], [start], start, 0, 0⟩ with hst
  have hinv := nnLoop_inv g start g.nodeIds hto (g.nodeIds.length + 1)
    ⟨[start], [start], start, 0, 0⟩ rfl ⟨[], rfl⟩ (by simp)
    (by intro v hv; rw [List.mem_singleton] at hv; rw [hv]; exact hs)
  rw [← hst] at hinv
  rcases hfind : g.edges.find? (fun e => e.frm == st.current && e.to == start) with _ | re
  · rw [hfind] at hne
    simp at hne
  · rw [hfind] at hne ⊢
    dsimp only at hne ⊢
    by_cases hlen : st.visited.length = g.nodeIds.length
    · rw [if_pos hlen] at hne ⊢
      dsimp only
      obtain ⟨h1, ⟨t, ht⟩, h3, h4⟩ := hinv
      have hsub : st.path ⊆ g.nodeIds := fun v hv => h4 v hv
      have hperm : st.path.Perm g.nodeIds := by
        refine List.Subperm.perm_of_length_le (List.Nodup.subperm h3 hsub) ?_
        rw [← h1, hlen]
      exact validTour_append_start g start hnd st.path hperm (by rw [ht]; rfl)
    · rw [if_neg hlen] at hne
      simp at hne

/-- Membership through the stable queue insertion of `branchAndBound`. -/
theorem bbInsert_mem (x : TSP.BBNode) (l : List TSP.BBNode) (y : TSP.BBNode) :
    y ∈ TSP.bbInsert x l → y = x ∨ y ∈ l := by
  induction l with
  | nil =>
    intro hy
    simp [TSP.bbInsert] at hy
    exact Or.inl hy
  | cons z zs ih =>
    intro hy
    unfold TSP.bbInsert at hy
    by_cases hc : qadd x.cost x.bound < qadd z.cost z.bound
    · rw [if_pos hc] at hy
      exact (List.mem_cons.mp hy).imp id id
    · rw [if_neg hc] at hy
      rcases List.mem_cons.mp hy with h | h
      · exact Or.inr (by rw [h]; exact List.mem_cons_self z zs)
      · rcases ih h with h2 | h2
        · exact Or.inl h2
        · exact Or.inr (List.mem_cons_of_mem z h2)

/-- Sorting the `branchAndBound` queue creates no new entries. -/
theorem bbSort_mem (l : List TSP.BBNode) (y : TSP.BBNode)
    (hy : y ∈ TSP.bbSort l) : y ∈ l := by
  unfold TSP.bbSort at hy
  have hP := foldl_preserve
    (fun (acc : List TSP.BBNode) => ∀ z ∈ acc, z ∈ l)
    (fun acc x => TSP.bbInsert x acc) l
    (by
      intro acc x hx hacc z hz
      rcases bbInsert_mem x acc z hz with h | h
      · rw [h]; exact hx
      · exact hacc z h)
    [] (by intro z hz; simp at hz)
  exact hP y hy

/-- The `branchAndBound` loop only ever reports tours that are valid:
every queue entry is a duplicate-free path of graph nodes led by `start`
whose `visited` set is the path itself, and a completed entry is closed
into `path ++ [start]` only when it covers all node ids. -/
theorem bbLoop_valid (g : RouteGraph) (start : String)
    (hnd : g.nodeIds.Nodup) (hto : ∀ e ∈ g.edges, e.to ∈ g.nodeIds) :
    ∀ (fuel : Nat) (queue : List TSP.BBNode) (best : Option TSP.BBNode) (bestCost : ℚ),
      (∀ nd ∈ queue, nd.visited = nd.path ∧ (∃ t, nd.path = start :: t) ∧
        nd.path.Nodup ∧ ∀ v ∈ nd.path, v ∈ g.nodeIds) →
      (∀ b, best = some b → ValidTour g start b.path) →
      ∀ b, TSP.bbLoop g g.nodeIds start fuel queue best bestCost = some b →
        ValidTour g start b.path := by
  intro fuel
  induction fuel with
  | zero =>
    intro queue best bestCost hq hbest b hb
    exact hbest b hb
  | succ fuel ih =>
    intro queue best bestCost hq hbest b hb
    rw [TSP.bbLoop] at hb
    rcases hsq : TSP.bbSort queue with _ | ⟨current, rest⟩ <;> rw [hsq] at hb
    · exact hbest b hb
    · dsimp only at hb
      have hcur := hq current (bbSort_mem queue current (by rw [hsq]; exact List.mem_cons_self _ _))
      have hrest : ∀ nd ∈ rest, nd.visited = nd.path ∧ (∃ t, nd.path = start :: t) ∧
          nd.path.Nodup ∧ ∀ v ∈ nd.path, v ∈ g.nodeIds :=
        fun nd h => hq nd (bbSort_mem queue nd (by rw [hsq]; exact List.mem_cons_of_mem _ h))
      by_cases hprune : bestCost ≤ qadd current.cost current.bound
      · rw [if_pos hprune] at hb
        exact ih rest best bestCost hrest hbest b hb
      · rw [if_neg hprune] at hb
        by_cases hcomplete : current.visited.length = g.nodeIds.length
        · rw [if_pos hcomplete] at hb
          rcases hfind : g.edges.find?
              (fun e => e.frm == current.path.getLastD "" && e.to == start) with _ | re <;>
            rw [hfind] at hb <;> dsimp only at hb
          · exact ih rest best bestCost hrest hbest b hb
          · by_cases htc : qadd current.cost re.distance < bestCost
            · rw [if_pos htc] at hb
              refine ih rest _ _ hrest ?_ b hb
              intro b' hb'
              obtain ⟨h1, ⟨t, ht⟩, h3, h4⟩ := hcur
              have hperm : current.path.Perm g.nodeIds := by
                refine List.Subperm.perm_of_length_le
                  (List.Nodup.subperm h3 (fun v hv => h4 v hv)) ?_
                rw [← h1, hcomplete]
              have hv := validTour_append_start g start hnd current.path hperm (by rw [ht]; rfl)
              cases hb'
              exact hv
            · rw [if_neg htc] at hb
              exact ih rest best bestCost hrest hbest b hb
        · rw [if_neg hcomplete] at hb
          refine ih _ best bestCost ?_ hbest b hb
          refine foldl_preserve
            (fun (acc : List TSP.BBNode) => ∀ nd ∈ acc, nd.visited = nd.path ∧
              (∃ t, nd.path = start :: t) ∧ nd.path.Nodup ∧ ∀ v ∈ nd.path, v ∈ g.nodeIds)
            _ _ ?_ rest hrest
          intro q e he hq'
          dsimp only
          by_cases hcond : qadd (qadd current.cost e.distance)
              (TSP.calculateTSPBound g g.nodeIds start (current.path ++ [e.to])
                (current.visited ++ [e.to])) < bestCost
          · rw [if_pos hcond]
            intro nd hnd'
            rw [List.mem_append] at hnd'
            rcases hnd' with hnd' | hnd'
            · exact hq' nd hnd'
            · rw [List.mem_singleton] at hnd'
              rw [List.mem_filter] at he
              have he2 := he.2
              simp only [Bool.and_eq_true, Bool.not_eq_true', beq_iff_eq] at he2
              obtain ⟨h1, ⟨t, ht⟩, h3, h4⟩ := hcur
              have hxv : e.to ∉ current.path := by
                rw [← h1]
                simpa using he2.2
              subst hnd'
              refine ⟨by rw [h1], ⟨t ++ [e.to], by rw [ht]; simp⟩, ?_, ?_⟩
              · simp [List.nodup_append, h3, hxv]
              · intro v hv
                rw [List.mem_append] at hv
                rcases hv with hv | hv
                · exact h4 v hv
                · rw [List.mem_singleton] at hv
                  rw [hv]
                  exact hto e he.1
          · rw [if_neg hcond]
            exact hq'

/-- A non-empty `branchAndBound` tour is valid. -/
theorem branchAndBound_valid (g : RouteGraph) (start : String)
    (hs : start ∈ g.nodeIds) (hnd : g.nodeIds.Nodup)
    (hto : ∀ e ∈ g.edges, e.to ∈ g.nodeIds)
    (hne : (TSP.branchAndBound g start).path ≠ []) :
    ValidTour g start (TSP.branchAndBound g start).path := by
  simp only [TSP.branchAndBound] at hne ⊢
  rcases hloop : TSP.bbLoop g g.nodeIds start
      ((g.nodeIds.length + 2).factorial * (g.edges.length + g.nodeIds.length + 2))
      [⟨[start], 0, 0, [start], TSP.calculateTSPBound g g.nodeIds start [start] [start]⟩]
      none MAXQ with _ | best
  · rw [hloop] at hne
    simp at hne
  · dsimp only at hne ⊢
    refine bbLoop_valid g start hnd hto _ _ _ _ ?_ ?_ best hloop
    · intro nd hnd'
      rw [List.mem_singleton] at hnd'
      subst hnd'
      refine ⟨rfl, ⟨[], rfl⟩, by simp, ?_⟩
      intro v hv
      rw [List.mem_singleton] at hv
      rw [hv]
      exact hs
    · intro b hb
      simp at hb

/-- Clearing the freshly set bit recovers the original mask. -/
theorem or_two_pow_xor (m v : Nat) (hv : m.testBit v = false) :
    (m ||| 2 ^ v) ^^^ 2 ^ v = m := by
  apply Nat.eq_of_testBit_eq
  intro i
  rw [Nat.testBit_xor, Nat.testBit_or]
  by_cases hiv : i = v
  · subst hiv
    simp [hv, Nat.testBit_two_pow_self]
  · simp [Nat.testBit_two_pow_of_ne (fun h => hiv h.symm)]

/-- The bits below `n` of a mask with bit `c` removed are those of the mask
without `c`. -/
theorem filter_testBit_xor (n c m : Nat) (hc : m.testBit c = true) :
    (List.range n).filter (fun i => (m ^^^ 2 ^ c).testBit i) =
      ((List.range n).filter (fun i => m.testBit i)).erase c := by
  rw [List.Nodup.erase_eq_filter (List.Nodup.filter _ (List.nodup_range _)),
    List.filter_filter]
  refine List.filter_congr ?_
  intro x _
  rw [Nat.testBit_xor]
  by_cases hxc : x = c
  · subst hxc
    simp [Nat.testBit_two_pow_self, hc]
  · simp [Nat.testBit_two_pow_of_ne (fun h => hxc h.symm), hxc]

/-- A filter that holds at exactly one element of a duplicate-free list. -/
theorem filter_eq_singleton (l : List Nat) (p : Nat → Bool) (a : Nat)
    (hnd : l.Nodup) (ha : a ∈ l) (hpa : p a = true)
    (hl : ∀ x ∈ l, p x = true → x = a) : l.filter p = [a] := by
  induction l with
  | nil => simp at ha
  | cons b bs ih =>
    rw [List.filter_cons]
    rcases List.mem_cons.mp ha with rfl | ha'
    · rw [hpa]
      simp only [if_true]
      have hnil : bs.filter p = [] := by
        rw [List.filter_eq_nil_iff]
        intro x hx hpx
        exact absurd (hl x (List.mem_cons_of_mem _ hx) hpx) (fun h => (List.nodup_cons.mp hnd).1 (h ▸ hx))
      rw [hnil]
    · have hba : b ≠ a := fun h => (List.nodup_cons.mp hnd).1 (h ▸ ha')
      have hpb : p b = false := by
        rcases hb : p b with _ | _
        · rfl
        · exact absurd (hl b (List.mem_cons_self _ _) hb) hba
      rw [hpb]
      simp only [Bool.false_eq_true, if_false]
      exact ih (List.nodup_cons.mp hnd).2 ha'
        (fun x hx hpx => hl x (List.mem_cons_of_mem _ hx) hpx)

/-- Reading every position of a list back by index recovers the list. -/
theorem range_map_getD (l : List String) :
    (List.range l.length).map (fun i => l.getD i "") = l := by
  induction l with
  | nil => simp
  | cons a t ih =>
    rw [List.length_cons, List.range_succ_eq_map, List.map_cons, List.map_map]
    refine congrArg (a :: ·) ?_
    have hcomp : ((fun i => (a :: t).getD i "") ∘ Nat.succ) = fun i => t.getD i "" := by
      funext i
      rfl
    rw [hcomp, ih]

/-- `dpUpdate` never erases a defined `dp` entry. -/
theorem dpUpdate_dp_ne (st : TSP.DPState) (m v : Nat) (c : ℚ) (p : Nat) (a b : Nat)
    (h : st.dp a b ≠ none) : (TSP.dpUpdate st m v c p).dp a b ≠ none := by
  unfold TSP.dpUpdate
  dsimp only
  by_cases hc : a = m ∧ b = v
  · rw [if_pos hc]
    simp
  · rw [if_neg hc]
    exact h

/-- A Held-Karp relaxation step (writing `dp[mask | 1 << v][v]` together
with its parent pointer `u`) preserves the table invariant. -/
theorem dpUpdate_inv (n startIndex : Nat) (st : TSP.DPState) (mask u v : Nat) (c : ℚ)
    (hinv : DPInv n startIndex st) (hv : v < n)
    (hvm : mask.testBit v = false)
    (hdu : st.dp mask u ≠ none) :
    DPInv n startIndex (TSP.dpUpdate st (mask ||| 2 ^ v) v c u) := by
  obtain ⟨hun, hmlt, hub, hsb, hus, _⟩ := hinv mask u hdu
  have hnewlt : mask ||| 2 ^ v < 2 ^ n :=
    Nat.or_lt_two_pow hmlt (Nat.pow_lt_pow_right (by norm_num) hv)
  intro m' v' hne'
  unfold TSP.dpUpdate at hne'
  dsimp only at hne'
  by_cases hcase : m' = mask ||| 2 ^ v ∧ v' = v
  · obtain ⟨rfl, rfl⟩ := hcase
    refine ⟨hv, hnewlt, ?_, ?_, ?_, ?_⟩
    · rw [Nat.testBit_or, Nat.testBit_two_pow_self]
      simp
    · rw [Nat.testBit_or, hsb]
      simp
    · intro hveq
      subst hveq
      rw [hvm] at hsb
      simp at hsb
    · intro _
      refine ⟨u, ?_, ?_, ?_, ?_⟩
      · unfold TSP.dpUpdate
        dsimp only
        rw [if_pos ⟨rfl, rfl⟩]
      · intro h
        rw [h] at hub
        rw [hub] at hvm
        simp at hvm
      · rw [Nat.testBit_or, hub]
        simp
      · rw [or_two_pow_xor mask v' hvm]
        exact dpUpdate_dp_ne st (mask ||| 2 ^ v') v' c u mask u hdu
  · rw [if_neg hcase] at hne'
    obtain ⟨h1, h2, h3, h4, h5, h6⟩ := hinv m' v' hne'
    refine ⟨h1, h2, h3, h4, h5, ?_⟩
    intro hm'
    obtain ⟨u0, hp0, hu0v, hu0b, hd0⟩ := h6 hm'
    refine ⟨u0, ?_, hu0v, hu0b, dpUpdate_dp_ne st (mask ||| 2 ^ v) v c u _ _ hd0⟩
    unfold TSP.dpUpdate
    dsimp only
    rw [if_neg hcase]
    exact hp0

/-- One Held-Karp mask iteration preserves the table invariant. -/
theorem dpStep_inv (dist : Nat → Nat → ℚ) (n startIndex : Nat)
    (st : TSP.DPState) (mask : Nat)
    (hinv : DPInv n startIndex st) :
    DPInv n startIndex (TSP.dpStep dist n st mask) := by
  unfold TSP.dpStep
  refine foldl_preserve (fun st => DPInv n startIndex st) _ _ ?_ st hinv
  intro st1 u hu h1
  dsimp only
  by_cases hguard : (!(Nat.testBit mask u)) = true ∨ st1.dp mask u = none
  · rw [if_pos hguard]
    exact h1
  · rw [if_neg hguard]
    refine foldl_preserve (fun st => DPInv n startIndex st) _ _ ?_ st1 h1
    intro st2 v hvr h2
    dsimp only
    by_cases hskip : Nat.testBit mask v = true ∨ dist u v = MAXQ
    · rw [if_pos hskip]
      exact h2
    · rw [if_neg hskip]
      push_neg at hskip
      have hvm : mask.testBit v = false := by
        rcases hb : mask.testBit v
        · rfl
        · exact absurd hb hskip.1
      rcases hdu : st2.dp mask u with _ | du
      · exact h2
      · rcases hdv : st2.dp (mask ||| 2 ^ v) v with _ | cc
        · exact dpUpdate_inv n startIndex st2 mask u v _ h2 (List.mem_range.mp hvr) hvm
            (by rw [hdu]; simp)
        · dsimp only
          by_cases hlt : qadd du (dist u v) < cc
          · rw [if_pos hlt]
            exact dpUpdate_inv n startIndex st2 mask u v _ h2 (List.mem_range.mp hvr) hvm
              (by rw [hdu]; simp)
          · rw [if_neg hlt]
            exact h2

/-- The Held-Karp reconstruction, run on tables satisfying the invariant,
peels exactly the bits of the mask: one city per set bit, without
duplicates, beginning at the start city and ending at the queried city. -/
theorem dpReconstruct_spec (n startIndex : Nat) (st : TSP.DPState)
    (hinv : DPInv n startIndex st) (indexToNode : Nat → String) :
    ∀ (fuel m c : Nat) (acc : List String), st.dp m c ≠ none →
      ((List.range n).filter (fun i => m.testBit i)).length ≤ fuel →
      ∃ cities : List Nat,
        TSP.dpReconstruct st.parent indexToNode (2 ^ startIndex) fuel m c acc =
          cities.map indexToNode ++ acc ∧
        cities.Perm ((List.range n).filter (fun i => m.testBit i)) ∧
        cities.head? = some startIndex ∧ cities.getLast? = some c := by
  intro fuel
  induction fuel with
  | zero =>
    intro m c acc hdp hfuel
    obtain ⟨hcn, _, hcb, _, _, _⟩ := hinv m c hdp
    exfalso
    have hcmem : c ∈ (List.range n).filter (fun i => m.testBit i) := by
      rw [List.mem_filter]
      exact ⟨List.mem_range.mpr hcn, hcb⟩
    have := List.length_pos_of_mem hcmem
    omega
  | succ fuel ih =>
    intro m c acc hdp hfuel
    obtain ⟨hcn, hmlt, hcb, hsb, hcs, hpar⟩ := hinv m c hdp
    have hm0 : m ≠ 0 := by
      intro h
      rw [h] at hsb
      simp [Nat.zero_testBit] at hsb
    have hcmem : c ∈ (List.range n).filter (fun i => m.testBit i) := by
      rw [List.mem_filter]
      exact ⟨List.mem_range.mpr hcn, hcb⟩
    simp only [TSP.dpReconstruct]
    rw [if_neg hm0]
    by_cases hsm : m = 2 ^ startIndex
    · rw [if_pos hsm]
      have hc : c = startIndex := by
        by_contra hne2
        rw [hsm, Nat.testBit_two_pow_of_ne (fun h => hne2 h.symm)] at hcb
        simp at hcb
      subst hc
      refine ⟨[c], by simp, ?_, rfl, rfl⟩
      rw [hsm]
      have hfs : (List.range n).filter (fun i => (2 ^ c).testBit i) = [c] := by
        refine filter_eq_singleton _ _ c (List.nodup_range n) (List.mem_range.mpr hcn)
          Nat.testBit_two_pow_self ?_
        intro x _ hx
        by_contra hxc
        rw [Nat.testBit_two_pow_of_ne (fun h => hxc h.symm)] at hx
        simp at hx
      rw [hfs]
    · rw [if_neg hsm]
      obtain ⟨u, hpu, huv, hub, hdu'⟩ := hpar hsm
      rw [hpu]
      dsimp only
      have hfuel' : ((List.range n).filter (fun i => (m ^^^ 2 ^ c).testBit i)).length ≤ fuel := by
        rw [filter_testBit_xor n c m hcb]
        have hlen := List.length_erase_of_mem hcmem
        have hpos := List.length_pos_of_mem hcmem
        omega
      obtain ⟨cities', hrec, hperm, hhead, hlast⟩ :=
        ih (m ^^^ 2 ^ c) u (indexToNode c :: acc) hdu' hfuel'
      refine ⟨cities' ++ [c], ?_, ?_, ?_, List.getLast?_concat _⟩
      · rw [hrec, List.map_append]
        simp
      · refine List.Perm.trans (List.perm_append_singleton c cities') ?_
        refine List.Perm.trans (List.Perm.cons c hperm) ?_
        rw [filter_testBit_xor n c m hcb]
        exact (List.perm_cons_erase hcmem).symm
      · rcases cities' with _ | ⟨a, t⟩
        · simp at hhead
        · simp only [List.cons_append, List.head?_cons] at hhead ⊢
          exact hhead

/-- A non-empty `dynamicProgramming` tour is valid. -/
theorem dynamicProgramming_valid (g : RouteGraph) (start : String)
    (hs : start ∈ g.nodeIds) (hnd : g.nodeIds.Nodup)
    (hne : (TSP.dynamicProgramming g start).path ≠ []) :
    ValidTour g start (TSP.dynamicProgramming g start).path := by
  by_cases hn1 : g.nodeIds.length ≤ 1
  · have hres : TSP.dynamicProgramming g start = ⟨[start], 0, 0⟩ := by
      simp only [TSP.dynamicProgramming]
      rw [if_pos hn1]
    rw [hres]
    refine ⟨rfl, rfl, ?_⟩
    intro v hv hvs
    exfalso
    have hpos := List.length_pos_of_mem hs
    have hlen1 : g.nodeIds.length = 1 := by omega
    obtain ⟨a, ha⟩ := List.length_eq_one.mp hlen1
    rw [ha, List.mem_singleton] at hs hv
    exact hvs (hv.trans hs.symm)
  · simp only [TSP.dynamicProgramming] at hne ⊢
    rw [if_neg hn1] at hne ⊢
    set dist := (g.edges.foldl
      (fun d e =>
        if g.nodeIds.contains e.frm && g.nodeIds.contains e.to then
          fun i j => if i = g.nodeIds.indexOf e.frm ∧ j = g.nodeIds.indexOf e.to then e.distance
            else d i j
        else d)
      (fun _ _ => MAXQ) : Nat → Nat → ℚ) with hdist
    set stF := ((List.range (2 ^ g.nodeIds.length)).foldl
      (fun st mask => if mask = 0 then st else TSP.dpStep dist g.nodeIds.length st mask)
      ⟨fun m i => if m = 2 ^ g.nodeIds.indexOf start ∧ i = g.nodeIds.indexOf start then some 0
          else none,
        fun _ _ => none⟩ : TSP.DPState) with hstF
    set best := ((List.range g.nodeIds.length).foldl
      (fun (b : ℚ × Option Nat) i =>
        if i = g.nodeIds.indexOf start then b
        else
          match stF.dp (2 ^ g.nodeIds.length - 1) i with
          | none => b
          | some c =>
            if qadd c (dist i (g.nodeIds.indexOf start)) < b.1 then
              (qadd c (dist i (g.nodeIds.indexOf start)), some i)
            else b)
      (MAXQ, none) : ℚ × Option Nat) with hbest
    have hstartlt : g.nodeIds.indexOf start < g.nodeIds.length := List.indexOf_lt_length.mpr hs
    have hinvF : DPInv g.nodeIds.length (g.nodeIds.indexOf start) stF := by
      rw [hstF]
      refine foldl_preserve (fun st => DPInv g.nodeIds.length (g.nodeIds.indexOf start) st)
        _ _ ?_ _ ?_
      · intro st mask _ hstinv
        dsimp only
        by_cases h0 : mask = 0
        · rw [if_pos h0]
          exact hstinv
        · rw [if_neg h0]
          exact dpStep_inv dist _ _ st mask hstinv
      · intro m v hmv
        dsimp only at hmv
        by_cases hcase : m = 2 ^ g.nodeIds.indexOf start ∧ v = g.nodeIds.indexOf start
        · obtain ⟨rfl, rfl⟩ := hcase
          exact ⟨hstartlt, Nat.pow_lt_pow_right (by norm_num) hstartlt,
            Nat.testBit_two_pow_self, Nat.testBit_two_pow_self,
            fun _ => rfl, fun hcon => absurd rfl hcon⟩
        · rw [if_neg hcase] at hmv
          exact absurd rfl hmv
    rcases hb2 : best.2 with _ | lastCity
    · rw [hb2] at hne
      simp at hne
    · dsimp only at hne ⊢
      have hbI := foldl_preserve
        (fun (b : ℚ × Option Nat) => ∀ i, b.2 = some i →
          stF.dp (2 ^ g.nodeIds.length - 1) i ≠ none)
        (fun (b : ℚ × Option Nat) i =>
          if i = g.nodeIds.indexOf start then b
          else
            match stF.dp (2 ^ g.nodeIds.length - 1) i with
            | none => b
            | some c =>
              if qadd c (dist i (g.nodeIds.indexOf start)) < b.1 then
                (qadd c (dist i (g.nodeIds.indexOf start)), some i)
              else b)
        (List.range g.nodeIds.length)
        (by
          intro b i _ hb j hj
          dsimp only at hj
          by_cases his : i = g.nodeIds.indexOf start
          · rw [if_pos his] at hj
            exact hb j hj
          · rw [if_neg his] at hj
            rcases hd : stF.dp (2 ^ g.nodeIds.length - 1) i with _ | c
            · rw [hd] at hj
              exact hb j hj
            · rw [hd] at hj
              dsimp only at hj
              by_cases hlt : qadd c (dist i (g.nodeIds.indexOf start)) < b.1
              · rw [if_pos hlt] at hj
                dsimp only at hj
                cases hj
                rw [hd]
                simp
              · rw [if_neg hlt] at hj
                exact hb j hj)
        (MAXQ, none) (by intro j hj; simp at hj)
    -- continued below
      have hdpLast : stF.dp (2 ^ g.nodeIds.length - 1) lastCity ≠ none := by
        rw [hbest] at hb2
        exact hbI lastCity hb2
      have hfull : (List.range g.nodeIds.length).filter
          (fun i => (2 ^ g.nodeIds.length - 1).testBit i) = List.range g.nodeIds.length := by
        rw [List.filter_eq_self]
        intro a ha
        rw [Nat.testBit_two_pow_sub_one]
        simp [List.mem_range.mp ha]
      obtain ⟨cities, hrec, hperm, hhead, hlast⟩ := dpReconstruct_spec g.nodeIds.length
        (g.nodeIds.indexOf start) stF hinvF (fun i => g.nodeIds.getD i "")
        (g.nodeIds.length + 1) (2 ^ g.nodeIds.length - 1) lastCity [] hdpLast
        (by rw [hfull, List.length_range]; omega)
      rw [hrec]
      have hgetD : g.nodeIds.getD (g.nodeIds.indexOf start) "" = start := by
        rw [List.getD_eq_getElem _ _ hstartlt]
        exact List.getElem_indexOf hstartlt
      have hperm2 : cities.Perm (List.range g.nodeIds.length) := by
        rw [hfull] at hperm
        exact hperm
      have hpermN : (cities.map (fun i => g.nodeIds.getD i "")).Perm g.nodeIds := by
        have hmp := List.Perm.map (fun i => g.nodeIds.getD i "") hperm2
        rw [range_map_getD g.nodeIds] at hmp
        exact hmp
      have hv := validTour_append_start g start hnd
        (cities.map (fun i => g.nodeIds.getD i "")) hpermN
        (by rw [List.head?_map, hhead, Option.map_some']; exact congrArg some hgetD)
      simp only [List.append_nil]
      rw [hgetD]
      exact hv

/-- C7 (amended): with the implicit preconditions made explicit — the
requested start is a node, the node ids are duplicate-free, and every edge
target is a node — every non-empty tour returned by any of the four TSP
solvers starts and ends at `start` and visits every other node of the
graph exactly once.  Without the preconditions the property fails (see the
counterexample). -/
theorem C7_tours_valid (g : RouteGraph) (start : String)
    (hs : start ∈ g.nodeIds) (hnd : g.nodeIds.Nodup)
    (hto : ∀ e ∈ g.edges, e.to ∈ g.nodeIds) :
    ((TSP.bruteForce g start).path ≠ [] →
      ValidTour g start (TSP.bruteForce g start).path) ∧
    ((TSP.dynamicProgramming g start).path ≠ [] →
      ValidTour g start (TSP.dynamicProgramming g start).path) ∧
    ((TSP.nearestNeighbor g start).path ≠ [] →
      ValidTour g start (TSP.nearestNeighbor g start).path) ∧
    ((TSP.branchAndBound g start).path ≠ [] →
      ValidTour g start (TSP.branchAndBound g start).path) :=
  ⟨bruteForce_valid g start hs hnd, dynamicProgramming_valid g start hs hnd,
   nearestNeighbor_valid g start hs hnd hto, branchAndBound_valid g start hs hnd hto⟩

/-- Witness for `C7_tours_valid` on the four-node graph `bbBugGraph`,
where the solvers return non-empty tours. -/
theorem C7_tours_valid_witness :
    ("A" ∈ bbBugGraph.nodeIds ∧ bbBugGraph.nodeIds.Nodup ∧
      (∀ e ∈ bbBugGraph.edges, e.to ∈ bbBugGraph.nodeIds)) ∧
    ValidTour bbBugGraph "A" (TSP.branchAndBound bbBugGraph "A").path ∧
    ValidTour bbBugGraph "A" (TSP.nearestNeighbor bbBugGraph "A").path :=
  ⟨⟨by decide, by decide, by decide⟩,
   (C7_tours_valid bbBugGraph "A" (by decide) (by decide) (by decide)).2.2.2 (by decide),
   (C7_tours_valid bbBugGraph "A" (by decide) (by decide) (by decide)).2.2.1 (by decide)⟩

/-- Specification of the running minimum that defines `deltaDist`. -/
theorem deltaFold_spec (g : RouteGraph) :
    ∀ (l : List (List String)) (acc : Option ℚ) (d : ℚ),
      l.foldl
        (fun acc p =>
          match acc with
          | none => some (chainSum g (fun ed => ed.distance) p)
          | some a => some (min a (chainSum g (fun ed => ed.distance) p))) acc = some d →
      (∀ p ∈ l, d ≤ chainSum g (fun ed => ed.distance) p) ∧
      (∀ a, acc = some a → d ≤ a) ∧
      (acc = some d ∨ ∃ p ∈ l, chainSum g (fun ed => ed.distance) p = d) := by
  intro l
  induction l with
  | nil =>
    intro acc d h
    simp only [List.foldl_nil] at h
    refine ⟨by intro p hp; simp at hp, ?_, Or.inl h⟩
    intro a ha
    rw [ha] at h
    rw [Option.some.inj h]
  | cons q t ih =>
    intro acc d h
    rw [List.foldl_cons] at h
    rcases acc with _ | a0
    · obtain ⟨h1, h2, h3⟩ := ih (some (chainSum g (fun ed => ed.distance) q)) d h
      refine ⟨?_, ?_, ?_⟩
      · intro p hp
        rcases List.mem_cons.mp hp with rfl | hp
        · exact h2 _ rfl
        · exact h1 p hp
      · intro a ha
        simp at ha
      · rcases h3 with h3 | ⟨p, hp, hcp⟩
        · exact Or.inr ⟨q, List.mem_cons_self _ _, Option.some.inj h3⟩
        · exact Or.inr ⟨p, List.mem_cons_of_mem _ hp, hcp⟩
    · obtain ⟨h1, h2, h3⟩ := ih (some (min a0 (chainSum g (fun ed => ed.distance) q))) d h
      have hdmin : d ≤ min a0 (chainSum g (fun ed => ed.distance) q) := h2 _ rfl
      refine ⟨?_, ?_, ?_⟩
      · intro p hp
        rcases List.mem_cons.mp hp with rfl | hp
        · exact le_trans hdmin (min_le_right _ _)
        · exact h1 p hp
      · intro a ha
        rw [← Option.some.inj ha]
        exact le_trans hdmin (min_le_left _ _)
      · rcases h3 with h3 | ⟨p, hp, hcp⟩
        · have hmin := Option.some.inj h3
          rcases min_choice a0 (chainSum g (fun ed => ed.distance) q) with hmc | hmc
          · exact Or.inl (by rw [← hmin, hmc])
          · exact Or.inr ⟨q, List.mem_cons_self _ _, by rw [← hmin, hmc]⟩
        · exact Or.inr ⟨p, List.mem_cons_of_mem _ hp, hcp⟩

/-- The minimum fold never loses a running value. -/
theorem deltaFold_ne_none (g : RouteGraph) :
    ∀ (l : List (List String)) (acc : ℚ),
      ∃ d, l.foldl
        (fun acc p =>
          match acc with
          | none => some (chainSum g (fun ed => ed.distance) p)
          | some a => some (min a (chainSum g (fun ed => ed.distance) p)))
        (some acc) = some d := by
  intro l
  induction l with
  | nil =>
    intro acc
    exact ⟨acc, rfl⟩
  | cons q t ih =>
    intro acc
    rw [List.foldl_cons]
    exact ih (min acc (chainSum g (fun ed => ed.distance) q))

/-- `deltaDist` is a lower bound on every enumerated simple path. -/
theorem deltaDist_le (g : RouteGraph) (s e : String) (p : List String)
    (hp : p ∈ simpleChains g s e) (d : ℚ) (hd : deltaDist g s e = some d) :
    d ≤ chainSum g (fun ed => ed.distance) p :=
  (deltaFold_spec g _ none d hd).1 p hp

/-- A defined `deltaDist` is attained by an enumerated simple path. -/
theorem deltaDist_mem (g : RouteGraph) (s e : String) (d : ℚ)
    (hd : deltaDist g s e = some d) :
    ∃ p ∈ simpleChains g s e, chainSum g (fun ed => ed.distance) p = d := by
  rcases (deltaFold_spec g _ none d hd).2.2 with h | h
  · simp at h
  · exact h

/-- A simple path between the endpoints makes `deltaDist` defined. -/
theorem deltaDist_some (g : RouteGraph) (s e : String) (p : List String)
    (hp : p ∈ simpleChains g s e) : ∃ d, deltaDist g s e = some d := by
  unfold deltaDist
  rcases hl : simpleChains g s e with _ | ⟨q, t⟩
  · rw [hl] at hp
    simp at hp
  · rw [List.foldl_cons]
    exact deltaFold_ne_none g t (chainSum g (fun ed => ed.distance) q)

/-- Membership in an append-accumulating fold over a range. -/
theorem mem_foldl_append (f : Nat → List (List String)) :
    ∀ (n : Nat) (init : List (List String)) (z : List String),
      (z ∈ init ∨ ∃ i, i < n ∧ z ∈ f i) →
      z ∈ (List.range n).foldl (fun acc i => acc ++ f i) init := by
  intro n
  induction n with
  | zero =>
    intro init z hz
    rcases hz with hz | ⟨i, hi, _⟩
    · exact hz
    · omega
  | succ m ih =>
    intro init z hz
    have hfold : (List.range (m + 1)).foldl (fun acc i => acc ++ f i) init =
        ((List.range m).foldl (fun acc i => acc ++ f i) init) ++ f m := by
      rw [List.range_succ, List.foldl_append]
      rfl
    rw [hfold]
    rcases hz with hz | ⟨i, hi, hzi⟩
    · exact List.mem_append.mpr (Or.inl (ih init z (Or.inl hz)))
    · by_cases him : i = m
      · subst him
        exact List.mem_append.mpr (Or.inr hzi)
      · have : i < m := by omega
        exact List.mem_append.mpr (Or.inl (ih init z (Or.inr ⟨i, this, hzi⟩)))

namespace TSP

/-- `permuteAux` enumerates every permutation of its input. -/
theorem permuteAux_complete (fuel : Nat) :
    ∀ (arr : List String), arr.length ≤ fuel →
      ∀ p, p.Perm arr → p ∈ TSP.permuteAux fuel arr := by
  induction fuel with
  | zero =>
    intro arr hlen p hperm
    have harr : arr = [] := List.eq_nil_of_length_eq_zero (Nat.le_zero.mp hlen)
    subst harr
    have hp : p = [] := List.perm_nil.mp hperm
    subst hp
    simp [TSP.permuteAux]
  | succ fuel ih =>
    intro arr hlen p hperm
    unfold TSP.permuteAux
    by_cases h1 : arr.length ≤ 1
    · rw [if_pos h1]
      have hpe : p = arr := by
        rcases arr with _ | ⟨x, rest⟩
        · exact List.perm_nil.mp hperm
        · rcases rest with _ | ⟨y, rest2⟩
          · exact List.perm_singleton.mp hperm
          · simp at h1
      rw [hpe]
      exact List.mem_singleton.mpr rfl
    · rw [if_neg h1]
      rcases p with _ | ⟨x, p2⟩
      · exfalso
        have : arr = [] := List.perm_nil.mp hperm.symm
        rw [this] at h1
        simp at h1
      have hx : x ∈ arr := hperm.subset (List.mem_cons_self _ _)
      have hilt : arr.indexOf x < arr.length := List.indexOf_lt_length.mpr hx
      have hgx : arr[arr.indexOf x] = x := List.getElem_indexOf hilt
      have hsplit : arr.take (arr.indexOf x) ++ x :: arr.drop (arr.indexOf x + 1) = arr := by
        nth_rewrite 2 [← hgx]
        rw [List.getElem_cons_drop, List.take_append_drop]
      have harr2 : arr.Perm (x :: (arr.take (arr.indexOf x) ++ arr.drop (arr.indexOf x + 1))) := by
        conv_lhs => rw [← hsplit]
        exact List.perm_middle
      have hrest_perm : p2.Perm (arr.take (arr.indexOf x) ++ arr.drop (arr.indexOf x + 1)) :=
        (hperm.trans harr2).cons_inv
      have hlen2 : (arr.take (arr.indexOf x) ++ arr.drop (arr.indexOf x + 1)).length ≤ fuel := by
        rw [List.length_append, List.length_take, List.length_drop]
        have : min (arr.indexOf x) arr.length = arr.indexOf x := by omega
        omega
      have hih := ih _ hlen2 p2 hrest_perm
      refine mem_foldl_append _ arr.length [] (x :: p2) (Or.inr ⟨arr.indexOf x, hilt, ?_⟩)
      rw [List.mem_map]
      refine ⟨p2, hih, ?_⟩
      rw [List.getD_eq_getElem arr "" hilt, hgx]

/-- `permute` enumerates every permutation of its input. -/
theorem permute_complete (arr : List String) (p : List String)
    (hp : p.Perm arr) : p ∈ TSP.permute arr :=
  permuteAux_complete arr.length arr (Nat.le_refl _) p hp

end TSP

/-- What membership in the simple-path enumeration provides. -/
theorem simpleChains_spec (g : RouteGraph) (s e : String) (p : List String)
    (hnd : g.nodeIds.Nodup) (hp : p ∈ simpleChains g s e) :
    p.Nodup ∧ (∀ v ∈ p, v ∈ g.nodeIds) ∧ p.head? = some s ∧ p.getLast? = some e ∧
      chainOk g p = true := by
  unfold simpleChains at hp
  rw [List.mem_filter] at hp
  obtain ⟨hmem, hcond⟩ := hp
  simp only [Bool.and_eq_true, beq_iff_eq] at hcond
  rw [List.mem_flatMap] at hmem
  obtain ⟨lsub, hlsub, hperm⟩ := hmem
  rw [List.mem_sublists] at hlsub
  have hperm2 : p.Perm lsub := permute_perm lsub p hperm
  have hlnd : lsub.Nodup := List.Nodup.sublist hlsub hnd
  refine ⟨hperm2.nodup_iff.mpr hlnd, ?_, hcond.1.1, hcond.1.2, hcond.2⟩
  intro v hv
  exact List.Sublist.subset hlsub (hperm2.subset hv)

/-- Every duplicate-free edge-joined vertex list over the node set is an
enumerated simple path. -/
theorem simpleChains_complete (g : RouteGraph) (s e : String) (p : List String)
    (hnodup : p.Nodup) (hsub : ∀ v ∈ p, v ∈ g.nodeIds)
    (hh : p.head? = some s) (hl : p.getLast? = some e)
    (hok : chainOk g p = true) : p ∈ simpleChains g s e := by
  unfold simpleChains
  rw [List.mem_filter]
  constructor
  · rw [List.mem_flatMap]
    obtain ⟨lsub, hperm, hsl⟩ := List.Nodup.subperm hnodup (fun v hv => hsub v hv)
    exact ⟨lsub, List.mem_sublists.mpr hsl, TSP.permute_complete lsub p hperm.symm⟩
  · simp [hh, hl, hok]

/-- What a successful `findEdge` lookup provides. -/
theorem findEdge_mem (g : RouteGraph) (a b : String) (ed : RouteEdge)
    (h : findEdge g a b = some ed) : ed ∈ g.edges ∧ ed.frm = a ∧ ed.to = b := by
  unfold findEdge at h
  have hm := List.mem_of_find?_eq_some h
  have hp := List.find?_some h
  simp only [Bool.and_eq_true, beq_iff_eq] at hp
  exact ⟨hm, hp.1, hp.2⟩

/-- Nonnegativity of a single chain term. -/
theorem chainW_nonneg (g : RouteGraph) (f : RouteEdge → ℚ)
    (hf : ∀ e ∈ g.edges, 0 ≤ f e) (a b : String) :
    0 ≤ ((findEdge g a b).map f).getD 0 := by
  rcases hfe : findEdge g a b with _ | ed
  · simp
  · simp only [Option.map_some', Option.getD_some]
    exact hf ed (findEdge_mem g a b ed hfe).1

/-- Nonnegativity of a chain sum. -/
theorem chainSum_nonneg (g : RouteGraph) (f : RouteEdge → ℚ)
    (hf : ∀ e ∈ g.edges, 0 ≤ f e) :
    ∀ (p : List String), 0 ≤ chainSum g f p := by
  intro p
  induction p with
  | nil => exact le_refl 0
  | cons a p' ih =>
    rcases p' with _ | ⟨b, rest⟩
    · exact le_refl 0
    · simp only [chainSum]
      rw [qadd_eq]
      have := chainW_nonneg g f hf a b
      linarith

/-- A suffix of an edge-joined list is edge-joined. -/
theorem chainOk_suffix (g : RouteGraph) :
    ∀ (x y : List String), chainOk g (x ++ y) = true → chainOk g y = true := by
  intro x
  induction x with
  | nil =>
    intro y h
    exact h
  | cons a x' ih =>
    intro y h
    rcases hxy : x' ++ y with _ | ⟨c, rest⟩
    · rw [(List.append_eq_nil.mp hxy).2]
      rfl
    · rw [List.cons_append, hxy] at h
      simp only [chainOk, Bool.and_eq_true] at h
      refine ih y ?_
      rw [hxy]
      exact h.2

/-- Dropping a prefix never increases a nonnegative chain sum. -/
theorem chainSum_suffix_le (g : RouteGraph) (f : RouteEdge → ℚ)
    (hf : ∀ e ∈ g.edges, 0 ≤ f e) :
    ∀ (x y : List String), chainSum g f y ≤ chainSum g f (x ++ y) := by
  intro x
  induction x with
  | nil =>
    intro y
    exact le_refl _
  | cons a x' ih =>
    intro y
    rcases hxy : x' ++ y with _ | ⟨c, rest⟩
    · rw [(List.append_eq_nil.mp hxy).2]
      rw [show chainSum g f [] = 0 from rfl]
      exact chainSum_nonneg g f hf _
    · rw [List.cons_append, hxy]
      simp only [chainSum]
      rw [qadd_eq]
      have h1 := ih y
      rw [hxy] at h1
      have h2 := chainW_nonneg g f hf a c
      linarith

/-- A chain sum splits at an interior vertex. -/
theorem chainSum_join (g : RouteGraph) (f : RouteEdge → ℚ) :
    ∀ (x : List String) (b : String) (y : List String),
      chainSum g f (x ++ b :: y) = chainSum g f (x ++ [b]) + chainSum g f (b :: y) := by
  intro x
  induction x with
  | nil =>
    intro b y
    simp only [List.nil_append]
    rw [show chainSum g f [b] = 0 from rfl, zero_add]
  | cons a x' ih =>
    intro b y
    rcases x' with _ | ⟨c, x''⟩
    · simp only [List.nil_append, List.cons_append, chainSum]
      rw [qadd_eq, qadd_eq]
      ring
    · have ihy := ih b y
      simp only [List.cons_append] at ihy ⊢
      simp only [chainSum]
      rw [qadd_eq, qadd_eq, ihy]
      ring

/-- The last chain term of a one-vertex extension. -/
theorem chainSum_concat (g : RouteGraph) (f : RouteEdge → ℚ) :
    ∀ (q : List String) (b v : String), q.getLast? = some b →
      chainSum g f (q ++ [v]) = chainSum g f q + ((findEdge g b v).map f).getD 0 := by
  intro q
  induction q with
  | nil =>
    intro b v h
    simp at h
  | cons a q' ih =>
    intro b v h
    rcases q' with _ | ⟨c, q''⟩
    · have hb : a = b := by simpa using h
      subst hb
      simp only [List.cons_append, List.nil_append, chainSum]
      rw [qadd_eq]
      ring
    · rw [List.getLast?_cons_cons] at h
      have ihv := ih b v h
      simp only [List.cons_append] at ihv ⊢
      simp only [chainSum]
      rw [qadd_eq, qadd_eq, ihv]
      ring

/-- Extending an edge-joined list along an existing edge. -/
theorem chainOk_concat (g : RouteGraph) :
    ∀ (q : List String) (b v : String), q.getLast? = some b →
      chainOk g q = true → (findEdge g b v).isSome = true →
      chainOk g (q ++ [v]) = true := by
  intro q
  induction q with
  | nil =>
    intro b v h
    simp at h
  | cons a q' ih =>
    intro b v h hok he
    rcases q' with _ | ⟨c, q''⟩
    · have hb : a = b := by simpa using h
      subst hb
      simp only [List.cons_append, List.nil_append, chainOk, Bool.and_eq_true]
      exact ⟨he, by trivial⟩
    · rw [List.getLast?_cons_cons] at h
      simp only [chainOk, Bool.and_eq_true] at hok
      have ihv := ih b v h hok.2 he
      simp only [List.cons_append] at ihv ⊢
      simp only [chainOk, Bool.and_eq_true]
      exact ⟨hok.1, ihv⟩

/-- Joining two edge-joined lists at a shared vertex. -/
theorem chainOk_join (g : RouteGraph) :
    ∀ (x : List String) (b : String) (y : List String),
      chainOk g (x ++ [b]) = true → chainOk g (b :: y) = true →
      chainOk g (x ++ b :: y) = true := by
  intro x
  induction x with
  | nil =>
    intro b y _ h2
    exact h2
  | cons a x' ih =>
    intro b y h1 h2
    rcases x' with _ | ⟨c, x''⟩
    · simp only [List.nil_append, List.cons_append, chainOk, Bool.and_eq_true] at h1 ⊢
      exact ⟨h1.1, h2⟩
    · simp only [List.cons_append] at h1 ⊢
      simp only [chainOk, Bool.and_eq_true] at h1 ⊢
      exact ⟨h1.1, ih b y h1.2 h2⟩

/-- The last entry of a list ending in a nonempty tail. -/
theorem getLast_append_cons (x : List String) (c : String) (y : List String) :
    (x ++ c :: y).getLast? = (c :: y).getLast? := by
  induction x with
  | nil => rfl
  | cons a x' ih =>
    rw [List.cons_append]
    rcases hxy : x' ++ c :: y with _ | ⟨d, r⟩
    · exact absurd (List.append_eq_nil.mp hxy).2 (List.cons_ne_nil c y)
    · rw [List.getLast?_cons_cons, ← hxy]
      exact ih

/-- The head of a list is unchanged by what follows its first element. -/
theorem head_append_cons (x : List String) (c : String) (y : List String) :
    (x ++ c :: y).head? = (x ++ [c]).head? := by
  cases x <;> rfl

/-- A list with a known last element splits off that element. -/
theorem exists_concat_of_getLast :
    ∀ (l : List String) (a : String), l.getLast? = some a → ∃ r, l = r ++ [a] := by
  intro l
  induction l with
  | nil =>
    intro a h
    simp at h
  | cons b t ih =>
    intro a h
    rcases t with _ | ⟨c, t2⟩
    · have hb : b = a := by simpa using h
      exact ⟨[], by simp [hb]⟩
    · rw [List.getLast?_cons_cons] at h
      obtain ⟨r, hr⟩ := ih a h
      exact ⟨b :: r, by rw [List.cons_append, ← hr]⟩

/-- Any edge-joined walk shortens to a duplicate-free edge-joined walk with
the same endpoints, over the same vertices, of no greater cost. -/
theorem chain_dedup (g : RouteGraph) (hnn : ∀ e ∈ g.edges, 0 ≤ e.distance) :
    ∀ (N : Nat) (p : List String), p.length ≤ N → chainOk g p = true →
      ∃ q : List String, q.Nodup ∧ chainOk g q = true ∧ q.head? = p.head? ∧
        q.getLast? = p.getLast? ∧ (∀ v ∈ q, v ∈ p) ∧
        chainSum g (fun ed => ed.distance) q ≤ chainSum g (fun ed => ed.distance) p := by
  intro N
  induction N with
  | zero =>
    intro p hlen _
    have hp0 : p = [] := List.eq_nil_of_length_eq_zero (Nat.le_zero.mp hlen)
    subst hp0
    exact ⟨[], by simp, rfl, rfl, rfl, by simp, le_refl _⟩
  | succ n ih =>
    intro p hlen hok
    rcases p with _ | ⟨a, rest⟩
    · exact ⟨[], by simp, rfl, rfl, rfl, by simp, le_refl _⟩
    by_cases hmem : a ∈ rest
    · obtain ⟨l₁, l₂, hdecomp⟩ := List.append_of_mem hmem
      subst hdecomp
      have hok2 : chainOk g (a :: l₂) = true := by
        refine chainOk_suffix g (a :: l₁) (a :: l₂) ?_
        rw [List.cons_append]
        exact hok
      have hlen2 : (a :: l₂).length ≤ n := by
        simp only [List.length_cons, List.length_append] at hlen ⊢
        omega
      obtain ⟨q, hq1, hq2, hq3, hq4, hq5, hq6⟩ := ih (a :: l₂) hlen2 hok2
      refine ⟨q, hq1, hq2, by rw [hq3]; rfl, ?_, ?_, ?_⟩
      · rw [hq4, ← List.cons_append, getLast_append_cons]
      · intro v hv
        have hvm := hq5 v hv
        simp only [List.mem_cons] at hvm ⊢
        rcases hvm with h | h
        · exact Or.inl h
        · exact Or.inr (by simp [h])
      · refine le_trans hq6 ?_
        rw [← List.cons_append]
        exact chainSum_suffix_le g _ hnn (a :: l₁) (a :: l₂)
    · rcases rest with _ | ⟨r₀, rest2⟩
      · exact ⟨[a], by simp, by trivial, rfl, rfl, by simp, le_refl _⟩
      · simp only [chainOk, Bool.and_eq_true] at hok
        have hlen2 : (r₀ :: rest2).length ≤ n := by
          simp only [List.length_cons] at hlen ⊢
          omega
        obtain ⟨q, hq1, hq2, hq3, hq4, hq5, hq6⟩ := ih (r₀ :: rest2) hlen2 hok.2
        obtain ⟨q', rfl⟩ : ∃ q', q = r₀ :: q' := by
          rcases q with _ | ⟨b, q'⟩
          · simp at hq3
          · simp only [List.head?_cons, Option.some.injEq] at hq3
            exact ⟨q', by rw [hq3]⟩
        refine ⟨a :: r₀ :: q', ?_, ?_, rfl, ?_, ?_, ?_⟩
        · rw [List.nodup_cons]
          exact ⟨fun hc => hmem (hq5 a hc), hq1⟩
        · simp only [chainOk, Bool.and_eq_true]
          exact ⟨hok.1, hq2⟩
        · rw [List.getLast?_cons_cons, hq4, List.getLast?_cons_cons]
        · intro v hv
          rcases List.mem_cons.mp hv with rfl | hv
          · exact List.mem_cons_self _ _
          · exact List.mem_cons_of_mem _ (hq5 v hv)
        · simp only [chainSum]
          rw [qadd_eq, qadd_eq]
          linarith

/-- Every edge-joined walk inside the node set dominates `deltaDist`. -/
theorem walk_deltaDist_le (g : RouteGraph) (hnd : g.nodeIds.Nodup)
    (hnn : ∀ e ∈ g.edges, 0 ≤ e.distance) (p : List String) (s e : String)
    (hok : chainOk g p = true) (hh : p.head? = some s) (hl : p.getLast? = some e)
    (hsub : ∀ v ∈ p, v ∈ g.nodeIds) :
    ∃ d, deltaDist g s e = some d ∧ d ≤ chainSum g (fun ed => ed.distance) p := by
  obtain ⟨q, hq1, hq2, hq3, hq4, hq5, hq6⟩ := chain_dedup g hnn p.length p (le_refl _) hok
  have hqmem : q ∈ simpleChains g s e :=
    simpleChains_complete g s e q hq1 (fun v hv => hsub v (hq5 v hv))
      (hq3.trans hh) (hq4.trans hl) hq2
  obtain ⟨d, hd⟩ := deltaDist_some g s e q hqmem
  exact ⟨d, hd, le_trans (deltaDist_le g s e q hqmem d hd) hq6⟩

/-- `deltaDist` of a node to itself is `0`. -/
theorem deltaDist_self (g : RouteGraph) (s : String) (hs : s ∈ g.nodeIds)
    (hnn : ∀ e ∈ g.edges, 0 ≤ e.distance) : deltaDist g s s = some 0 := by
  have hmem : [s] ∈ simpleChains g s s :=
    simpleChains_complete g s s [s] (by simp) (by simpa using hs) rfl rfl (by trivial)
  obtain ⟨d, hd⟩ := deltaDist_some g s s [s] hmem
  have h1 : d ≤ 0 := by
    have hle := deltaDist_le g s s [s] hmem d hd
    simpa [chainSum] using hle
  have h2 : 0 ≤ d := by
    obtain ⟨p, hp, hcp⟩ := deltaDist_mem g s s d hd
    rw [← hcp]
    exact chainSum_nonneg g _ hnn p
  rw [hd, le_antisymm h1 h2]

/-- Extending a shortest path by one edge bounds `deltaDist` at its head. -/
theorem deltaDist_edge_triangle (g : RouteGraph) (hnd : g.nodeIds.Nodup)
    (hnn : ∀ e ∈ g.edges, 0 ≤ e.distance) (s u v : String) (du : ℚ)
    (hdu : deltaDist g s u = some du) (ed : RouteEdge)
    (hed : findEdge g u v = some ed) (hv : v ∈ g.nodeIds) :
    ∃ dv, deltaDist g s v = some dv ∧ dv ≤ du + ed.distance := by
  obtain ⟨p, hp, hcp⟩ := deltaDist_mem g s u du hdu
  obtain ⟨hp1, hp2, hp3, hp4, hp5⟩ := simpleChains_spec g s u p hnd hp
  have hok2 : chainOk g (p ++ [v]) = true :=
    chainOk_concat g p u v hp4 hp5 (by rw [hed]; rfl)
  have hh2 : (p ++ [v]).head? = some s := by
    rcases p with _ | ⟨a, t⟩
    · simp at hp3
    · simpa using hp3
  have hsub2 : ∀ w ∈ p ++ [v], w ∈ g.nodeIds := by
    intro w hw
    rcases List.mem_append.mp hw with hw | hw
    · exact hp2 w hw
    · rw [List.mem_singleton] at hw
      rw [hw]
      exact hv
  obtain ⟨dv, hdv, hle⟩ := walk_deltaDist_le g hnd hnn (p ++ [v]) s v hok2 hh2
    (List.getLast?_concat _) hsub2
  refine ⟨dv, hdv, ?_⟩
  rw [chainSum_concat g _ p u v hp4, hcp, hed] at hle
  simpa using hle

/-- Triangle inequality for `deltaDist` through an intermediate node. -/
theorem deltaDist_triangle (g : RouteGraph) (hnd : g.nodeIds.Nodup)
    (hnn : ∀ e ∈ g.edges, 0 ≤ e.distance) (i k j : String) (d1 d2 : ℚ)
    (h1 : deltaDist g i k = some d1) (h2 : deltaDist g k j = some d2) :
    ∃ d, deltaDist g i j = some d ∧ d ≤ d1 + d2 := by
  obtain ⟨p, hp, hcp⟩ := deltaDist_mem g i k d1 h1
  obtain ⟨q, hq, hcq⟩ := deltaDist_mem g k j d2 h2
  obtain ⟨hp1, hp2, hp3, hp4, hp5⟩ := simpleChains_spec g i k p hnd hp
  obtain ⟨hq1, hq2, hq3, hq4, hq5⟩ := simpleChains_spec g k j q hnd hq
  obtain ⟨q2, rfl⟩ : ∃ q2, q = k :: q2 := by
    rcases q with _ | ⟨b, q2⟩
    · simp at hq3
    · simp only [List.head?_cons, Option.some.injEq] at hq3
      exact ⟨q2, by rw [hq3]⟩
  obtain ⟨p2, rfl⟩ := exists_concat_of_getLast p k hp4
  have hokJ : chainOk g (p2 ++ k :: q2) = true := chainOk_join g p2 k q2 hp5 hq5
  have hhJ : (p2 ++ k :: q2).head? = some i := by
    rw [head_append_cons]
    exact hp3
  have hlJ : (p2 ++ k :: q2).getLast? = some j := by
    rw [getLast_append_cons]
    exact hq4
  have hsubJ : ∀ w ∈ p2 ++ k :: q2, w ∈ g.nodeIds := by
    intro w hw
    rcases List.mem_append.mp hw with hw | hw
    · exact hp2 w (List.mem_append.mpr (Or.inl hw))
    · exact hq2 w hw
  obtain ⟨d, hd, hle⟩ := walk_deltaDist_le g hnd hnn (p2 ++ k :: q2) i j hokJ hhJ hlJ hsubJ
  refine ⟨d, hd, ?_⟩
  rw [chainSum_join, hcp, hcq] at hle
  exact hle

/-- A sublist of nonnegative rationals has a smaller sum. -/
theorem sublist_sum_le (l₁ l₂ : List ℚ) (h : l₁.Sublist l₂)
    (h0 : ∀ a ∈ l₂, 0 ≤ a) : l₁.sum ≤ l₂.sum := by
  induction h with
  | slnil => exact le_refl 0
  | cons a hs ih =>
    rename_i t₁ t₂
    rw [List.sum_cons]
    have hsum := ih (fun x hx => h0 x (List.mem_cons_of_mem _ hx))
    have ha := h0 a (List.mem_cons_self _ _)
    linarith
  | cons₂ a hs ih =>
    rename_i t₁ t₂
    rw [List.sum_cons, List.sum_cons]
    have hsum := ih (fun x hx => h0 x (List.mem_cons_of_mem _ hx))
    linarith

/-- The chain terms of a duplicate-free edge-joined list are distinct edges
of the graph, so their total stays below the total edge weight. -/
theorem chainSum_found (g : RouteGraph) :
    ∀ (p : List String), p.Nodup → chainOk g p = true →
      ∃ l : List RouteEdge, l.Nodup ∧ (∀ ed ∈ l, ed.frm ∈ p) ∧ l.Subperm g.edges ∧
        chainSum g (fun ed => ed.distance) p = (l.map (fun ed => ed.distance)).sum := by
  intro p
  induction p with
  | nil =>
    intro _ _
    exact ⟨[], by simp, by simp, List.nil_subperm, by simp [chainSum]⟩
  | cons a rest ih =>
    intro hnd hok
    rcases rest with _ | ⟨b, rest2⟩
    · exact ⟨[], by simp, by simp, List.nil_subperm, by simp [chainSum]⟩
    · simp only [chainOk, Bool.and_eq_true] at hok
      obtain ⟨l, hl1, hl2, hl3, hl4⟩ := ih (List.nodup_cons.mp hnd).2 hok.2
      rcases hed : findEdge g a b with _ | ed
      · rw [hed] at hok
        simp at hok
      · obtain ⟨hedm, hedf, _⟩ := findEdge_mem g a b ed hed
        have hafr : ed ∉ l := by
          intro hc
          have := hl2 ed hc
          rw [hedf] at this
          exact (List.nodup_cons.mp hnd).1 this
        refine ⟨ed :: l, List.nodup_cons.mpr ⟨hafr, hl1⟩, ?_, ?_, ?_⟩
        · intro ed2 hed2
          rcases List.mem_cons.mp hed2 with rfl | hed2
          · rw [hedf]
            exact List.mem_cons_self _ _
          · exact List.mem_cons_of_mem _ (hl2 ed2 hed2)
        · exact List.cons_subperm_of_mem hl1 hafr hedm hl3
        · simp only [chainSum, List.map_cons, List.sum_cons]
          rw [qadd_eq, hed, hl4]
          simp

/-- The kernel-computable `edgeSum` is the sum of all edge distances. -/
theorem edgeSum_eq (g : RouteGraph) :
    edgeSum g = (g.edges.map (fun ed => ed.distance)).sum := by
  unfold edgeSum
  have key : ∀ (l : List RouteEdge) (acc : ℚ),
      l.foldl (fun a e => qadd a e.distance) acc = acc + (l.map (fun ed => ed.distance)).sum := by
    intro l
    induction l with
    | nil =>
      intro acc
      simp
    | cons e t ih =>
      intro acc
      rw [List.foldl_cons, ih, qadd_eq, List.map_cons, List.sum_cons]
      ring
  rw [key]
  ring

/-- A duplicate-free edge-joined walk costs at most the total edge weight. -/
theorem chainSum_le_edgeSum (g : RouteGraph) (hnn : ∀ e ∈ g.edges, 0 ≤ e.distance)
    (p : List String) (hp : p.Nodup) (hok : chainOk g p = true) :
    chainSum g (fun ed => ed.distance) p ≤ edgeSum g := by
  obtain ⟨l, _, _, hl3, hl4⟩ := chainSum_found g p hp hok
  obtain ⟨l2, hperm, hsub⟩ := hl3
  rw [hl4, edgeSum_eq]
  have h1 : (l.map (fun ed => ed.distance)).sum = (l2.map (fun ed => ed.distance)).sum :=
    (List.Perm.sum_eq (List.Perm.map _ hperm)).symm
  rw [h1]
  refine sublist_sum_le _ _ (List.Sublist.map _ hsub) ?_
  intro a ha
  rw [List.mem_map] at ha
  obtain ⟨ed, hed, rfl⟩ := ha
  exact hnn ed hed

/-- A defined `deltaDist` stays below `MAX_SAFE_INTEGER` whenever the total
edge weight does. -/
theorem deltaDist_lt_MAXQ (g : RouteGraph) (hnn : ∀ e ∈ g.edges, 0 ≤ e.distance)
    (hnd : g.nodeIds.Nodup) (hsmall : edgeSum g < MAXQ) (s e : String) (d : ℚ)
    (hd : deltaDist g s e = some d) : d < MAXQ := by
  obtain ⟨p, hp, hcp⟩ := deltaDist_mem g s e d hd
  obtain ⟨hp1, _, _, _, hp5⟩ := simpleChains_spec g s e p hnd hp
  rw [← hcp]
  exact lt_of_le_of_lt (chainSum_le_edgeSum g hnn p hp1 hp5) hsmall

/-- With duplicate-free edge pairs, looking up an edge's own pair finds it. -/
theorem findEdge_self (g : RouteGraph)
    (hdp : List.Pairwise (fun e1 e2 : RouteEdge => ¬(e1.frm = e2.frm ∧ e1.to = e2.to)) g.edges)
    (e : RouteEdge) (he : e ∈ g.edges) : findEdge g e.frm e.to = some e := by
  rcases hf : findEdge g e.frm e.to with _ | e2
  · exfalso
    unfold findEdge at hf
    rw [List.find?_eq_none] at hf
    exact hf e he (by simp)
  · obtain ⟨hm, hfr, hto⟩ := findEdge_mem g e.frm e.to e2 hf
    by_cases heq : e2 = e
    · rw [heq]
    · exfalso
      have hpw := List.Pairwise.forall
        (R := fun e1 e2 : RouteEdge => ¬(e1.frm = e2.frm ∧ e1.to = e2.to))
        (fun a b hab => fun hc => hab ⟨hc.1.symm, hc.2.symm⟩) hdp he hm
        (fun h => heq h.symm)
      exact hpw ⟨hfr.symm, hto.symm⟩

/-- Specification of the `minDistance` scan: starting from the sentinel
accumulator it either reports that nothing qualified, or returns an
unvisited key holding the minimum distance among unvisited keys. -/
theorem minFold_spec (dist : String → Option ℚ) (visited : String → Bool) :
    ∀ (keys : List String) (acc : ℚ × String),
      (let r := keys.foldl
        (fun (p : ℚ × String) v =>
          match dist v with
          | some dv => if !(visited v) && decide (dv ≤ p.1) then (dv, v) else p
          | none => p) acc
      (r.1 ≤ acc.1) ∧
      (∀ y ∈ keys, visited y = false → ∀ dy, dist y = some dy → r.1 ≤ dy) ∧
      ((r.2 ∈ keys ∧ visited r.2 = false ∧ dist r.2 = some r.1) ∨
        (r = acc ∧ ∀ k ∈ keys, visited k = false → ∀ dk, dist k = some dk →
          ¬(dk ≤ acc.1)))) := by
  intro keys
  induction keys with
  | nil =>
    intro acc
    refine ⟨le_refl _, by intro y hy; simp at hy, Or.inr ⟨rfl, by intro k hk; simp at hk⟩⟩
  | cons v rest ih =>
    intro acc
    simp only [List.foldl_cons]
    rcases hdv : dist v with _ | dv
    · obtain ⟨ihc, ihb, iha⟩ := ih acc
      refine ⟨ihc, ?_, ?_⟩
      · intro y hy hyv dy hdy
        rcases List.mem_cons.mp hy with rfl | hy
        · rw [hdv] at hdy
          cases hdy
        · exact ihb y hy hyv dy hdy
      · rcases iha with h | ⟨h1, h2⟩
        · exact Or.inl ⟨List.mem_cons_of_mem _ h.1, h.2.1, h.2.2⟩
        · refine Or.inr ⟨h1, ?_⟩
          intro k hk hkv dk hdk
          rcases List.mem_cons.mp hk with rfl | hk
          · rw [hdv] at hdk
            cases hdk
          · exact h2 k hk hkv dk hdk
    · dsimp only
      by_cases hcond : (!(visited v) && decide (dv ≤ acc.1)) = true
      · rw [if_pos hcond]
        simp only [Bool.and_eq_true, Bool.not_eq_true', decide_eq_true_eq] at hcond
        obtain ⟨ihc, ihb, iha⟩ := ih (dv, v)
        refine ⟨le_trans ihc hcond.2, ?_, ?_⟩
        · intro y hy hyv dy hdy
          rcases List.mem_cons.mp hy with rfl | hy
          · rw [hdv] at hdy
            rw [← Option.some.inj hdy]
            exact ihc
          · exact ihb y hy hyv dy hdy
        · rcases iha with h | ⟨h1, h2⟩
          · exact Or.inl ⟨List.mem_cons_of_mem _ h.1, h.2.1, h.2.2⟩
          · refine Or.inl ?_
            rw [h1]
            exact ⟨List.mem_cons_self _ _, hcond.1, hdv⟩
      · rw [if_neg hcond]
        simp only [Bool.and_eq_true, Bool.not_eq_true', decide_eq_true_eq, not_and] at hcond
        obtain ⟨ihc, ihb, iha⟩ := ih acc
        refine ⟨ihc, ?_, ?_⟩
        · intro y hy hyv dy hdy
          rcases List.mem_cons.mp hy with rfl | hy
          · rw [hdv] at hdy
            have hnle := hcond hyv
            rw [Option.some.inj hdy] at *
            linarith [ihc, lt_of_not_le hnle]
          · exact ihb y hy hyv dy hdy
        · rcases iha with h | ⟨h1, h2⟩
          · exact Or.inl ⟨List.mem_cons_of_mem _ h.1, h.2.1, h.2.2⟩
          · refine Or.inr ⟨h1, ?_⟩
            intro k hk hkv dk hdk
            rcases List.mem_cons.mp hk with rfl | hk
            · rw [hdv] at hdk
              rw [← Option.some.inj hdk]
              exact hcond hkv
            · exact h2 k hk hkv dk hdk

/-- Folding the relaxation body of `dijkstra` over edges out of the freshly
visited node `u` preserves the mid-loop invariant, keeps `visited`
unchanged, only ever lowers distances, and leaves every processed edge
relaxed. -/
theorem relaxFold (g : RouteGraph) (s u : String) (du : ℚ)
    (hs : s ∈ g.nodeIds)
    (hto : ∀ e ∈ g.edges, e.to ∈ g.nodeIds)
    (hpos : ∀ e ∈ g.edges, 0 < e.distance)
    (hdp : List.Pairwise (fun e1 e2 : RouteEdge => ¬(e1.frm = e2.frm ∧ e1.to = e2.to)) g.edges)
    (hu : u ∈ g.nodeIds) :
    ∀ (l : List RouteEdge), (∀ e ∈ l, e ∈ g.edges ∧ e.frm = u) →
      ∀ st, DijkMid g s u du st →
      let F := fun (st : P2P.DijkState) (e : RouteEdge) =>
        let v := e.to
        if !(st.visited v) && jsLt (jsAdd (st.dist u) e.distance) (st.dist v) then
          { st with
            dist := fun x => if x = v then jsAdd (st.dist u) e.distance else st.dist x,
            time := fun x => if x = v then jsAdd (st.time u) e.time else st.time x,
            prev := fun x => if x = v then some u else st.prev x }
        else st
      DijkMid g s u du (l.foldl F st) ∧
      (l.foldl F st).visited = st.visited ∧
      (∀ v dv2, (l.foldl F st).dist v = some dv2 →
        ∃ dv1, st.dist v = some dv1 ∧ dv2 ≤ dv1) ∧
      (∀ e ∈ l, ∀ dv, (l.foldl F st).dist e.to = some dv → dv ≤ du + e.distance) := by
  intro l
  induction l with
  | nil =>
    intro _ st hmid
    exact ⟨hmid, rfl, fun v dv2 h => ⟨dv2, h, le_refl _⟩, by intro e he; simp at he⟩
  | cons e₀ rest ih =>
    intro hl st hmid
    obtain ⟨he₀g, he₀u⟩ := hl e₀ (List.mem_cons_self _ _)
    have hrest : ∀ e ∈ rest, e ∈ g.edges ∧ e.frm = u :=
      fun e he => hl e (List.mem_cons_of_mem _ he)
    obtain ⟨hvu, hdu, hledu, hds, hts, h3, h4, h5, h6, h7⟩ := hmid
    obtain ⟨dvo, tvo, hdvo, htvo, hdvo0, hdvoM, hchainv⟩ := h3 e₀.to (hto e₀ he₀g)
    obtain ⟨duu, tuu, hduu, htuu, hdu0, hduM, hchainu⟩ := h3 u hu
    have hduu2 : duu = du := Option.some.inj (hduu.symm.trans hdu)
    rw [hduu2] at hdu0 hduM hchainu
    intro F
    rw [List.foldl_cons]
    have hFdef : F st e₀ =
        if !(st.visited e₀.to) && jsLt (jsAdd (st.dist u) e₀.distance) (st.dist e₀.to) then
          { st with
            dist := fun x => if x = e₀.to then jsAdd (st.dist u) e₀.distance else st.dist x,
            time := fun x => if x = e₀.to then jsAdd (st.time u) e₀.time else st.time x,
            prev := fun x => if x = e₀.to then some u else st.prev x }
        else st := rfl
    by_cases hguard :
        (!(st.visited e₀.to) && jsLt (jsAdd (st.dist u) e₀.distance) (st.dist e₀.to)) = true
    · -- the relaxation fires
      simp only [Bool.and_eq_true, Bool.not_eq_true'] at hguard
      obtain ⟨hvis, hlt'⟩ := hguard
      rw [hdu, hdvo] at hlt'
      have hlt : du + e₀.distance < dvo := by
        simp only [jsAdd, Option.map_some', jsLt, decide_eq_true_eq] at hlt'
        rw [qadd_eq] at hlt'
        exact hlt'
      have hw := hpos e₀ he₀g
      have hvns : e₀.to ≠ s := by
        intro hc
        rw [hc, hds] at hdvo
        rw [← Option.some.inj hdvo] at hlt
        linarith
      have hvnu : e₀.to ≠ u := by
        intro hc
        rw [hc, hvu] at hvis
        cases hvis
      have hst' : F st e₀ =
          { st with
            dist := fun x => if x = e₀.to then jsAdd (st.dist u) e₀.distance else st.dist x,
            time := fun x => if x = e₀.to then jsAdd (st.time u) e₀.time else st.time x,
            prev := fun x => if x = e₀.to then some u else st.prev x } := by
        rw [hFdef, if_pos (by rw [hvis]; simpa [jsAdd, jsLt, hdu, hdvo, qadd_eq] using hlt)]
      have hfind : findEdge g u e₀.to = some e₀ := by
        rw [← he₀u]
        exact findEdge_self g hdp e₀ he₀g
      have hA : jsAdd (st.dist u) e₀.distance = some (du + e₀.distance) := by
        simp [hdu, jsAdd, qadd_eq]
      have hB : jsAdd (st.time u) e₀.time = some (tuu + e₀.time) := by
        simp [htuu, jsAdd, qadd_eq]
      -- the updated state satisfies the invariant
      have hmid' : DijkMid g s u du (F st e₀) := by
        rw [hst']
        refine ⟨hvu, ?_, ?_, ?_, ?_, ?_, ?_, ?_, ?_, ?_⟩
        · dsimp only
          rw [if_neg (fun hc : u = e₀.to => hvnu hc.symm)]
          exact hdu
        · intro x hx hxv dx hdx
          dsimp only at hdx
          by_cases hxe : x = e₀.to
          · rw [hxe] at hxv
            rw [hxv] at hvis
            cases hvis
          · rw [if_neg hxe] at hdx
            exact hledu x hx hxv dx hdx
        · dsimp only
          rw [if_neg (fun hc : s = e₀.to => hvns hc.symm)]
          exact hds
        · dsimp only
          rw [if_neg (fun hc : s = e₀.to => hvns hc.symm)]
          exact hts
        · intro v hv
          dsimp only
          by_cases hve : v = e₀.to
          · subst hve
            refine ⟨du + e₀.distance, tuu + e₀.time, by rw [if_pos rfl]; exact hA,
              by rw [if_pos rfl]; exact hB, by linarith, by linarith, ?_⟩
            intro _
            have hducase : du ≠ MAXQ ∨ u = s := by
              by_cases hus : u = s
              · exact Or.inr hus
              · refine Or.inl ?_
                intro hduM2
                rw [hduM2] at hlt
                linarith [hdvoM]
            obtain ⟨p, hpnd, hpok, hph, hpl, hpmem, hpvis, hpcd, hpct⟩ := hchainu hducase
            have hvnotp : e₀.to ∉ p := by
              intro hc
              rcases hpvis e₀.to hc with h | h
              · rw [h] at hvis
                cases hvis
              · rw [h] at hvnu
                exact hvnu rfl
            refine ⟨p ++ [e₀.to], ?_, ?_, ?_, List.getLast?_concat _, ?_, ?_, ?_, ?_⟩
            · simp [List.nodup_append, hpnd, hvnotp]
            · exact chainOk_concat g p u e₀.to hpl hpok (by rw [hfind]; rfl)
            · rcases p with _ | ⟨a, t⟩
              · simp at hph
              · simpa using hph
            · intro w hw
              rcases List.mem_append.mp hw with hw | hw
              · exact hpmem w hw
              · rw [List.mem_singleton] at hw
                rw [hw]
                exact hto e₀ he₀g
            · intro w hw
              rcases List.mem_append.mp hw with hw | hw
              · rcases hpvis w hw with h | h
                · exact Or.inl h
                · exact Or.inl (h ▸ hvu)
              · rw [List.mem_singleton] at hw
                exact Or.inr hw
            · rw [chainSum_concat g _ p u e₀.to hpl, hpcd, hfind]
              simp
            · rw [chainSum_concat g _ p u e₀.to hpl, hpct, hfind]
              simp
          · rw [if_neg hve, if_neg hve]
            obtain ⟨dv, tv, hdv, htv, hdv0, hdvM, hchain⟩ := h3 v hv
            refine ⟨dv, tv, hdv, htv, hdv0, hdvM, ?_⟩
            intro hcase
            obtain ⟨p, hp1, hp2, hp3, hp4, hp5, hp6, hp7, hp8⟩ := hchain hcase
            exact ⟨p, hp1, hp2, hp3, hp4, hp5, hp6, hp7, hp8⟩
        · intro x hx y hy hxv hyv dx dy hdx hdy
          dsimp only at hdx hdy
          have hxe : x ≠ e₀.to := by
            intro hc
            rw [hc] at hxv
            rw [hxv] at hvis
            cases hvis
          rw [if_neg hxe] at hdx
          by_cases hye : y = e₀.to
          · rw [if_pos hye] at hdy
            rw [hA] at hdy
            rw [← Option.some.inj hdy]
            have := hledu x hx hxv dx hdx
            linarith
          · rw [if_neg hye] at hdy
            exact h4 x hx y hy hxv hyv dx dy hdx hdy
        · intro e he hef hev dx dv hdx hdv
          dsimp only at hdx hdv
          have hxe : e.frm ≠ e₀.to := by
            intro hc
            rw [hc] at hev
            rw [hev] at hvis
            cases hvis
          rw [if_neg hxe] at hdx
          by_cases hye : e.to = e₀.to
          · rw [if_pos hye] at hdv
            rw [hA] at hdv
            have hold := h5 e he hef hev dx dvo hdx (by rw [hye]; exact hdvo)
            rw [← Option.some.inj hdv]
            linarith
          · rw [if_neg hye] at hdv
            exact h5 e he hef hev dx dv hdx hdv
        · intro v w hpv
          dsimp only at hpv ⊢
          by_cases hve : v = e₀.to
          · rw [if_pos hve] at hpv
            have hwu : u = w := Option.some.inj hpv
            subst hwu
            subst hve
            refine ⟨hvu, hu, hto e₀ he₀g, hvns, e₀, du, tuu, hfind, ?_, ?_, ?_, ?_, ?_⟩
            · rw [if_neg (fun hc : u = e₀.to => hvnu hc.symm)]
              exact hdu
            · rw [if_neg (fun hc : u = e₀.to => hvnu hc.symm)]
              exact htuu
            · rw [if_pos rfl]
              exact hA
            · rw [if_pos rfl]
              exact hB
            · exact ne_of_lt (lt_of_lt_of_le hlt hdvoM)
          · rw [if_neg hve] at hpv
            obtain ⟨hwv, hwn, hvn, hvs, ed, dw, tw, hfed, hdw, htw, hdvv, htvv, hne⟩ :=
              h6 v w hpv
            have hwne : w ≠ e₀.to := by
              intro hc
              rw [hc] at hwv
              rw [hwv] at hvis
              cases hvis
            refine ⟨hwv, hwn, hvn, hvs, ed, dw, tw, hfed, ?_, ?_, ?_, ?_, hne⟩
            · rw [if_neg hwne]
              exact hdw
            · rw [if_neg hwne]
              exact htw
            · rw [if_neg hve]
              exact hdvv
            · rw [if_neg hve]
              exact htvv
        · intro v hv hvs2 dv hdv hdvM2
          dsimp only at hdv ⊢
          by_cases hve : v = e₀.to
          · rw [if_pos hve]
            simp
          · rw [if_neg hve] at hdv
            rw [if_neg hve]
            exact h7 v hv hvs2 dv hdv hdvM2
      obtain ⟨ihmid, ihvis, ihmono, ihrelax⟩ := ih hrest (F st e₀) hmid'
      refine ⟨ihmid, ?_, ?_, ?_⟩
      · rw [ihvis, hst']
      · intro v dv2 hdv2
        obtain ⟨dv1, hdv1, hle1⟩ := ihmono v dv2 hdv2
        rw [hst'] at hdv1
        dsimp only at hdv1
        by_cases hve : v = e₀.to
        · rw [if_pos hve] at hdv1
          rw [hA] at hdv1
          rw [hve]
          refine ⟨dvo, hdvo, ?_⟩
          rw [← Option.some.inj hdv1] at hle1
          linarith
        · rw [if_neg hve] at hdv1
          exact ⟨dv1, hdv1, hle1⟩
      · intro e he dv hdv
        rcases List.mem_cons.mp he with rfl | he
        · obtain ⟨dv1, hdv1, hle1⟩ := ihmono e.to dv hdv
          rw [hst'] at hdv1
          dsimp only at hdv1
          rw [if_pos rfl] at hdv1
          rw [hA] at hdv1
          rw [← Option.some.inj hdv1] at hle1
          exact hle1
        · exact ihrelax e he dv hdv
    · -- no relaxation
      have hst' : F st e₀ = st := by
        rw [hFdef, if_neg hguard]
      rw [hst']
      obtain ⟨ihmid, ihvis, ihmono, ihrelax⟩ :=
        ih hrest st ⟨hvu, hdu, hledu, hds, hts, h3, h4, h5, h6, h7⟩
      refine ⟨ihmid, ihvis, ihmono, ?_⟩
      intro e he dv hdv
      rcases List.mem_cons.mp he with rfl | he
      · obtain ⟨dv1, hdv1, hle1⟩ := ihmono e.to dv hdv
        have hdv1o : dv1 = dvo := by
          rw [hdvo] at hdv1
          exact (Option.some.inj hdv1).symm
        subst hdv1o
        by_cases hvis : st.visited e.to = true
        · have := hledu e.to (hto e he₀g) hvis dv1 hdvo
          have hw := hpos e he₀g
          linarith
        · have hjs : jsLt (jsAdd (st.dist u) e.distance) (st.dist e.to) = false := by
            rcases hb : jsLt (jsAdd (st.dist u) e.distance) (st.dist e.to)
            · rfl
            · exfalso
              refine hguard ?_
              rw [Bool.and_eq_true, hb]
              refine ⟨?_, rfl⟩
              rw [Bool.not_eq_true']
              rw [Bool.not_eq_true] at hvis
              exact hvis
          rw [hdu, hdvo] at hjs
          simp only [jsAdd, Option.map_some', jsLt, decide_eq_false_iff_not] at hjs
          rw [qadd_eq] at hjs
          have := le_of_not_lt hjs
          linarith
      · exact ihrelax e he dv hdv

/-- One iteration of the dijkstra loop preserves the invariant, only grows
the visited set, and — when an unvisited node remains — marks exactly one
previously unvisited node. -/
theorem dijkstraStep_inv (g : RouteGraph) (s : String)
    (hnd : g.nodeIds.Nodup) (hs : s ∈ g.nodeIds) (h0 : "" ∉ g.nodeIds)
    (hto : ∀ e ∈ g.edges, e.to ∈ g.nodeIds)
    (hpos : ∀ e ∈ g.edges, 0 < e.distance)
    (hdp : List.Pairwise (fun e1 e2 : RouteEdge => ¬(e1.frm = e2.frm ∧ e1.to = e2.to)) g.edges)
    (st : P2P.DijkState) (hinv : DijkInv g s st) :
    DijkInv g s (P2P.dijkstraStep g g.nodeIds st) ∧
    ((∃ k ∈ g.nodeIds, st.visited k = false) →
      ∃ m ∈ g.nodeIds, st.visited m = false ∧
        (P2P.dijkstraStep g g.nodeIds st).visited =
          fun v => if v = m then true else st.visited v) ∧
    ((∀ k ∈ g.nodeIds, st.visited k = true) → P2P.dijkstraStep g g.nodeIds st = st) := by
  obtain ⟨hds, hts, h3, h4, h5, h6, h7⟩ := hinv
  obtain ⟨hc, hb, ha⟩ := minFold_spec st.dist st.visited g.nodeIds (MAXQ, "")
  simp only [P2P.dijkstraStep]
  by_cases hmE : P2P.minDistance g.nodeIds st.dist st.visited = ""
  · rw [if_pos hmE]
    refine ⟨⟨hds, hts, h3, h4, h5, h6, h7⟩, ?_, fun _ => rfl⟩
    rintro ⟨k, hkm, hkf⟩
    exfalso
    rcases ha with hleft | ⟨hacc, hnone⟩
    · refine absurd ?_ h0
      rw [← hmE]
      exact hleft.1
    · obtain ⟨dk, tk, hdk, _, _, hdkM, _⟩ := h3 k hkm
      exact hnone k hkm hkf dk hdk hdkM
  · rw [if_neg hmE]
    have hleft : P2P.minDistance g.nodeIds st.dist st.visited ∈ g.nodeIds ∧
        st.visited (P2P.minDistance g.nodeIds st.dist st.visited) = false ∧
        st.dist (P2P.minDistance g.nodeIds st.dist st.visited) = some
          ((g.nodeIds.foldl
            (fun (p : ℚ × String) v =>
              match st.dist v with
              | some dv => if !(st.visited v) && decide (dv ≤ p.1) then (dv, v) else p
              | none => p) (MAXQ, "")).1) := by
      rcases ha with hleft | ⟨hacc, _⟩
      · exact hleft
      · exfalso
        apply hmE
        rw [show P2P.minDistance g.nodeIds st.dist st.visited =
          (g.nodeIds.foldl
            (fun (p : ℚ × String) v =>
              match st.dist v with
              | some dv => if !(st.visited v) && decide (dv ≤ p.1) then (dv, v) else p
              | none => p) (MAXQ, "")).2 from rfl, hacc]
    obtain ⟨hmmem, hmunv, hmdist⟩ := hleft
    set m := P2P.minDistance g.nodeIds st.dist st.visited with hm
    set dm := (g.nodeIds.foldl
      (fun (p : ℚ × String) v =>
        match st.dist v with
        | some dv => if !(st.visited v) && decide (dv ≤ p.1) then (dv, v) else p
        | none => p) (MAXQ, "")).1 with hdm
    have hmid : DijkMid g s m dm
        { st with visited := fun v => if v = m then true else st.visited v } := by
      refine ⟨by dsimp only; rw [if_pos rfl], hmdist, ?_, hds, hts, ?_, ?_, ?_, ?_, ?_⟩
      · intro x hx hxv dx hdx
        dsimp only at hxv hdx
        by_cases hxm : x = m
        · rw [hxm] at hdx
          rw [hmdist] at hdx
          rw [← Option.some.inj hdx]
        · rw [if_neg hxm] at hxv
          exact h4 x hx m hmmem hxv hmunv dx dm hdx hmdist
      · intro v hv
        obtain ⟨dv, tv, hdv, htv, hdv0, hdvM, hchain⟩ := h3 v hv
        refine ⟨dv, tv, hdv, htv, hdv0, hdvM, ?_⟩
        intro hcase
        obtain ⟨p, hp1, hp2, hp3, hp4, hp5, hp6, hp7, hp8⟩ := hchain hcase
        refine ⟨p, hp1, hp2, hp3, hp4, hp5, ?_, hp7, hp8⟩
        intro w hw
        dsimp only
        rcases hp6 w hw with h | h
        · left
          by_cases hwm : w = m
          · rw [if_pos hwm]
          · rw [if_neg hwm]
            exact h
        · exact Or.inr h
      · intro x hx y hy hxv hyv dx dy hdx hdy
        dsimp only at hxv hyv hdx hdy
        by_cases hym : y = m
        · rw [if_pos hym] at hyv
          cases hyv
        · rw [if_neg hym] at hyv
          by_cases hxm : x = m
          · rw [hxm] at hdx
            rw [hmdist] at hdx
            rw [← Option.some.inj hdx]
            exact hb y hy hyv dy hdy
          · rw [if_neg hxm] at hxv
            exact h4 x hx y hy hxv hyv dx dy hdx hdy
      · intro e he hef hev dx dv hdx hdv
        dsimp only at hev hdx hdv
        rw [if_neg hef] at hev
        exact h5 e he hev dx dv hdx hdv
      · intro v w hpv
        dsimp only at hpv ⊢
        obtain ⟨hwv, hwn, hvn, hvs, ed, dw, tw, hfed, hdw, htw, hdvv, htvv, hne⟩ := h6 v w hpv
        refine ⟨?_, hwn, hvn, hvs, ed, dw, tw, hfed, hdw, htw, hdvv, htvv, hne⟩
        by_cases hwm : w = m
        · rw [if_pos hwm]
        · rw [if_neg hwm]
          exact hwv
      · intro v hv hvs2 dv hdv hdvM2
        exact h7 v hv hvs2 dv hdv hdvM2
    have hfilter : ∀ e ∈ g.edges.filter (fun e => e.frm == m), e ∈ g.edges ∧ e.frm = m := by
      intro e he
      rw [List.mem_filter] at he
      refine ⟨he.1, ?_⟩
      have := he.2
      simpa using this
    obtain ⟨hmidF, hvisF, hmonoF, hrelaxF⟩ :=
      relaxFold g s m dm hs hto hpos hdp hmmem
        (g.edges.filter (fun e => e.frm == m)) hfilter
        { st with visited := fun v => if v = m then true else st.visited v } hmid
    obtain ⟨hvuF, hduF, hleduF, hdsF, htsF, h3F, h4F, h5F, h6F, h7F⟩ := hmidF
    refine ⟨⟨hdsF, htsF, h3F, h4F, ?_, h6F, h7F⟩, ?_⟩
    · intro e he hevF dx dv hdx hdv
      by_cases hefm : e.frm = m
      · have hem : e ∈ g.edges.filter (fun e => e.frm == m) := by
          rw [List.mem_filter]
          exact ⟨he, by simp [hefm]⟩
        have hrel := hrelaxF e hem dv hdv
        have hdxm : dx = dm := by
          rw [hefm] at hdx
          rw [hduF] at hdx
          exact (Option.some.inj hdx).symm
        rw [hdxm]
        exact hrel
      · exact h5F e he hefm hevF dx dv hdx hdv
    · refine ⟨?_, ?_⟩
      · intro _
        refine ⟨m, hmmem, hmunv, ?_⟩
        rw [hvisF]
      · intro hall
        rw [hall m hmmem] at hmunv
        cases hmunv

/-- Marking one unvisited member of a duplicate-free list visited lowers
the unvisited count by exactly one. -/
theorem countP_mark (l : List String) (m : String) (visited : String → Bool)
    (hnd : l.Nodup) (hm : m ∈ l) (hmf : visited m = false) :
    l.countP (fun v => !(if v = m then true else visited v)) + 1 =
      l.countP (fun v => !(visited v)) := by
  induction l with
  | nil => simp at hm
  | cons a t ih =>
    rw [List.countP_cons, List.countP_cons]
    by_cases ham : a = m
    · have hmt : m ∉ t := ham ▸ (List.nodup_cons.mp hnd).1
      have htail : t.countP (fun v => !(if v = m then true else visited v)) =
          t.countP (fun v => !(visited v)) := by
        apply List.countP_congr
        intro v hv
        have hvm : ¬ (v = m) := by
          intro hc
          exact hmt (hc ▸ hv)
        rw [if_neg hvm]
      rw [htail]
      have h1 : (!(if a = m then true else visited a)) = false := by
        rw [if_pos ham]
        rfl
      have h2 : (!(visited a)) = true := by
        rw [ham, hmf]
        rfl
      rw [h1, h2]
      simp
    · have hm2 : m ∈ t := by
        rcases List.mem_cons.mp hm with h | h
        · exact absurd h.symm ham
        · exact h
      have hih := ih (List.nodup_cons.mp hnd).2 hm2
      have hhead : (!(if a = m then true else visited a)) = (!(visited a)) := by
        rw [if_neg ham]
      rw [hhead]
      omega

/-- Dropping the last vertex keeps the list edge-joined. -/
theorem chainOk_prefix_concat (g : RouteGraph) :
    ∀ (q : List String) (v : String), chainOk g (q ++ [v]) = true → chainOk g q = true := by
  intro q
  induction q with
  | nil =>
    intro v _
    rfl
  | cons a q' ih =>
    intro v h
    rcases q' with _ | ⟨b, q''⟩
    · rfl
    · simp only [List.cons_append, chainOk, Bool.and_eq_true] at h ⊢
      exact ⟨h.1, ih v h.2⟩

/-- An edge-joined concatenation ends with an actual edge. -/
theorem chainOk_concat_last_edge (g : RouteGraph) :
    ∀ (q : List String) (b v : String), chainOk g (q ++ [v]) = true →
      q.getLast? = some b → (findEdge g b v).isSome = true := by
  intro q
  induction q with
  | nil =>
    intro b v _ hb
    simp at hb
  | cons a q' ih =>
    intro b v h hb
    rcases q' with _ | ⟨c, q''⟩
    · have hab : a = b := by simpa using hb
      subst hab
      simp only [List.cons_append, List.nil_append, chainOk, Bool.and_eq_true] at h
      exact h.1
    · rw [List.getLast?_cons_cons] at hb
      simp only [List.cons_append, chainOk, Bool.and_eq_true] at h
      exact ih b v h.2 hb

/-- The dijkstra loop invariant holds at the freshly initialized state. -/
theorem dijkstra_init_inv (g : RouteGraph) (s : String) (hs : s ∈ g.nodeIds) :
    DijkInv g s ⟨P2P.initDist g s, P2P.initDist g s, fun _ => none, fun _ => false⟩ := by
  have hinit_s : P2P.initDist g s s = some 0 := by
    simp [P2P.initDist]
  have hinit_ne : ∀ v ∈ g.nodeIds, v ≠ s → P2P.initDist g s v = some MAXQ := by
    intro v hv hvs
    have hcv : g.nodeIds.contains v = true := by
      simpa using hv
    simp only [P2P.initDist, if_neg hvs, hcv, if_pos rfl]
    rfl
  have hM0 : (0 : ℚ) ≤ MAXQ := by norm_num [MAXQ]
  refine ⟨hinit_s, hinit_s, ?_, ?_, ?_, ?_, ?_⟩
  · intro v hv
    by_cases hvs : v = s
    · subst hvs
      refine ⟨0, 0, hinit_s, hinit_s, le_refl 0, hM0, ?_⟩
      intro _
      refine ⟨[v], by simp, rfl, rfl, rfl, by simpa using hv, ?_, rfl, rfl⟩
      intro w hw
      right
      simpa using hw
    · refine ⟨MAXQ, MAXQ, hinit_ne v hv hvs, hinit_ne v hv hvs, hM0, le_refl MAXQ, ?_⟩
      rintro (h | h)
      · exact absurd rfl h
      · exact absurd h hvs
  · intro x _ y _ hx _ _ _ _ _
    cases hx
  · intro e _ hf _ _ _ _
    cases hf
  · intro v u hp
    cases hp
  · intro v hv hvs dv hdv hdM
    have hdv2 : P2P.initDist g s v = some dv := hdv
    rw [hinit_ne v hv hvs] at hdv2
    exact absurd (Option.some.inj hdv2).symm hdM

/-- Iterating the dijkstra step preserves the invariant and, as long as
unvisited nodes remain, visits one more node per round. -/
theorem dijkstra_iter_inv (g : RouteGraph) (s : String)
    (hnd : g.nodeIds.Nodup) (hs : s ∈ g.nodeIds) (h0 : "" ∉ g.nodeIds)
    (hto : ∀ e ∈ g.edges, e.to ∈ g.nodeIds)
    (hpos : ∀ e ∈ g.edges, 0 < e.distance)
    (hdp : List.Pairwise (fun e1 e2 : RouteEdge => ¬(e1.frm = e2.frm ∧ e1.to = e2.to)) g.edges)
    (st0 : P2P.DijkState) (hinv0 : DijkInv g s st0) :
    ∀ k : Nat,
      DijkInv g s ((List.range k).foldl (fun st _ => P2P.dijkstraStep g g.nodeIds st) st0) ∧
      (g.nodeIds.countP (fun v =>
          !(((List.range k).foldl (fun st _ => P2P.dijkstraStep g g.nodeIds st) st0).visited v))
          + k ≤ g.nodeIds.countP (fun v => !(st0.visited v)) ∨
        g.nodeIds.countP (fun v =>
          !(((List.range k).foldl (fun st _ => P2P.dijkstraStep g g.nodeIds st) st0).visited v))
          = 0) := by
  intro k
  induction k with
  | zero =>
    exact ⟨hinv0, Or.inl (by simp)⟩
  | succ k ih =>
    obtain ⟨hik, hcnt⟩ := ih
    have hfold : (List.range (k + 1)).foldl (fun st _ => P2P.dijkstraStep g g.nodeIds st) st0 =
        P2P.dijkstraStep g g.nodeIds
          ((List.range k).foldl (fun st _ => P2P.dijkstraStep g g.nodeIds st) st0) := by
      rw [List.range_succ, List.foldl_append]
      rfl
    obtain ⟨hinv1, hmark, hid⟩ := dijkstraStep_inv g s hnd hs h0 hto hpos hdp _ hik
    rw [hfold]
    refine ⟨hinv1, ?_⟩
    by_cases hall : ∀ v ∈ g.nodeIds,
        ((List.range k).foldl (fun st _ => P2P.dijkstraStep g g.nodeIds st) st0).visited v = true
    · right
      rw [hid hall]
      rw [List.countP_eq_zero]
      intro v hv
      rw [hall v hv]
      simp
    · push_neg at hall
      obtain ⟨w, hwm, hwv⟩ := hall
      have hwf : ((List.range k).foldl (fun st _ => P2P.dijkstraStep g g.nodeIds st) st0).visited w
          = false := by
        cases hvw : ((List.range k).foldl (fun st _ => P2P.dijkstraStep g g.nodeIds st) st0).visited w
        · rfl
        · exact absurd hvw hwv
      obtain ⟨m, hmm, hmf, hvis⟩ := hmark ⟨w, hwm, hwf⟩
      have hstep : (P2P.dijkstraStep g g.nodeIds
            ((List.range k).foldl (fun st _ => P2P.dijkstraStep g g.nodeIds st) st0)).visited =
          fun v => if v = m then true
            else ((List.range k).foldl (fun st _ => P2P.dijkstraStep g g.nodeIds st) st0).visited v :=
        hvis
      left
      simp only [hstep]
      have hmark2 := countP_mark g.nodeIds m
        ((List.range k).foldl (fun st _ => P2P.dijkstraStep g g.nodeIds st) st0).visited hnd hmm hmf
      rcases hcnt with hle | hzero
      · omega
      · exfalso
        rw [List.countP_eq_zero] at hzero
        have := hzero w hwm
        rw [hwf] at this
        simp at this

/-- After as many rounds as there are nodes, starting from the initial
state, the invariant holds and every node is visited. -/
theorem dijkstra_final_state (g : RouteGraph) (s : String)
    (hnd : g.nodeIds.Nodup) (hs : s ∈ g.nodeIds) (h0 : "" ∉ g.nodeIds)
    (hto : ∀ e ∈ g.edges, e.to ∈ g.nodeIds)
    (hpos : ∀ e ∈ g.edges, 0 < e.distance)
    (hdp : List.Pairwise (fun e1 e2 : RouteEdge => ¬(e1.frm = e2.frm ∧ e1.to = e2.to)) g.edges) :
    DijkInv g s ((List.range g.nodeIds.length).foldl
        (fun st _ => P2P.dijkstraStep g g.nodeIds st)
        ⟨P2P.initDist g s, P2P.initDist g s, fun _ => none, fun _ => false⟩) ∧
    ∀ v ∈ g.nodeIds,
      ((List.range g.nodeIds.length).foldl (fun st _ => P2P.dijkstraStep g g.nodeIds st)
        ⟨P2P.initDist g s, P2P.initDist g s, fun _ => none, fun _ => false⟩).visited v = true := by
  obtain ⟨hinv, hcnt⟩ := dijkstra_iter_inv g s hnd hs h0 hto hpos hdp
    ⟨P2P.initDist g s, P2P.initDist g s, fun _ => none, fun _ => false⟩
    (dijkstra_init_inv g s hs) g.nodeIds.length
  refine ⟨hinv, ?_⟩
  have hinit : g.nodeIds.countP
      (fun v => !((⟨P2P.initDist g s, P2P.initDist g s, fun _ => none,
        fun _ => false⟩ : P2P.DijkState).visited v)) = g.nodeIds.length := by
    rw [List.countP_eq_length]
    intro v _
    rfl
  have hzero : g.nodeIds.countP (fun v =>
      !(((List.range g.nodeIds.length).foldl (fun st _ => P2P.dijkstraStep g g.nodeIds st)
        ⟨P2P.initDist g s, P2P.initDist g s, fun _ => none, fun _ => false⟩).visited v)) = 0 := by
    rcases hcnt with hle | hz
    · rw [hinit] at hle
      omega
    · exact hz
  intro v hv
  rw [List.countP_eq_zero] at hzero
  have := hzero v hv
  cases hvv : ((List.range g.nodeIds.length).foldl (fun st _ => P2P.dijkstraStep g g.nodeIds st)
      ⟨P2P.initDist g s, P2P.initDist g s, fun _ => none, fun _ => false⟩).visited v
  · rw [hvv] at this
    simp at this
  · rfl

/-- In a fully relaxed state with `dist s = 0`, every node's distance is
bounded by the cost of every edge-joined chain from `s` to it. -/
theorem fully_relaxed_le_chain (g : RouteGraph) (s : String) (st : P2P.DijkState)
    (hds : st.dist s = some 0)
    (hdef : ∀ v ∈ g.nodeIds, ∃ dv, st.dist v = some dv)
    (hall : ∀ v ∈ g.nodeIds, st.visited v = true)
    (hrel : ∀ e ∈ g.edges, st.visited e.frm = true →
      ∀ du dv, st.dist e.frm = some du → st.dist e.to = some dv → dv ≤ du + e.distance) :
    ∀ (N : Nat) (p : List String), p.length ≤ N → chainOk g p = true →
      p.head? = some s → (∀ w ∈ p, w ∈ g.nodeIds) →
      ∀ v, p.getLast? = some v → ∀ dv, st.dist v = some dv →
        dv ≤ chainSum g (fun ed => ed.distance) p := by
  intro N
  induction N with
  | zero =>
    intro p hlen _ _ _ v hlast _ _
    rw [List.length_eq_zero.mp (Nat.le_zero.mp hlen)] at hlast
    cases hlast
  | succ N ih =>
    intro p hlen hok hh hsub v hlast dv hdv
    obtain ⟨q, hq⟩ := exists_concat_of_getLast p v hlast
    subst hq
    rcases q with _ | ⟨a, q'⟩
    · have hvs : v = s := by
        simpa using hh
      subst hvs
      rw [hdv] at hds
      rw [(Option.some.inj hds)]
      simp [chainSum]
    · have hqne : (a :: q') ≠ [] := List.cons_ne_nil a q'
      obtain ⟨b, hb⟩ := Option.isSome_iff_exists.mp (List.getLast?_isSome.mpr hqne)
      have hokq : chainOk g (a :: q') = true := chainOk_prefix_concat g (a :: q') v hok
      have hedge : (findEdge g b v).isSome = true :=
        chainOk_concat_last_edge g (a :: q') b v hok hb
      obtain ⟨ed, hed⟩ := Option.isSome_iff_exists.mp hedge
      obtain ⟨hedm, hedf, hedt⟩ := findEdge_mem g b v ed hed
      have hbq : b ∈ a :: q' := by
        obtain ⟨r, hr⟩ := exists_concat_of_getLast (a :: q') b hb
        rw [hr]
        simp
      have hbm : b ∈ g.nodeIds := hsub b (List.mem_append.mpr (Or.inl hbq))
      obtain ⟨db, hdb⟩ := hdef b hbm
      have hhq : (a :: q').head? = some s := by
        have : ((a :: q') ++ [v]).head? = some a := by simp
        rw [this] at hh
        simpa using hh
      have hlenq : (a :: q').length ≤ N := by
        have : ((a :: q') ++ [v]).length = (a :: q').length + 1 := by simp
        omega
      have hih := ih (a :: q') hlenq hokq hhq
        (fun w hw => hsub w (List.mem_append.mpr (Or.inl hw))) b hb db hdb
      have hrelbv : dv ≤ db + ed.distance := by
        have := hrel ed hedm (by rw [hedf]; exact hall b hbm) db dv
          (by rw [hedf]; exact hdb) (by rw [hedt]; exact hdv)
        exact this
      have hsum : chainSum g (fun e => e.distance) ((a :: q') ++ [v]) =
          chainSum g (fun e => e.distance) (a :: q') + ed.distance := by
        rw [chainSum_concat g _ (a :: q') b v hb, hed]
        simp
      rw [hsum]
      linarith

/-- At the final dijkstra state, every node's distance record equals the
true shortest-path distance, with the `MAX_SAFE_INTEGER` sentinel exactly
on the unreachable nodes. -/
theorem dijkstra_state_delta (g : RouteGraph) (s : String)
    (hnd : g.nodeIds.Nodup) (hs : s ∈ g.nodeIds) (h0 : "" ∉ g.nodeIds)
    (hto : ∀ e ∈ g.edges, e.to ∈ g.nodeIds)
    (hpos : ∀ e ∈ g.edges, 0 < e.distance)
    (hdp : List.Pairwise (fun e1 e2 : RouteEdge => ¬(e1.frm = e2.frm ∧ e1.to = e2.to)) g.edges)
    (hsmall : edgeSum g < MAXQ) :
    ∀ v ∈ g.nodeIds,
      ((List.range g.nodeIds.length).foldl (fun st _ => P2P.dijkstraStep g g.nodeIds st)
        ⟨P2P.initDist g s, P2P.initDist g s, fun _ => none, fun _ => false⟩).dist v =
      (match deltaDist g s v with
       | some d => some d
       | none => some MAXQ) := by
  have hnn : ∀ e ∈ g.edges, 0 ≤ e.distance := fun e he => le_of_lt (hpos e he)
  obtain ⟨hinv, hall⟩ := dijkstra_final_state g s hnd hs h0 hto hpos hdp
  obtain ⟨hds, hts, h3, h4, h5, h6, h7⟩ := hinv
  have hdef : ∀ v ∈ g.nodeIds,
      ∃ dv, ((List.range g.nodeIds.length).foldl (fun st _ => P2P.dijkstraStep g g.nodeIds st)
        ⟨P2P.initDist g s, P2P.initDist g s, fun _ => none, fun _ => false⟩).dist v = some dv := by
    intro v hv
    obtain ⟨dv, _, hdv, _⟩ := h3 v hv
    exact ⟨dv, hdv⟩
  intro v hv
  obtain ⟨dv, tv, hdv, htv, hdv0, hdvM, hchain⟩ := h3 v hv
  rcases hdelta : deltaDist g s v with _ | d
  · rw [hdv]
    by_cases hcase : dv ≠ MAXQ ∨ v = s
    · exfalso
      obtain ⟨p, _, hp2, hp3, hp4, hp5, hp6, _, _⟩ := hchain hcase
      obtain ⟨d, hd, _⟩ := walk_deltaDist_le g hnd hnn p s v hp2 hp3 hp4 hp5
      rw [hdelta] at hd
      cases hd
    · push_neg at hcase
      rw [hcase.1]
  · rw [hdv]
    obtain ⟨p, hpm, hpc⟩ := deltaDist_mem g s v d hdelta
    obtain ⟨hp1, hp2, hp3, hp4, hp5⟩ := simpleChains_spec g s v p hnd hpm
    have hcomp := fully_relaxed_le_chain g s _ hds hdef hall h5 p.length p (le_refl _)
      hp5 hp3 hp2 v hp4 dv hdv
    rw [hpc] at hcomp
    have hdM : d < MAXQ := deltaDist_lt_MAXQ g hnn hnd hsmall s v d hdelta
    have hdvne : dv ≠ MAXQ ∨ v = s := by
      left
      intro hc
      rw [hc] at hcomp
      exact absurd hcomp (not_le.mpr hdM)
    obtain ⟨q, _, hq2, hq3, hq4, hq5, _, hq7, _⟩ := hchain hdvne
    obtain ⟨d2, hd2, hd2le⟩ := walk_deltaDist_le g hnd hnn q s v hq2 hq3 hq4 hq5
    rw [hdelta] at hd2
    rw [hq7] at hd2le
    have : d = d2 := Option.some.inj hd2
    subst this
    have : dv = d := le_antisymm hcomp hd2le
    rw [this]

/-- With an in-graph start, dijkstra's key list is just the node ids. -/
theorem dijkstra_keys_eq (g : RouteGraph) (s : String) (hs : s ∈ g.nodeIds) :
    (g.nodeIds ++ (if g.nodeIds.contains s then [] else [s])) = g.nodeIds := by
  have hc : g.nodeIds.contains s = true := by simpa using hs
  rw [hc]
  simp

/-- The distance field returned by the dijkstra solver is the true
shortest-path distance (the sentinel when unreachable). -/
theorem dijkstra_distance_delta (g : RouteGraph) (s e : String)
    (hnd : g.nodeIds.Nodup) (hs : s ∈ g.nodeIds) (he : e ∈ g.nodeIds)
    (h0 : "" ∉ g.nodeIds)
    (hto : ∀ ed ∈ g.edges, ed.to ∈ g.nodeIds)
    (hpos : ∀ ed ∈ g.edges, 0 < ed.distance)
    (hdp : List.Pairwise (fun e1 e2 : RouteEdge => ¬(e1.frm = e2.frm ∧ e1.to = e2.to)) g.edges)
    (hsmall : edgeSum g < MAXQ) :
    (P2P.dijkstra g s e).distance =
      (match deltaDist g s e with
       | some d => some d
       | none => some MAXQ) := by
  show ((List.range g.nodeIds.length).foldl
      (fun st _ => P2P.dijkstraStep g (g.nodeIds ++ (if g.nodeIds.contains s then [] else [s])) st)
      ⟨P2P.initDist g s, P2P.initDist g s, fun _ => none, fun _ => false⟩).dist e = _
  rw [dijkstra_keys_eq g s hs]
  exact dijkstra_state_delta g s hnd hs h0 hto hpos hdp hsmall e he

/-- A predicate implied by another, failing on a member where the other
holds, has a strictly smaller count. -/
theorem countP_lt_of_mem (l : List String) (p q : String → Bool)
    (hpq : ∀ a ∈ l, p a = true → q a = true)
    (u : String) (hu : u ∈ l) (hpu : p u = false) (hqu : q u = true) :
    l.countP p < l.countP q := by
  induction l with
  | nil => simp at hu
  | cons a t ih =>
    rw [List.countP_cons, List.countP_cons]
    by_cases hau : a = u
    · subst hau
      rw [hpu, hqu]
      have hle : t.countP p ≤ t.countP q := by
        apply List.countP_mono_left
        intro x hx
        exact hpq x (List.mem_cons_of_mem a hx)
      have h1 : (if (false : Bool) = true then 1 else 0) = 0 := by norm_num
      have h2 : (if (true : Bool) = true then 1 else 0) = 1 := by norm_num
      rw [h1, h2]
      omega
    · have hut : u ∈ t := by
        rcases List.mem_cons.mp hu with h | h
        · exact absurd h.symm hau
        · exact h
      have hlt := ih (fun x hx => hpq x (List.mem_cons_of_mem a hx)) hut
      have hhead : (if p a = true then 1 else 0) ≤ (if q a = true then 1 else 0) := by
        by_cases hpa : p a = true
        · rw [if_pos hpa, if_pos (hpq a (List.mem_cons_self a t) hpa)]
        · rw [if_neg hpa]
          omega
      omega

/-- Following the `prev` records from any node holding a real (non-sentinel)
distance rebuilds an edge-joined path from the start whose distance and time
sums are exactly the recorded values, provided the fuel dominates the number
of strictly closer nodes. -/
theorem dijkstra_reconstruct (g : RouteGraph) (s : String) (st : P2P.DijkState)
    (h0 : "" ∉ g.nodeIds)
    (hds : st.dist s = some 0) (hts : st.time s = some 0)
    (hbound : ∀ v ∈ g.nodeIds, ∀ dv, st.dist v = some dv → dv ≤ MAXQ)
    (hprev : ∀ v u, st.prev v = some u → st.visited u = true ∧ u ∈ g.nodeIds ∧ v ∈ g.nodeIds ∧
      v ≠ s ∧ ∃ ed du tu, findEdge g u v = some ed ∧ st.dist u = some du ∧ st.time u = some tu ∧
        st.dist v = some (du + ed.distance) ∧ st.time v = some (tu + ed.time) ∧
        du + ed.distance ≠ MAXQ)
    (hnoprev : ∀ v ∈ g.nodeIds, v ≠ s → ∀ dv, st.dist v = some dv → dv ≠ MAXQ →
      st.prev v ≠ none)
    (hpos : ∀ e ∈ g.edges, 0 < e.distance) :
    ∀ (n : Nat) (current : String) (dc tc : ℚ) (acc : List String),
      current ∈ g.nodeIds → st.dist current = some dc → st.time current = some tc →
      (dc ≠ MAXQ ∨ current = s) →
      g.nodeIds.countP (fun w =>
        match st.dist w with
        | some dw => decide (dw < dc)
        | none => false) ≤ n →
      ∃ p, P2P.reconstructGo st.prev s (n + 1) current acc = p ++ acc ∧
        p.head? = some s ∧ p.getLast? = some current ∧ chainOk g p = true ∧
        chainSum g (fun ed => ed.distance) p = dc ∧
        chainSum g (fun ed => ed.time) p = tc := by
  intro n
  induction n with
  | zero =>
    intro current dc tc acc hcm hdc htc hcase hcount
    have hcne : current ≠ "" := fun hc => h0 (hc ▸ hcm)
    by_cases hcs : current = s
    · subst hcs
      have hdc0 : dc = 0 := Option.some.inj (hdc.symm.trans hds)
      have htc0 : tc = 0 := Option.some.inj (htc.symm.trans hts)
      refine ⟨[current], ?_, rfl, rfl, rfl, by rw [hdc0]; rfl, by rw [htc0]; rfl⟩
      simp only [P2P.reconstructGo, if_neg hcne, if_pos rfl]
      rfl
    · exfalso
      have hdcM : dc ≠ MAXQ := by
        rcases hcase with h | h
        · exact h
        · exact absurd h hcs
      have hpne := hnoprev current hcm hcs dc hdc hdcM
      rcases hpu : st.prev current with _ | u
      · exact hpne hpu
      obtain ⟨_, hun, _, _, ed, du, tu, hfed, hdu, htu, hdcv, _, _⟩ := hprev current u hpu
      have hdueq : dc = du + ed.distance := Option.some.inj (hdc.symm.trans hdcv)
      have hw : 0 < ed.distance := hpos ed (findEdge_mem g u current ed hfed).1
      have hcu : (fun w => match st.dist w with
          | some dw => decide (dw < dc)
          | none => false) u = true := by
        simp only [hdu, decide_eq_true_eq]
        rw [hdueq]
        linarith
      have : 0 < g.nodeIds.countP (fun w => match st.dist w with
          | some dw => decide (dw < dc)
          | none => false) := by
        rw [List.countP_pos]
        exact ⟨u, hun, hcu⟩
      omega
  | succ n ih =>
    intro current dc tc acc hcm hdc htc hcase hcount
    have hcne : current ≠ "" := fun hc => h0 (hc ▸ hcm)
    by_cases hcs : current = s
    · subst hcs
      have hdc0 : dc = 0 := Option.some.inj (hdc.symm.trans hds)
      have htc0 : tc = 0 := Option.some.inj (htc.symm.trans hts)
      refine ⟨[current], ?_, rfl, rfl, rfl, by rw [hdc0]; rfl, by rw [htc0]; rfl⟩
      simp only [P2P.reconstructGo, if_neg hcne, if_pos rfl]
      rfl
    · have hdcM : dc ≠ MAXQ := by
        rcases hcase with h | h
        · exact h
        · exact absurd h hcs
      have hpne := hnoprev current hcm hcs dc hdc hdcM
      rcases hpu : st.prev current with _ | u
      · exact absurd hpu hpne
      obtain ⟨_, hun, _, _, ed, du, tu, hfed, hdu, htu, hdcv, htcv, _⟩ := hprev current u hpu
      have hdueq : dc = du + ed.distance := Option.some.inj (hdc.symm.trans hdcv)
      have htueq : tc = tu + ed.time := Option.some.inj (htc.symm.trans htcv)
      have hw : 0 < ed.distance := hpos ed (findEdge_mem g u current ed hfed).1
      have hdulte : du < dc := by
        rw [hdueq]
        linarith
      have hduM : du ≠ MAXQ ∨ u = s := by
        left
        intro hc
        have := hbound current hcm dc hdc
        rw [hc] at hdulte
        linarith
      have hmeas : g.nodeIds.countP (fun w => match st.dist w with
          | some dw => decide (dw < du)
          | none => false) ≤ n := by
        have hlt := countP_lt_of_mem g.nodeIds
          (fun w => match st.dist w with
            | some dw => decide (dw < du)
            | none => false)
          (fun w => match st.dist w with
            | some dw => decide (dw < dc)
            | none => false)
          (by
            intro a _ hpa
            rcases hda : st.dist a with _ | da
            · simp only [hda] at hpa
              cases hpa
            · simp only [hda, decide_eq_true_eq] at hpa ⊢
              linarith)
          u hun
          (by
            simp only [hdu, decide_eq_false_iff_not, not_lt]
            exact le_refl du)
          (by
            simp only [hdu, decide_eq_true_eq]
            exact hdulte)
        omega
      obtain ⟨p', hrec, hph, hpl, hpok, hpd, hpt⟩ :=
        ih u du tu (current :: acc) hun hdu htu hduM hmeas
      have hpne2 : p' ≠ [] := by
        intro hc
        rw [hc] at hph
        cases hph
      refine ⟨p' ++ [current], ?_, ?_, List.getLast?_concat _, ?_, ?_, ?_⟩
      · have hgo : P2P.reconstructGo st.prev s (n + 1 + 1) current acc =
            P2P.reconstructGo st.prev s (n + 1) u (current :: acc) := by
          simp only [P2P.reconstructGo, if_neg hcne, if_neg hcs, hpu]
        rw [hgo, hrec, List.append_assoc]
        rfl
      · rcases p' with _ | ⟨a, t⟩
        · exact absurd rfl hpne2
        · simpa using hph
      · exact chainOk_concat g p' u current hpl hpok (by rw [hfed]; rfl)
      · rw [chainSum_concat g _ p' u current hpl, hpd, hfed, hdueq]
        simp
      · rw [chainSum_concat g _ p' u current hpl, hpt, hfed, htueq]
        simp

/-- The distance and time returned by the dijkstra solver alongside a
non-empty path are exactly the edge sums over that path. -/
theorem dijkstra_path_sums (g : RouteGraph) (s e : String)
    (hnd : g.nodeIds.Nodup) (hs : s ∈ g.nodeIds) (he : e ∈ g.nodeIds)
    (h0 : "" ∉ g.nodeIds)
    (hto : ∀ ed ∈ g.edges, ed.to ∈ g.nodeIds)
    (hpos : ∀ ed ∈ g.edges, 0 < ed.distance)
    (hdp : List.Pairwise (fun e1 e2 : RouteEdge => ¬(e1.frm = e2.frm ∧ e1.to = e2.to)) g.edges) :
    (P2P.dijkstra g s e).path ≠ [] →
      (P2P.dijkstra g s e).distance =
        some (chainSum g (fun ed => ed.distance) (P2P.dijkstra g s e).path) ∧
      (P2P.dijkstra g s e).time =
        some (chainSum g (fun ed => ed.time) (P2P.dijkstra g s e).path) := by
  have hkeys := dijkstra_keys_eq g s hs
  have hD : P2P.dijkstra g s e =
      ⟨P2P.reconstructPath
          ((List.range g.nodeIds.length).foldl (fun st _ => P2P.dijkstraStep g g.nodeIds st)
            ⟨P2P.initDist g s, P2P.initDist g s, fun _ => none, fun _ => false⟩).prev
          s e (g.nodeIds.length + 1),
        ((List.range g.nodeIds.length).foldl (fun st _ => P2P.dijkstraStep g g.nodeIds st)
          ⟨P2P.initDist g s, P2P.initDist g s, fun _ => none, fun _ => false⟩).dist e,
        ((List.range g.nodeIds.length).foldl (fun st _ => P2P.dijkstraStep g g.nodeIds st)
          ⟨P2P.initDist g s, P2P.initDist g s, fun _ => none, fun _ => false⟩).time e⟩ := by
    simp only [P2P.dijkstra, hkeys]
  obtain ⟨hinv, hall⟩ := dijkstra_final_state g s hnd hs h0 hto hpos hdp
  obtain ⟨hds, hts, h3, h4, h5, h6, h7⟩ := hinv
  rw [hD]
  intro hne
  simp only [P2P.reconstructPath] at hne ⊢
  by_cases hentry : ((match ((List.range g.nodeIds.length).foldl
        (fun st _ => P2P.dijkstraStep g g.nodeIds st)
        ⟨P2P.initDist g s, P2P.initDist g s, fun _ => none, fun _ => false⟩).prev e with
      | some p => p != ""
      | none => false) || e == s) = true
  · rw [if_pos hentry]
    obtain ⟨de, te, hde, hte, _, hdeM, _⟩ := h3 e he
    have hcase : de ≠ MAXQ ∨ e = s := by
      rcases Bool.or_eq_true _ _ |>.mp hentry with hp | hes
      · rcases hpe : ((List.range g.nodeIds.length).foldl
            (fun st _ => P2P.dijkstraStep g g.nodeIds st)
            ⟨P2P.initDist g s, P2P.initDist g s, fun _ => none, fun _ => false⟩).prev e
            with _ | u
        · rw [hpe] at hp
          cases hp
        · obtain ⟨_, _, _, _, ed, du, tu, _, _, _, hdev, _, hneM⟩ := h6 e u hpe
          left
          intro hc
          rw [hde] at hdev
          rw [← Option.some.inj hdev] at hneM
          exact hneM hc
      · right
        simpa using hes
    have hbound : ∀ v ∈ g.nodeIds, ∀ dv,
        ((List.range g.nodeIds.length).foldl (fun st _ => P2P.dijkstraStep g g.nodeIds st)
          ⟨P2P.initDist g s, P2P.initDist g s, fun _ => none, fun _ => false⟩).dist v = some dv →
        dv ≤ MAXQ := by
      intro v hv dv hdv
      obtain ⟨dv2, _, hdv2, _, _, hdv2M, _⟩ := h3 v hv
      rw [hdv2] at hdv
      rw [← Option.some.inj hdv]
      exact hdv2M
    obtain ⟨p, hrec, hph, hpl, hpok, hpd, hpt⟩ :=
      dijkstra_reconstruct g s _ h0 hds hts hbound h6 h7 hpos g.nodeIds.length e de te []
        he hde hte hcase (List.countP_le_length _)
    rw [List.append_nil] at hrec
    rw [hrec, hde, hte, hpd, hpt]
    exact ⟨rfl, rfl⟩
  · rw [if_neg hentry] at hne
    exact absurd rfl hne

/-- Characterization of the strict JS comparison on optional values. -/
theorem jsLt_true (a b : Option ℚ) :
    jsLt a b = true ↔ ∃ x y, a = some x ∧ b = some y ∧ x < y := by
  constructor
  · intro h
    rcases a with _ | x
    · cases h
    · rcases b with _ | y
      · cases h
      · exact ⟨x, y, rfl, rfl, by simpa [jsLt] using h⟩
  · rintro ⟨x, y, rfl, rfl, hxy⟩
    simpa [jsLt] using hxy

/-- One pass of bellmanFord relaxations over any sublist of the edge list
preserves the invariant, never increases a distance, and leaves every
processed edge relaxed with respect to the pass-entry source values. -/
theorem bfFold (g : RouteGraph) (s : String)
    (hs : s ∈ g.nodeIds)
    (hto : ∀ e ∈ g.edges, e.to ∈ g.nodeIds)
    (hpos : ∀ e ∈ g.edges, 0 < e.distance)
    (hdp : List.Pairwise (fun e1 e2 : RouteEdge => ¬(e1.frm = e2.frm ∧ e1.to = e2.to)) g.edges) :
    ∀ (l : List RouteEdge), (∀ e ∈ l, e ∈ g.edges) →
      ∀ st, BFInv g s st →
      let F := fun (st : P2P.BFState) (e : RouteEdge) =>
        let u := e.frm
        let v := e.to
        if (st.dist u ≠ some MAXQ) ∧ jsLt (jsAdd (st.dist u) e.distance) (st.dist v) then
          { dist := fun x => if x = v then jsAdd (st.dist u) e.distance else st.dist x,
            time := fun x => if x = v then jsAdd (st.time u) e.time else st.time x,
            prev := fun x => if x = v then some u else st.prev x }
        else st
      BFInv g s (l.foldl F st) ∧
      (∀ v dv, st.dist v = some dv → ∃ dv', (l.foldl F st).dist v = some dv' ∧ dv' ≤ dv) ∧
      (∀ e ∈ l, ∀ du, st.dist e.frm = some du → du ≠ MAXQ →
        ∀ dv', (l.foldl F st).dist e.to = some dv' → dv' ≤ du + e.distance) := by
  intro l
  induction l with
  | nil =>
    intro _ st hinv
    exact ⟨hinv, fun v dv h => ⟨dv, h, le_refl _⟩, by intro e he; simp at he⟩
  | cons e₀ rest ih =>
    intro hl st hinv
    have he₀g : e₀ ∈ g.edges := hl e₀ (List.mem_cons_self _ _)
    have hrest : ∀ e ∈ rest, e ∈ g.edges := fun e he => hl e (List.mem_cons_of_mem _ he)
    obtain ⟨hds, hts, hD, hA, hB, hC⟩ := hinv
    intro F
    rw [List.foldl_cons]
    have hFdef : F st e₀ =
        if (st.dist e₀.frm ≠ some MAXQ) ∧
            jsLt (jsAdd (st.dist e₀.frm) e₀.distance) (st.dist e₀.to) then
          { dist := fun x => if x = e₀.to then jsAdd (st.dist e₀.frm) e₀.distance
              else st.dist x,
            time := fun x => if x = e₀.to then jsAdd (st.time e₀.frm) e₀.time else st.time x,
            prev := fun x => if x = e₀.to then some e₀.frm else st.prev x }
        else st := rfl
    by_cases hguard : (st.dist e₀.frm ≠ some MAXQ) ∧
        jsLt (jsAdd (st.dist e₀.frm) e₀.distance) (st.dist e₀.to) = true
    · -- the relaxation fires
      obtain ⟨hneM, hlt'⟩ := hguard
      obtain ⟨x, dvo, hx, hdvo, hxlt⟩ := (jsLt_true _ _).mp hlt'
      rcases hdu : st.dist e₀.frm with _ | du
      · rw [hdu] at hx
        cases hx
      have hxval : x = du + e₀.distance := by
        rw [hdu] at hx
        simp only [jsAdd, Option.map_some'] at hx
        rw [← Option.some.inj hx, qadd_eq]
      subst hxval
      have hlt : du + e₀.distance < dvo := hxlt
      have hduM : du ≠ MAXQ := by
        intro hc
        rw [hdu, hc] at hneM
        exact hneM rfl
      have hum : e₀.frm ∈ g.nodeIds := by
        by_contra hc
        rw [hD e₀.frm hc] at hdu
        cases hdu
      have hvm : e₀.to ∈ g.nodeIds := hto e₀ he₀g
      have hw : 0 < e₀.distance := hpos e₀ he₀g
      obtain ⟨du', tu, hdu', htu, hdu0, _, hchainu⟩ := hA e₀.frm hum
      have hdu'eq : du' = du := Option.some.inj (hdu'.symm.trans hdu)
      rw [hdu'eq] at hdu0 hchainu
      obtain ⟨dvo', tvo, hdvo', _, hdvo0, hdvoM, _⟩ := hA e₀.to hvm
      have hdvo'eq : dvo' = dvo := Option.some.inj (hdvo'.symm.trans hdvo)
      rw [hdvo'eq] at hdvo0 hdvoM
      have hvns : e₀.to ≠ s := by
        intro hc
        rw [hc, hds] at hdvo
        rw [← Option.some.inj hdvo] at hlt
        linarith
      have hvnu : e₀.frm ≠ e₀.to := by
        intro hc
        rw [hc, hdvo] at hdu
        rw [Option.some.inj hdu] at hlt
        linarith
      have hfind : findEdge g e₀.frm e₀.to = some e₀ := findEdge_self g hdp e₀ he₀g
      have hA' : jsAdd (st.dist e₀.frm) e₀.distance = some (du + e₀.distance) := by
        simp [hdu, jsAdd, qadd_eq]
      have hB' : jsAdd (st.time e₀.frm) e₀.time = some (tu + e₀.time) := by
        simp [htu, jsAdd, qadd_eq]
      have hst' : F st e₀ =
          { dist := fun x => if x = e₀.to then jsAdd (st.dist e₀.frm) e₀.distance
              else st.dist x,
            time := fun x => if x = e₀.to then jsAdd (st.time e₀.frm) e₀.time else st.time x,
            prev := fun x => if x = e₀.to then some e₀.frm else st.prev x } := by
        rw [hFdef, if_pos ⟨hneM, hlt'⟩]
      have hinv1 : BFInv g s (F st e₀) := by
        rw [hst']
        refine ⟨?_, ?_, ?_, ?_, ?_, ?_⟩
        · dsimp only
          rw [if_neg (fun hc : s = e₀.to => hvns hc.symm)]
          exact hds
        · dsimp only
          rw [if_neg (fun hc : s = e₀.to => hvns hc.symm)]
          exact hts
        · intro w hw2
          dsimp only
          rw [if_neg (fun hc : w = e₀.to => hw2 (hc ▸ hvm))]
          exact hD w hw2
        · intro z hz
          dsimp only
          by_cases hze : z = e₀.to
          · subst hze
            refine ⟨du + e₀.distance, tu + e₀.time, by rw [if_pos rfl]; exact hA',
              by rw [if_pos rfl]; exact hB', by linarith, by linarith, ?_⟩
            intro _
            obtain ⟨p, hpok, hph, hpl, hpmem, hpcd, hpct⟩ := hchainu (Or.inl hduM)
            refine ⟨p ++ [e₀.to], ?_, ?_, List.getLast?_concat _, ?_, ?_, ?_⟩
            · exact chainOk_concat g p e₀.frm e₀.to hpl hpok (by rw [hfind]; rfl)
            · rcases p with _ | ⟨a, t⟩
              · simp at hph
              · simpa using hph
            · intro w hw2
              rcases List.mem_append.mp hw2 with hw2 | hw2
              · exact hpmem w hw2
              · rw [List.mem_singleton] at hw2
                rw [hw2]
                exact hvm
            · rw [chainSum_concat g _ p e₀.frm e₀.to hpl, hpcd, hfind]
              simp
            · rw [chainSum_concat g _ p e₀.frm e₀.to hpl, hpct, hfind]
              simp
          · obtain ⟨dz, tz, hdz, htz, hdz0, hdzM, hchainz⟩ := hA z hz
            exact ⟨dz, tz, by rw [if_neg hze]; exact hdz, by rw [if_neg hze]; exact htz,
              hdz0, hdzM, hchainz⟩
        · intro z u2 hpz
          dsimp only at hpz ⊢
          by_cases hze : z = e₀.to
          · rw [if_pos hze] at hpz
            have hu2 : e₀.frm = u2 := Option.some.inj hpz
            subst hu2
            subst hze
            refine ⟨hum, hvm, hvns, e₀, du, tu, du, tu, hfind, ?_, ?_, ?_, ?_, ?_,
              le_refl du, fun _ => rfl⟩
            · rw [if_pos rfl]
              exact hA'
            · rw [if_pos rfl]
              exact hB'
            · exact ne_of_lt (lt_of_lt_of_le hlt hdvoM)
            · rw [if_neg hvnu]
              exact hdu
            · rw [if_neg hvnu]
              exact htu
          · rw [if_neg hze] at hpz
            obtain ⟨hu2m, hzm, hzs, ed, dr, tr, du2, tu2, hfed2, hdz2, htz2, hne2,
              hdu2, htu2, hle2, hcond2⟩ := hB z u2 hpz
            by_cases hu2e : u2 = e₀.to
            · refine ⟨hu2m, hzm, hzs, ed, dr, tr, du + e₀.distance, tu + e₀.time,
                hfed2, ?_, ?_, hne2, ?_, ?_, ?_, ?_⟩
              · rw [if_neg hze]
                exact hdz2
              · rw [if_neg hze]
                exact htz2
              · rw [if_pos hu2e]
                exact hA'
              · rw [if_pos hu2e]
                exact hB'
              · have : du2 = dvo := by
                  rw [hu2e] at hdu2
                  rw [hdvo] at hdu2
                  exact (Option.some.inj hdu2).symm
                rw [this] at hle2
                linarith
              · intro hc
                exfalso
                have : du2 = dvo := by
                  rw [hu2e] at hdu2
                  rw [hdvo] at hdu2
                  exact (Option.some.inj hdu2).symm
                rw [this] at hle2
                rw [hc] at hlt
                linarith
            · refine ⟨hu2m, hzm, hzs, ed, dr, tr, du2, tu2, hfed2, ?_, ?_, hne2,
                ?_, ?_, hle2, hcond2⟩
              · rw [if_neg hze]
                exact hdz2
              · rw [if_neg hze]
                exact htz2
              · rw [if_neg hu2e]
                exact hdu2
              · rw [if_neg hu2e]
                exact htu2
        · intro z hz hzs dz hdz hdzM
          dsimp only at hdz ⊢
          by_cases hze : z = e₀.to
          · rw [if_pos hze]
            simp
          · rw [if_neg hze] at hdz
            rw [if_neg hze]
            exact hC z hz hzs dz hdz hdzM
      have hmono1 : ∀ v dv, st.dist v = some dv →
          ∃ dv1, (F st e₀).dist v = some dv1 ∧ dv1 ≤ dv := by
        intro v dv hdv
        rw [hst']
        dsimp only
        by_cases hve : v = e₀.to
        · rw [if_pos hve, hA']
          have : dv = dvo := by
            rw [hve, hdvo] at hdv
            exact (Option.some.inj hdv).symm
          exact ⟨du + e₀.distance, rfl, by rw [this]; linarith⟩
        · rw [if_neg hve]
          exact ⟨dv, hdv, le_refl _⟩
      obtain ⟨ihinv, ihmono, ihrelax⟩ := ih hrest (F st e₀) hinv1
      refine ⟨ihinv, ?_, ?_⟩
      · intro v dv hdv
        obtain ⟨dv1, hdv1, hle1⟩ := hmono1 v dv hdv
        obtain ⟨dv2, hdv2, hle2⟩ := ihmono v dv1 hdv1
        exact ⟨dv2, hdv2, le_trans hle2 hle1⟩
      · intro e he du2 hdu2 hdu2M dv' hdv'
        rcases List.mem_cons.mp he with rfl | he
        · have hdu2eq : du2 = du := by
            rw [hdu] at hdu2
            exact (Option.some.inj hdu2).symm
          have hst1v : (F st e).dist e.to = some (du + e.distance) := by
            rw [hst']
            dsimp only
            rw [if_pos rfl]
            exact hA'
          obtain ⟨dv2, hdv2, hle2⟩ := ihmono e.to (du + e.distance) hst1v
          rw [hdv2] at hdv'
          rw [← Option.some.inj hdv', hdu2eq]
          exact hle2
        · obtain ⟨du1, hdu1, hle1⟩ := hmono1 e.frm du2 hdu2
          have hfm : e.frm ∈ g.nodeIds := by
            by_contra hc
            rw [hD e.frm hc] at hdu2
            cases hdu2
          obtain ⟨du3, _, hdu3, _, _, hdu3M, _⟩ := hA e.frm hfm
          have : du3 = du2 := Option.some.inj (hdu3.symm.trans hdu2)
          rw [this] at hdu3M
          have hdu1M : du1 ≠ MAXQ := by
            intro hc
            rw [hc] at hle1
            have : du2 < MAXQ := lt_of_le_of_ne hdu3M hdu2M
            linarith
          have := ihrelax e he du1 hdu1 hdu1M dv' hdv'
          have hwe : 0 ≤ e.distance := le_of_lt (hpos e (hrest e he))
          linarith
    · -- no relaxation
      have hst' : F st e₀ = st := by
        rw [hFdef, if_neg hguard]
      rw [hst']
      obtain ⟨ihinv, ihmono, ihrelax⟩ := ih hrest st ⟨hds, hts, hD, hA, hB, hC⟩
      refine ⟨ihinv, ihmono, ?_⟩
      intro e he du hdu hduM dv' hdv'
      rcases List.mem_cons.mp he with rfl | he
      · have hvm : e.to ∈ g.nodeIds := hto e he₀g
        obtain ⟨dvo, _, hdvo, _, _, hdvoM, _⟩ := hA e.to hvm
        have hnlt : ¬ (du + e.distance < dvo) := by
          intro hc
          apply hguard
          refine ⟨?_, ?_⟩
          · rw [hdu]
            intro hc2
            exact hduM (Option.some.inj hc2)
          · rw [jsLt_true]
            refine ⟨du + e.distance, dvo, ?_, hdvo, hc⟩
            simp [hdu, jsAdd, qadd_eq]
        obtain ⟨dv2, hdv2, hle2⟩ := ihmono e.to dvo hdvo
        rw [hdv2] at hdv'
        rw [← Option.some.inj hdv']
        linarith
      · exact ihrelax e he du hdu hduM dv' hdv'

/-- The bellmanFord invariant holds at its freshly initialized state. -/
theorem bf_init_inv (g : RouteGraph) (s : String) (hs : s ∈ g.nodeIds) :
    BFInv g s ⟨P2P.initDist g s, P2P.initDist g s, fun _ => none⟩ := by
  have hinit_s : P2P.initDist g s s = some 0 := by
    simp [P2P.initDist]
  have hinit_ne : ∀ v ∈ g.nodeIds, v ≠ s → P2P.initDist g s v = some MAXQ := by
    intro v hv hvs
    have hcv : g.nodeIds.contains v = true := by
      simpa using hv
    simp only [P2P.initDist, if_neg hvs, hcv, if_pos rfl]
    rfl
  have hM0 : (0 : ℚ) ≤ MAXQ := by norm_num [MAXQ]
  refine ⟨hinit_s, hinit_s, ?_, ?_, ?_, ?_⟩
  · intro w hw
    have hws : w ≠ s := fun hc => hw (hc ▸ hs)
    have hcw : g.nodeIds.contains w = false := by
      rw [← Bool.not_eq_true]
      simpa using hw
    show P2P.initDist g s w = none
    simp only [P2P.initDist, if_neg hws, hcw]
    rfl
  · intro v hv
    by_cases hvs : v = s
    · subst hvs
      refine ⟨0, 0, hinit_s, hinit_s, le_refl 0, hM0, ?_⟩
      intro _
      refine ⟨[v], rfl, rfl, rfl, ?_, rfl, rfl⟩
      intro w hw
      rw [List.mem_singleton] at hw
      rw [hw]
      exact hv
    · refine ⟨MAXQ, MAXQ, hinit_ne v hv hvs, hinit_ne v hv hvs, hM0, le_refl MAXQ, ?_⟩
      rintro (h | h)
      · exact absurd rfl h
      · exact absurd h hvs
  · intro v u hp
    cases hp
  · intro v hv hvs dv hdv hdM
    have hdv2 : P2P.initDist g s v = some dv := hdv
    rw [hinit_ne v hv hvs] at hdv2
    exact absurd (Option.some.inj hdv2).symm hdM

/-- After `r` bellmanFord passes the invariant holds and every simple
chain of at most `r` edges bounds the recorded distance of its endpoint. -/
theorem bfRounds (g : RouteGraph) (s : String)
    (hnd : g.nodeIds.Nodup) (hs : s ∈ g.nodeIds)
    (hto : ∀ e ∈ g.edges, e.to ∈ g.nodeIds)
    (hpos : ∀ e ∈ g.edges, 0 < e.distance)
    (hdp : List.Pairwise (fun e1 e2 : RouteEdge => ¬(e1.frm = e2.frm ∧ e1.to = e2.to)) g.edges)
    (hsmall : edgeSum g < MAXQ) :
    ∀ r : Nat,
      BFInv g s ((List.range r).foldl (fun st _ => P2P.bellmanFordRound g st)
        ⟨P2P.initDist g s, P2P.initDist g s, fun _ => none⟩) ∧
      (∀ p : List String, p.Nodup → p.length ≤ r + 1 → chainOk g p = true →
        p.head? = some s → (∀ w ∈ p, w ∈ g.nodeIds) →
        ∀ v, p.getLast? = some v →
        ∀ dv, ((List.range r).foldl (fun st _ => P2P.bellmanFordRound g st)
          ⟨P2P.initDist g s, P2P.initDist g s, fun _ => none⟩).dist v = some dv →
          dv ≤ chainSum g (fun ed => ed.distance) p) := by
  have hnn : ∀ e ∈ g.edges, 0 ≤ e.distance := fun e he => le_of_lt (hpos e he)
  intro r
  induction r with
  | zero =>
    refine ⟨bf_init_inv g s hs, ?_⟩
    intro p hpnd hplen hpok hph hpmem v hpl dv hdv
    rcases p with _ | ⟨a, t⟩
    · cases hpl
    · rcases t with _ | ⟨b, t2⟩
      · have hva : a = v := by simpa using hpl
        have has : a = s := by simpa using hph
        rw [← hva, has] at hdv
        have : P2P.initDist g s s = some dv := hdv
        rw [show P2P.initDist g s s = some 0 from by simp [P2P.initDist]] at this
        rw [← Option.some.inj this]
        simp [chainSum]
      · simp at hplen
  | succ r ihr =>
    obtain ⟨hinvR, hcompR⟩ := ihr
    have hfold : (List.range (r + 1)).foldl (fun st _ => P2P.bellmanFordRound g st)
        ⟨P2P.initDist g s, P2P.initDist g s, fun _ => none⟩ =
        P2P.bellmanFordRound g ((List.range r).foldl (fun st _ => P2P.bellmanFordRound g st)
          ⟨P2P.initDist g s, P2P.initDist g s, fun _ => none⟩) := by
      rw [List.range_succ, List.foldl_append]
      rfl
    obtain ⟨hinv1, hmono1, hrelax1⟩ := bfFold g s hs hto hpos hdp g.edges (fun _ he => he)
      ((List.range r).foldl (fun st _ => P2P.bellmanFordRound g st)
        ⟨P2P.initDist g s, P2P.initDist g s, fun _ => none⟩) hinvR
    rw [hfold]
    have hround : P2P.bellmanFordRound g ((List.range r).foldl
        (fun st _ => P2P.bellmanFordRound g st)
        ⟨P2P.initDist g s, P2P.initDist g s, fun _ => none⟩) =
        g.edges.foldl
          (fun (st : P2P.BFState) e =>
            let u := e.frm
            let v := e.to
            if (st.dist u ≠ some MAXQ) ∧ jsLt (jsAdd (st.dist u) e.distance) (st.dist v) then
              { dist := fun x => if x = v then jsAdd (st.dist u) e.distance else st.dist x,
                time := fun x => if x = v then jsAdd (st.time u) e.time else st.time x,
                prev := fun x => if x = v then some u else st.prev x }
            else st)
          ((List.range r).foldl (fun st _ => P2P.bellmanFordRound g st)
            ⟨P2P.initDist g s, P2P.initDist g s, fun _ => none⟩) := rfl
    rw [hround]
    refine ⟨hinv1, ?_⟩
    intro p hpnd hplen hpok hph hpmem v hpl dv hdv
    obtain ⟨q, hq⟩ := exists_concat_of_getLast p v hpl
    subst hq
    rcases q with _ | ⟨a, t⟩
    · have hvs : v = s := by simpa using hph
      obtain ⟨hds1, _, _, _, _, _⟩ := hinv1
      rw [hvs] at hdv
      rw [hds1] at hdv
      rw [← Option.some.inj hdv]
      simp [chainSum]
    · have hqne : (a :: t) ≠ [] := List.cons_ne_nil a t
      obtain ⟨b, hb⟩ := Option.isSome_iff_exists.mp (List.getLast?_isSome.mpr hqne)
      have hokq : chainOk g (a :: t) = true := chainOk_prefix_concat g (a :: t) v hpok
      have hedge : (findEdge g b v).isSome = true :=
        chainOk_concat_last_edge g (a :: t) b v hpok hb
      obtain ⟨ed, hed⟩ := Option.isSome_iff_exists.mp hedge
      obtain ⟨hedm, hedf, hedt⟩ := findEdge_mem g b v ed hed
      have hqnd : (a :: t).Nodup :=
        List.Nodup.sublist (List.sublist_append_left (a :: t) [v]) hpnd
      have hqlen : (a :: t).length ≤ r + 1 := by
        have : ((a :: t) ++ [v]).length = (a :: t).length + 1 := by simp
        omega
      have hqh : (a :: t).head? = some s := by
        have : ((a :: t) ++ [v]).head? = some a := by simp
        rw [this] at hph
        simpa using hph
      have hqmem : ∀ w ∈ a :: t, w ∈ g.nodeIds :=
        fun w hw => hpmem w (List.mem_append.mpr (Or.inl hw))
      have hbm : b ∈ g.nodeIds := by
        obtain ⟨rr, hrr⟩ := exists_concat_of_getLast (a :: t) b hb
        refine hqmem b ?_
        rw [hrr]
        simp
      obtain ⟨hdsR, _, _, hAR, _, _⟩ := hinvR
      obtain ⟨db, _, hdb, _, _, _, _⟩ := hAR b hbm
      have hib := hcompR (a :: t) hqnd hqlen hokq hqh hqmem b hb db hdb
      have hdbM : db ≠ MAXQ := by
        intro hc
        have hbound := chainSum_le_edgeSum g hnn (a :: t) hqnd hokq
        rw [hc] at hib
        linarith
      have hrel := hrelax1 ed hedm db (by rw [hedf]; exact hdb) hdbM dv
        (by rw [hedt]; exact hdv)
      have hsum : chainSum g (fun e => e.distance) ((a :: t) ++ [v]) =
          chainSum g (fun e => e.distance) (a :: t) + ed.distance := by
        rw [chainSum_concat g _ (a :: t) b v hb, hed]
        simp
      rw [hsum]
      linarith

/-- At the final bellmanFord state, every node's distance record equals
the true shortest-path distance, with the sentinel on unreachable nodes. -/
theorem bf_state_delta (g : RouteGraph) (s : String)
    (hnd : g.nodeIds.Nodup) (hs : s ∈ g.nodeIds)
    (hto : ∀ e ∈ g.edges, e.to ∈ g.nodeIds)
    (hpos : ∀ e ∈ g.edges, 0 < e.distance)
    (hdp : List.Pairwise (fun e1 e2 : RouteEdge => ¬(e1.frm = e2.frm ∧ e1.to = e2.to)) g.edges)
    (hsmall : edgeSum g < MAXQ) :
    ∀ v ∈ g.nodeIds,
      ((List.range (g.nodeIds.length - 1)).foldl (fun st _ => P2P.bellmanFordRound g st)
        ⟨P2P.initDist g s, P2P.initDist g s, fun _ => none⟩).dist v =
      (match deltaDist g s v with
       | some d => some d
       | none => some MAXQ) := by
  have hnn : ∀ e ∈ g.edges, 0 ≤ e.distance := fun e he => le_of_lt (hpos e he)
  obtain ⟨hinv, hcomp⟩ := bfRounds g s hnd hs hto hpos hdp hsmall (g.nodeIds.length - 1)
  obtain ⟨hds, hts, hD, hA, hB, hC⟩ := hinv
  have hlen1 : 1 ≤ g.nodeIds.length := List.length_pos_of_mem hs
  intro v hv
  obtain ⟨dv, tv, hdv, htv, hdv0, hdvM, hchain⟩ := hA v hv
  rcases hdelta : deltaDist g s v with _ | d
  · rw [hdv]
    by_cases hcase : dv ≠ MAXQ ∨ v = s
    · exfalso
      obtain ⟨p, hp1, hp2, hp3, hp4, _, _⟩ := hchain hcase
      obtain ⟨d, hd, _⟩ := walk_deltaDist_le g hnd hnn p s v hp1 hp2 hp3 hp4
      rw [hdelta] at hd
      cases hd
    · push_neg at hcase
      rw [hcase.1]
  · rw [hdv]
    obtain ⟨p, hpm, hpc⟩ := deltaDist_mem g s v d hdelta
    obtain ⟨hp1, hp2, hp3, hp4, hp5⟩ := simpleChains_spec g s v p hnd hpm
    have hplen : p.length ≤ (g.nodeIds.length - 1) + 1 := by
      have hsub := List.Subperm.length_le (List.Nodup.subperm hp1 hp2)
      omega
    have hcompv := hcomp p hp1 hplen hp5 hp3 hp2 v hp4 dv hdv
    rw [hpc] at hcompv
    have hdM : d < MAXQ := deltaDist_lt_MAXQ g hnn hnd hsmall s v d hdelta
    have hdvne : dv ≠ MAXQ ∨ v = s := by
      left
      intro hc
      rw [hc] at hcompv
      exact absurd hcompv (not_le.mpr hdM)
    obtain ⟨q, hq1, hq2, hq3, hq4, hq5, _⟩ := hchain hdvne
    obtain ⟨d2, hd2, hd2le⟩ := walk_deltaDist_le g hnd hnn q s v hq1 hq2 hq3 hq4
    rw [hdelta] at hd2
    rw [hq5] at hd2le
    have : d = d2 := Option.some.inj hd2
    subst this
    have : dv = d := le_antisymm hcompv hd2le
    rw [this]

/-- The distance field returned by the bellmanFord solver is the true
shortest-path distance (the sentinel when unreachable). -/
theorem bf_distance_delta (g : RouteGraph) (s e : String)
    (hnd : g.nodeIds.Nodup) (hs : s ∈ g.nodeIds) (he : e ∈ g.nodeIds)
    (hto : ∀ ed ∈ g.edges, ed.to ∈ g.nodeIds)
    (hpos : ∀ ed ∈ g.edges, 0 < ed.distance)
    (hdp : List.Pairwise (fun e1 e2 : RouteEdge => ¬(e1.frm = e2.frm ∧ e1.to = e2.to)) g.edges)
    (hsmall : edgeSum g < MAXQ) :
    (P2P.bellmanFord g s e).distance =
      (match deltaDist g s e with
       | some d => some d
       | none => some MAXQ) := by
  show ((List.range (g.nodeIds.length - 1)).foldl (fun st _ => P2P.bellmanFordRound g st)
      ⟨P2P.initDist g s, P2P.initDist g s, fun _ => none⟩).dist e = _
  exact bf_state_delta g s hnd hs hto hpos hdp hsmall e he

/-- At the final bellmanFord state the predecessor records are exact edge
relaxations of the current values (recovered through the shortest-path
characterization of both endpoints). -/
theorem bf_prev_exact (g : RouteGraph) (s : String)
    (hnd : g.nodeIds.Nodup) (hs : s ∈ g.nodeIds)
    (hto : ∀ e ∈ g.edges, e.to ∈ g.nodeIds)
    (hpos : ∀ e ∈ g.edges, 0 < e.distance)
    (hdp : List.Pairwise (fun e1 e2 : RouteEdge => ¬(e1.frm = e2.frm ∧ e1.to = e2.to)) g.edges)
    (hsmall : edgeSum g < MAXQ) :
    ∀ v u, ((List.range (g.nodeIds.length - 1)).foldl (fun st _ => P2P.bellmanFordRound g st)
        ⟨P2P.initDist g s, P2P.initDist g s, fun _ => none⟩).prev v = some u →
      u ∈ g.nodeIds ∧ v ∈ g.nodeIds ∧ v ≠ s ∧
      ∃ ed du tu, findEdge g u v = some ed ∧
        ((List.range (g.nodeIds.length - 1)).foldl (fun st _ => P2P.bellmanFordRound g st)
          ⟨P2P.initDist g s, P2P.initDist g s, fun _ => none⟩).dist u = some du ∧
        ((List.range (g.nodeIds.length - 1)).foldl (fun st _ => P2P.bellmanFordRound g st)
          ⟨P2P.initDist g s, P2P.initDist g s, fun _ => none⟩).time u = some tu ∧
        ((List.range (g.nodeIds.length - 1)).foldl (fun st _ => P2P.bellmanFordRound g st)
          ⟨P2P.initDist g s, P2P.initDist g s, fun _ => none⟩).dist v =
          some (du + ed.distance) ∧
        ((List.range (g.nodeIds.length - 1)).foldl (fun st _ => P2P.bellmanFordRound g st)
          ⟨P2P.initDist g s, P2P.initDist g s, fun _ => none⟩).time v =
          some (tu + ed.time) ∧
        du + ed.distance ≠ MAXQ := by
  have hnn : ∀ e ∈ g.edges, 0 ≤ e.distance := fun e he => le_of_lt (hpos e he)
  obtain ⟨hds, hts, hD, hA, hB, hC⟩ :=
    (bfRounds g s hnd hs hto hpos hdp hsmall (g.nodeIds.length - 1)).1
  have hdelta := bf_state_delta g s hnd hs hto hpos hdp hsmall
  intro v u hpv
  obtain ⟨hum, hvm, hvs, ed, dr, tr, du, tu, hfed, hdvv, htvv, hneM, hdu, htu, hle, hcond⟩ :=
    hB v u hpv
  obtain ⟨dv2, _, hdv2, _, _, hdvM, _⟩ := hA v hvm
  have hdveq : dv2 = dr + ed.distance := by
    rw [hdvv] at hdv2
    exact (Option.some.inj hdv2).symm
  have hw : 0 < ed.distance := hpos ed (findEdge_mem g u v ed hfed).1
  have hduM : du ≠ MAXQ := by
    intro hc
    rw [hdveq] at hdvM
    rw [hc] at hle
    linarith
  have hdeltau : deltaDist g s u = some du := by
    have := hdelta u hum
    rw [hdu] at this
    rcases hdu2 : deltaDist g s u with _ | d2
    · rw [hdu2] at this
      exact absurd (Option.some.inj this) hduM
    · rw [hdu2] at this
      rw [Option.some.inj this]
  have hdeltav : deltaDist g s v = some (dr + ed.distance) := by
    have := hdelta v hvm
    rw [hdvv] at this
    rcases hdv3 : deltaDist g s v with _ | d2
    · rw [hdv3] at this
      exact absurd (Option.some.inj this) hneM
    · rw [hdv3] at this
      rw [Option.some.inj this]
  obtain ⟨dvt, hdvt, hdvtle⟩ :=
    deltaDist_edge_triangle g hnd hnn s u v du hdeltau ed hfed hvm
  have hdvteq : dvt = dr + ed.distance := by
    rw [hdeltav] at hdvt
    exact (Option.some.inj hdvt).symm
  have hdur : du = dr := by
    rw [hdvteq] at hdvtle
    linarith
  have htur : tu = tr := hcond hdur
  refine ⟨hum, hvm, hvs, ed, du, tu, hfed, hdu, htu, ?_, ?_, ?_⟩
  · rw [hdur]
    exact hdvv
  · rw [htur]
    exact htvv
  · rw [hdur]
    exact hneM


/-- The distance and time returned by the bellmanFord solver alongside a
non-empty path are exactly the edge sums over that path. -/
theorem bf_path_sums (g : RouteGraph) (s e : String)
    (hnd : g.nodeIds.Nodup) (hs : s ∈ g.nodeIds) (he : e ∈ g.nodeIds)
    (h0 : "" ∉ g.nodeIds)
    (hto : ∀ ed ∈ g.edges, ed.to ∈ g.nodeIds)
    (hpos : ∀ ed ∈ g.edges, 0 < ed.distance)
    (hdp : List.Pairwise (fun e1 e2 : RouteEdge => ¬(e1.frm = e2.frm ∧ e1.to = e2.to)) g.edges)
    (hsmall : edgeSum g < MAXQ) :
    (P2P.bellmanFord g s e).path ≠ [] →
      (P2P.bellmanFord g s e).distance =
        some (chainSum g (fun ed => ed.distance) (P2P.bellmanFord g s e).path) ∧
      (P2P.bellmanFord g s e).time =
        some (chainSum g (fun ed => ed.time) (P2P.bellmanFord g s e).path) := by
  have hbf : P2P.bellmanFord g s e =
      ⟨P2P.reconstructPath ((List.range (g.nodeIds.length - 1)).foldl (fun st _ => P2P.bellmanFordRound g st)
          ⟨P2P.initDist g s, P2P.initDist g s, fun _ => none⟩).prev s e (g.nodeIds.length + 2),
        ((List.range (g.nodeIds.length - 1)).foldl (fun st _ => P2P.bellmanFordRound g st)
          ⟨P2P.initDist g s, P2P.initDist g s, fun _ => none⟩).dist e,
        ((List.range (g.nodeIds.length - 1)).foldl (fun st _ => P2P.bellmanFordRound g st)
          ⟨P2P.initDist g s, P2P.initDist g s, fun _ => none⟩).time e⟩ := rfl
  obtain ⟨hds, hts, hDn, hA, hB, hC⟩ :=
    (bfRounds g s hnd hs hto hpos hdp hsmall (g.nodeIds.length - 1)).1
  have hprevx := bf_prev_exact g s hnd hs hto hpos hdp hsmall
  rw [hbf]
  intro hne
  simp only [P2P.reconstructPath] at hne ⊢
  by_cases hentry : ((match ((List.range (g.nodeIds.length - 1)).foldl (fun st _ => P2P.bellmanFordRound g st)
          ⟨P2P.initDist g s, P2P.initDist g s, fun _ => none⟩).prev e with
      | some p => p != ""
      | none => false) || e == s) = true
  · rw [if_pos hentry]
    obtain ⟨de, te, hde, hte, _, hdeM, _⟩ := hA e he
    have hcase : de ≠ MAXQ ∨ e = s := by
      rcases Bool.or_eq_true _ _ |>.mp hentry with hp | hes
      · rcases hpe : ((List.range (g.nodeIds.length - 1)).foldl (fun st _ => P2P.bellmanFordRound g st)
          ⟨P2P.initDist g s, P2P.initDist g s, fun _ => none⟩).prev e with _ | u
        · rw [hpe] at hp
          cases hp
        · obtain ⟨_, _, _, ed, du, tu, _, _, _, hdev, _, hneM⟩ := hprevx e u hpe
          left
          intro hc
          rw [hde] at hdev
          rw [← Option.some.inj hdev] at hneM
          exact hneM hc
      · right
        simpa using hes
    have hbound : ∀ v ∈ g.nodeIds, ∀ dv, ((List.range (g.nodeIds.length - 1)).foldl (fun st _ => P2P.bellmanFordRound g st)
          ⟨P2P.initDist g s, P2P.initDist g s, fun _ => none⟩).dist v = some dv → dv ≤ MAXQ := by
      intro v hv dv hdv
      obtain ⟨dv2, _, hdv2, _, _, hdv2M, _⟩ := hA v hv
      rw [hdv2] at hdv
      rw [← Option.some.inj hdv]
      exact hdv2M
    have hrecon := dijkstra_reconstruct g s
      ⟨((List.range (g.nodeIds.length - 1)).foldl (fun st _ => P2P.bellmanFordRound g st)
          ⟨P2P.initDist g s, P2P.initDist g s, fun _ => none⟩).dist, ((List.range (g.nodeIds.length - 1)).foldl (fun st _ => P2P.bellmanFordRound g st)
          ⟨P2P.initDist g s, P2P.initDist g s, fun _ => none⟩).time, ((List.range (g.nodeIds.length - 1)).foldl (fun st _ => P2P.bellmanFordRound g st)
          ⟨P2P.initDist g s, P2P.initDist g s, fun _ => none⟩).prev, fun _ => true⟩
      h0 hds hts hbound
      (by
        intro v u hpv
        obtain ⟨hum, hvm, hvs, ed, du, tu, hfed, hdu, htu, hdvv, htvv, hnem⟩ :=
          hprevx v u hpv
        exact ⟨rfl, hum, hvm, hvs, ed, du, tu, hfed, hdu, htu, hdvv, htvv, hnem⟩)
      hC hpos (g.nodeIds.length + 1) e de te [] he hde hte hcase
      (le_trans (List.countP_le_length _) (by omega))
    obtain ⟨p, hrec, hph, hpl, hpok, hpd, hpt⟩ := hrecon
    rw [List.append_nil] at hrec
    have hfuel : g.nodeIds.length + 1 + 1 = g.nodeIds.length + 2 := rfl
    rw [hfuel] at hrec
    rw [hrec, hde, hte, hpd, hpt]
    exact ⟨rfl, rfl⟩
  · rw [if_neg hentry] at hne
    exact absurd rfl hne

/-- An edge-joined list stays edge-joined after dropping any suffix. -/
theorem chainOk_prefix (g : RouteGraph) :
    ∀ (x y : List String), chainOk g (x ++ y) = true → chainOk g x = true := by
  intro x
  induction x with
  | nil =>
    intro y _
    rfl
  | cons a x' ih =>
    intro y h
    rcases x' with _ | ⟨b, x''⟩
    · rfl
    · simp only [List.cons_append, chainOk, Bool.and_eq_true] at h ⊢
      exact ⟨h.1, ih y h.2⟩

/-- Prepending an initial edge to a shortest path: the left edge triangle
inequality for `deltaDist`. -/
theorem deltaDist_edge_triangle_left (g : RouteGraph) (hnd : g.nodeIds.Nodup)
    (hnn : ∀ e ∈ g.edges, 0 ≤ e.distance) (i v j : String)
    (hi : i ∈ g.nodeIds) (ed : RouteEdge) (hed : findEdge g i v = some ed)
    (dvj : ℚ) (hdvj : deltaDist g v j = some dvj) :
    ∃ dij, deltaDist g i j = some dij ∧ dij ≤ ed.distance + dvj := by
  obtain ⟨q, hq, hcq⟩ := deltaDist_mem g v j dvj hdvj
  obtain ⟨hq1, hq2, hq3, hq4, hq5⟩ := simpleChains_spec g v j q hnd hq
  rcases q with _ | ⟨a, t⟩
  · cases hq3
  have hav : a = v := by simpa using hq3
  subst hav
  have hok : chainOk g (i :: a :: t) = true := by
    simp only [chainOk, Bool.and_eq_true]
    exact ⟨by rw [hed]; rfl, hq5⟩
  have hsum : chainSum g (fun e2 => e2.distance) (i :: a :: t) = ed.distance + dvj := by
    simp only [chainSum]
    rw [qadd_eq, hed, hcq]
    simp
  obtain ⟨dij, hdij, hle⟩ := walk_deltaDist_le g hnd hnn (i :: a :: t) i j hok rfl
    (by
      rw [List.getLast?_cons_cons]
      exact hq4)
    (by
      intro w hw
      rcases List.mem_cons.mp hw with rfl | hw
      · exact hi
      · exact hq2 w hw)
  rw [hsum] at hle
  exact ⟨dij, hdij, hle⟩

/-- Effect of the floydWarshall matrix fill: each pair's entry is the
first matching edge's weight (with pairwise-distinct edge pairs), other
entries and the `next` matrix are untouched. -/
theorem fwFill_fold_spec (g : RouteGraph) :
    ∀ (l : List RouteEdge),
      List.Pairwise (fun e1 e2 : RouteEdge => ¬(e1.frm = e2.frm ∧ e1.to = e2.to)) l →
      ∀ (st : P2P.FWState) (i j : String),
        (l.foldl (fun st e =>
          { st with
            dist := fun i j => if i = e.frm ∧ j = e.to then some e.distance else st.dist i j,
            times := fun i j => if i = e.frm ∧ j = e.to then some e.time
              else st.times i j }) st).dist i j =
          (match l.find? (fun e => e.frm == i && e.to == j) with
           | some ed => some ed.distance
           | none => st.dist i j) ∧
        (l.foldl (fun st e =>
          { st with
            dist := fun i j => if i = e.frm ∧ j = e.to then some e.distance else st.dist i j,
            times := fun i j => if i = e.frm ∧ j = e.to then some e.time
              else st.times i j }) st).times i j =
          (match l.find? (fun e => e.frm == i && e.to == j) with
           | some ed => some ed.time
           | none => st.times i j) ∧
        (l.foldl (fun st e =>
          { st with
            dist := fun i j => if i = e.frm ∧ j = e.to then some e.distance else st.dist i j,
            times := fun i j => if i = e.frm ∧ j = e.to then some e.time
              else st.times i j }) st).next = st.next := by
  intro l
  induction l with
  | nil =>
    intro _ st i j
    exact ⟨rfl, rfl, rfl⟩
  | cons e₀ rest ih =>
    intro hp st i j
    have hp0 := List.pairwise_cons.mp hp
    rw [List.foldl_cons]
    obtain ⟨ih1, ih2, ih3⟩ := ih hp0.2 _ i j
    by_cases hpred : (e₀.frm == i && e₀.to == j) = true
    · simp only [Bool.and_eq_true, beq_iff_eq] at hpred
      have hfind : (e₀ :: rest).find? (fun e => e.frm == i && e.to == j) = some e₀ :=
        List.find?_cons_of_pos _ (by simp [hpred.1, hpred.2])
      have hrest : rest.find? (fun e => e.frm == i && e.to == j) = none := by
        rw [List.find?_eq_none]
        intro e he
        simp only [Bool.and_eq_true, beq_iff_eq, not_and]
        intro hf ht
        exact hp0.1 e he ⟨hpred.1.trans hf.symm, hpred.2.trans ht.symm⟩
      rw [hfind]
      rw [hrest] at ih1 ih2
      refine ⟨?_, ?_, ih3⟩
      · rw [ih1]
        dsimp only
        rw [if_pos ⟨hpred.1.symm, hpred.2.symm⟩]
      · rw [ih2]
        dsimp only
        rw [if_pos ⟨hpred.1.symm, hpred.2.symm⟩]
    · have hfind : (e₀ :: rest).find? (fun e => e.frm == i && e.to == j) =
          rest.find? (fun e => e.frm == i && e.to == j) :=
        List.find?_cons_of_neg _ (by simpa using hpred)
      rw [hfind]
      have hne : ¬(i = e₀.frm ∧ j = e₀.to) := by
        intro hc
        exact hpred (by simp [hc.1, hc.2])
      rcases hrf : rest.find? (fun e => e.frm == i && e.to == j) with _ | ed
      · rw [hrf] at ih1 ih2
        rw [hrf]
        refine ⟨?_, ?_, ih3⟩
        · rw [ih1]
          dsimp only
          rw [if_neg hne]
        · rw [ih2]
          dsimp only
          rw [if_neg hne]
      · rw [hrf] at ih1 ih2
        rw [hrf]
        exact ⟨ih1, ih2, ih3⟩

/-- The floydWarshall invariant holds right after matrix init and fill. -/
theorem fwFillInit_inv (g : RouteGraph)
    (hnd : g.nodeIds.Nodup)
    (hpos : ∀ e ∈ g.edges, 0 < e.distance)
    (hdp : List.Pairwise (fun e1 e2 : RouteEdge => ¬(e1.frm = e2.frm ∧ e1.to = e2.to)) g.edges)
    (hnl : ∀ e ∈ g.edges, e.frm ≠ e.to)
    (hsmall : edgeSum g < MAXQ) :
    FWInv g (P2P.fwFill g (P2P.fwInit g)) := by
  have hnn : ∀ e ∈ g.edges, 0 ≤ e.distance := fun e he => le_of_lt (hpos e he)
  have hM0 : (0 : ℚ) ≤ MAXQ := by norm_num [MAXQ]
  have hspec : ∀ (i j : String),
      (P2P.fwFill g (P2P.fwInit g)).dist i j =
        (match findEdge g i j with
         | some ed => some ed.distance
         | none => (P2P.fwInit g).dist i j) ∧
      (P2P.fwFill g (P2P.fwInit g)).times i j =
        (match findEdge g i j with
         | some ed => some ed.time
         | none => (P2P.fwInit g).times i j) ∧
      (P2P.fwFill g (P2P.fwInit g)).next = (P2P.fwInit g).next :=
    fun i j => fwFill_fold_spec g g.edges hdp (P2P.fwInit g) i j
  have hinitd : ∀ (i j : String), i ∈ g.nodeIds → j ∈ g.nodeIds →
      (P2P.fwInit g).dist i j = some (if i = j then 0 else MAXQ) := by
    intro i j hi hj
    have hci : g.nodeIds.contains i = true := by simpa using hi
    have hcj : g.nodeIds.contains j = true := by simpa using hj
    show (if g.nodeIds.contains i ∧ g.nodeIds.contains j then
      some (if i = j then 0 else MAXQ) else none) = _
    rw [if_pos ⟨by rw [hci], by rw [hcj]⟩]
  have hinitt : ∀ (i j : String), i ∈ g.nodeIds → j ∈ g.nodeIds →
      (P2P.fwInit g).times i j = some (if i = j then 0 else MAXQ) := by
    intro i j hi hj
    have hci : g.nodeIds.contains i = true := by simpa using hi
    have hcj : g.nodeIds.contains j = true := by simpa using hj
    show (if g.nodeIds.contains i ∧ g.nodeIds.contains j then
      some (if i = j then 0 else MAXQ) else none) = _
    rw [if_pos ⟨by rw [hci], by rw [hcj]⟩]
  have hinitn : ∀ (i j : String), i ∈ g.nodeIds → j ∈ g.nodeIds →
      (P2P.fwInit g).next i j = some j := by
    intro i j hi hj
    have hci : g.nodeIds.contains i = true := by simpa using hi
    have hcj : g.nodeIds.contains j = true := by simpa using hj
    show (if g.nodeIds.contains i ∧ g.nodeIds.contains j then some j else none) = some j
    rw [if_pos ⟨by rw [hci], by rw [hcj]⟩]
  have hedge_le : ∀ ed ∈ g.edges, ed.distance < MAXQ := by
    intro ed hed
    have hok : chainOk g [ed.frm, ed.to] = true := by
      simp only [chainOk, Bool.and_eq_true]
      refine ⟨?_, by trivial⟩
      rw [findEdge_self g hdp ed hed]
      rfl
    have hnd2 : ([ed.frm, ed.to] : List String).Nodup := by
      simp [hnl ed hed]
    have hsum : chainSum g (fun e2 => e2.distance) [ed.frm, ed.to] = ed.distance := by
      simp only [chainSum]
      rw [qadd_eq, findEdge_self g hdp ed hed]
      simp [chainSum]
    have := chainSum_le_edgeSum g hnn [ed.frm, ed.to] hnd2 hok
    rw [hsum] at this
    linarith
  refine ⟨?_, ?_, ?_⟩
  · intro i hi j hj
    obtain ⟨hd, ht, _⟩ := hspec i j
    rcases hfe : findEdge g i j with _ | ed
    · rw [hfe] at hd ht
      rw [hinitd i j hi hj] at hd
      rw [hinitt i j hi hj] at ht
      by_cases hij : i = j
      · rw [if_pos hij] at hd ht
        refine ⟨0, 0, hd, ht, le_refl 0, hM0, ?_⟩
        intro _
        refine ⟨[i], rfl, rfl, by rw [hij]; rfl, ?_, rfl⟩
        intro w hw
        rw [List.mem_singleton] at hw
        rw [hw]
        exact hi
      · rw [if_neg hij] at hd ht
        refine ⟨MAXQ, MAXQ, hd, ht, hM0, le_refl MAXQ, ?_⟩
        rintro (h | h)
        · exact absurd rfl h
        · exact absurd h hij
    · rw [hfe] at hd ht
      obtain ⟨hedm, hedf, hedt⟩ := findEdge_mem g i j ed hfe
      have hij : i ≠ j := by
        rw [← hedf, ← hedt]
        exact hnl ed hedm
      refine ⟨ed.distance, ed.time, hd, ht, le_of_lt (hpos ed hedm),
        le_of_lt (hedge_le ed hedm), ?_⟩
      intro _
      refine ⟨[i, j], ?_, rfl, rfl, ?_, ?_⟩
      · simp only [chainOk, Bool.and_eq_true]
        refine ⟨by rw [hfe]; rfl, by trivial⟩
      · intro w hw
        rcases List.mem_cons.mp hw with rfl | hw
        · exact hi
        · rw [List.mem_singleton] at hw
          rw [hw]
          exact hj
      · simp only [chainSum]
        rw [qadd_eq, hfe]
        simp [chainSum]
  · intro i hi
    obtain ⟨hd, _, _⟩ := hspec i i
    have hfe : findEdge g i i = none := by
      unfold findEdge
      rw [List.find?_eq_none]
      intro e he
      simp only [Bool.and_eq_true, beq_iff_eq, not_and]
      intro hf ht
      exact absurd (hf.trans ht.symm) (hnl e he)
    rw [hfe] at hd
    rw [hinitd i i hi hi] at hd
    rw [if_pos rfl] at hd
    exact hd
  · intro i hi j hj hij d hd hdM
    obtain ⟨hd2, _, hn2⟩ := hspec i j
    rcases hfe : findEdge g i j with _ | ed
    · exfalso
      rw [hfe] at hd2
      rw [hinitd i j hi hj, if_neg hij] at hd2
      rw [hd2] at hd
      exact hdM (Option.some.inj hd).symm
    · rw [hfe] at hd2
      refine ⟨j, ?_, hj, ed, hfe, [j], by trivial, rfl, rfl, ?_, ?_⟩
      · rw [hn2]
        exact hinitn i j hi hj
      · intro w hw
        rw [List.mem_singleton] at hw
        rw [hw]
        exact hj
      · rw [hd2]
        simp [chainSum]

/-- Gluing two edge-joined lists at a shared endpoint. -/
theorem chain_glue (g : RouteGraph) (a c b : String) (p1 p2 : List String)
    (h1ok : chainOk g p1 = true) (h1h : p1.head? = some a) (h1l : p1.getLast? = some c)
    (h2ok : chainOk g p2 = true) (h2h : p2.head? = some c) (h2l : p2.getLast? = some b) :
    ∃ p, chainOk g p = true ∧ p.head? = some a ∧ p.getLast? = some b ∧
      (∀ w ∈ p, w ∈ p1 ∨ w ∈ p2) ∧
      (∀ f : RouteEdge → ℚ, chainSum g f p = chainSum g f p1 + chainSum g f p2) := by
  obtain ⟨x, hx⟩ := exists_concat_of_getLast p1 c h1l
  rcases hy : p2 with _ | ⟨c2, y⟩
  · rw [hy] at h2h
    cases h2h
  have hc2 : c2 = c := by
    rw [hy] at h2h
    simpa using h2h
  subst hc2
  refine ⟨x ++ c2 :: y, ?_, ?_, ?_, ?_, ?_⟩
  · refine chainOk_join g x c2 y ?_ ?_
    · rw [← hx]
      exact h1ok
    · rw [← hy]
      exact h2ok
  · rw [head_append_cons, ← hx]
    exact h1h
  · rw [getLast_append_cons, ← hy]
    exact h2l
  · intro w hw
    rcases List.mem_append.mp hw with hw | hw
    · left
      rw [hx]
      exact List.mem_append.mpr (Or.inl hw)
    · right
      exact hw
  · intro f
    rw [chainSum_join g f x c2 y, ← hx, ← hy]

/-- The floydWarshall inner statement is `fwPair`. -/
theorem fwStep_eq (ids : List String) (k : String) (st : P2P.FWState) :
    P2P.fwStep ids k st = ids.foldl (fun st i => ids.foldl (fwPair k i) st) st := rfl

/-- One floydWarshall relaxation preserves the invariant, freezes row and
column `k`, never increases an entry, and leaves `(i, j)` relaxed with
respect to the entry values. -/
theorem fwRelaxOne (g : RouteGraph) (k i j : String)
    (hk : k ∈ g.nodeIds) (hi : i ∈ g.nodeIds) (hj : j ∈ g.nodeIds)
    (st : P2P.FWState) (hinv : FWInv g st) :
    FWInv g (fwPair k i st j) ∧
    (∀ a, (fwPair k i st j).dist a k = st.dist a k) ∧
    (∀ b, (fwPair k i st j).dist k b = st.dist k b) ∧
    (∀ a b d, st.dist a b = some d → ∃ d', (fwPair k i st j).dist a b = some d' ∧ d' ≤ d) ∧
    (∀ dik dkj, st.dist i k = some dik → dik ≠ MAXQ → st.dist k j = some dkj → dkj ≠ MAXQ →
      ∀ d', (fwPair k i st j).dist i j = some d' → d' ≤ dik + dkj) := by
  obtain ⟨hA, hDiag, hN⟩ := hinv
  obtain ⟨dik, tik, hdik, htik, hdik0, hdikM, hchik⟩ := hA i hi k hk
  obtain ⟨dkj, tkj, hdkj, htkj, hdkj0, hdkjM, hchkj⟩ := hA k hk j hj
  obtain ⟨dij, tij, hdij, htij, hdij0, hdijM, hchij⟩ := hA i hi j hj
  by_cases hg : (st.dist i k ≠ some MAXQ) ∧ (st.dist k j ≠ some MAXQ) ∧
      jsLt (jsAdd2 (st.dist i k) (st.dist k j)) (st.dist i j) = true
  · -- the relaxation fires
    obtain ⟨hgik, hgkj, hglt⟩ := hg
    have hdikM2 : dik ≠ MAXQ := by
      intro hc
      rw [hdik, hc] at hgik
      exact hgik rfl
    have hdkjM2 : dkj ≠ MAXQ := by
      intro hc
      rw [hdkj, hc] at hgkj
      exact hgkj rfl
    have hadd : jsAdd2 (st.dist i k) (st.dist k j) = some (dik + dkj) := by
      rw [hdik, hdkj]
      simp only [jsAdd2]
      rw [qadd_eq]
    have haddT : jsAdd2 (st.times i k) (st.times k j) = some (tik + tkj) := by
      rw [htik, htkj]
      simp only [jsAdd2]
      rw [qadd_eq]
    have hlt : dik + dkj < dij := by
      rw [hadd, hdij] at hglt
      obtain ⟨x, y, hx, hy, hxy⟩ := (jsLt_true _ _).mp hglt
      rw [← Option.some.inj hx, ← Option.some.inj hy] at hxy
      exact hxy
    have hij : i ≠ j := by
      intro hc
      have h0 := hDiag i hi
      have h1 : st.dist i j = some 0 := by
        rw [← hc]
        exact h0
      rw [hdij] at h1
      have h2 : dij = 0 := Option.some.inj h1
      rw [h2] at hlt
      linarith
    have hik : i ≠ k := by
      intro hc
      have h0 := hDiag i hi
      have h1 : st.dist i k = some 0 := by
        rw [← hc]
        exact h0
      rw [hdik] at h1
      have h2 : dik = 0 := Option.some.inj h1
      have h3 : st.dist k j = st.dist i j := by
        rw [← hc]
      rw [hdkj, hdij] at h3
      have h4 : dkj = dij := Option.some.inj h3
      rw [h2, h4] at hlt
      linarith
    have hkj2 : k ≠ j := by
      intro hc
      have h0 := hDiag k hk
      have h1 : st.dist k j = some 0 := by
        rw [← hc]
        exact h0
      rw [hdkj] at h1
      have h2 : dkj = 0 := Option.some.inj h1
      have h3 : st.dist i k = st.dist i j := by
        rw [hc]
      rw [hdik, hdij] at h3
      have h4 : dik = dij := Option.some.inj h3
      rw [h2, h4] at hlt
      linarith
    have hst' : fwPair k i st j =
        { dist := fun a b =>
            if a = i ∧ b = j then jsAdd2 (st.dist i k) (st.dist k j) else st.dist a b,
          times := fun a b =>
            if a = i ∧ b = j then jsAdd2 (st.times i k) (st.times k j) else st.times a b,
          next := fun a b =>
            if a = i ∧ b = j then st.next i k else st.next a b } := by
      rw [show fwPair k i st j = if (st.dist i k ≠ some MAXQ) ∧ (st.dist k j ≠ some MAXQ) ∧
          jsLt (jsAdd2 (st.dist i k) (st.dist k j)) (st.dist i j) = true then
          { dist := fun a b =>
              if a = i ∧ b = j then jsAdd2 (st.dist i k) (st.dist k j) else st.dist a b,
            times := fun a b =>
              if a = i ∧ b = j then jsAdd2 (st.times i k) (st.times k j) else st.times a b,
            next := fun a b =>
              if a = i ∧ b = j then st.next i k else st.next a b }
          else st from rfl]
      rw [if_pos ⟨hgik, hgkj, hglt⟩]
    obtain ⟨p1, hp1ok, hp1h, hp1l, hp1m, hp1s⟩ := hchik (Or.inl hdikM2)
    obtain ⟨p2, hp2ok, hp2h, hp2l, hp2m, hp2s⟩ := hchkj (Or.inl hdkjM2)
    obtain ⟨pj, hpjok, hpjh, hpjl, hpjm, hpjs⟩ :=
      chain_glue g i k j p1 p2 hp1ok hp1h hp1l hp2ok hp2h hp2l
    have hpjcost : chainSum g (fun e2 => e2.distance) pj = dik + dkj := by
      rw [hpjs (fun e2 => e2.distance), hp1s, hp2s]
    refine ⟨⟨?_, ?_, ?_⟩, ?_, ?_, ?_, ?_⟩
    · -- I1
      intro a ha b hb
      rw [hst']
      dsimp only
      by_cases hab : a = i ∧ b = j
      · rw [if_pos hab, if_pos hab, hadd, haddT]
        refine ⟨dik + dkj, tik + tkj, rfl, rfl, by linarith, by linarith, ?_⟩
        intro _
        refine ⟨pj, hpjok, ?_, ?_, ?_, hpjcost⟩
        · rw [hab.1]
          exact hpjh
        · rw [hab.2]
          exact hpjl
        · intro w hw
          rcases hpjm w hw with h | h
          · exact hp1m w h
          · exact hp2m w h
      · rw [if_neg hab, if_neg hab]
        obtain ⟨d2, t2, hd2, ht2, hd20, hd2M, hch2⟩ := hA a ha b hb
        exact ⟨d2, t2, hd2, ht2, hd20, hd2M, hch2⟩
    · -- diagonal
      intro a ha
      rw [hst']
      dsimp only
      rw [if_neg (fun hc : a = i ∧ a = j => hij (hc.1.symm.trans hc.2))]
      exact hDiag a ha
    · -- next records
      intro a ha b hb hab d hd hdM
      rw [hst'] at hd ⊢
      dsimp only at hd ⊢
      by_cases habj : a = i ∧ b = j
      · rw [if_pos habj] at hd ⊢
        obtain ⟨v, hnv, hvm, ed, hfed, q, hqok, hqh, hql, hqm, hqs⟩ :=
          hN i hi k hk hik dik hdik hdikM2
        have hdikq : dik = ed.distance + chainSum g (fun e2 => e2.distance) q := by
          rw [hdik] at hqs
          exact Option.some.inj hqs
        obtain ⟨q2, hq2ok, hq2h, hq2l, hq2m, hq2s⟩ :=
          chain_glue g v k b q p2 hqok hqh hql hp2ok hp2h (habj.2 ▸ hp2l)
        refine ⟨v, hnv, hvm, ed, ?_, q2, hq2ok, hq2h, hq2l, ?_, ?_⟩
        · rw [habj.1]
          exact hfed
        · intro w hw
          rcases hq2m w hw with h | h
          · exact hqm w h
          · exact hp2m w h
        · rw [if_pos habj]
          rw [hadd, hq2s (fun e2 => e2.distance), hp2s, hdikq, add_assoc]
      · rw [if_neg habj] at hd ⊢
        obtain ⟨v, hnv, hvm, ed, hfed, q, hqok, hqh, hql, hqm, hqs⟩ :=
          hN a ha b hb hab d hd hdM
        refine ⟨v, hnv, hvm, ed, hfed, q, hqok, hqh, hql, hqm, ?_⟩
        rw [if_neg habj]
        exact hqs
    · -- row: column k frozen
      intro a
      rw [hst']
      dsimp only
      rw [if_neg (fun hc : a = i ∧ k = j => hkj2 hc.2)]
    · -- row k frozen
      intro b
      rw [hst']
      dsimp only
      rw [if_neg (fun hc : k = i ∧ b = j => hik hc.1.symm)]
    · -- monotone
      intro a b d hd
      rw [hst']
      dsimp only
      by_cases hab : a = i ∧ b = j
      · rw [if_pos hab, hadd]
        refine ⟨dik + dkj, rfl, ?_⟩
        have : d = dij := by
          rw [hab.1, hab.2, hdij] at hd
          exact (Option.some.inj hd).symm
        rw [this]
        linarith
      · rw [if_neg hab]
        exact ⟨d, hd, le_refl d⟩
    · -- relaxed at the processed pair
      intro dik2 dkj2 hdik2 _ hdkj2 _ d' hd'
      have h1 : dik2 = dik := by
        rw [hdik] at hdik2
        exact (Option.some.inj hdik2).symm
      have h2 : dkj2 = dkj := by
        rw [hdkj] at hdkj2
        exact (Option.some.inj hdkj2).symm
      rw [hst'] at hd'
      dsimp only at hd'
      rw [if_pos ⟨rfl, rfl⟩, hadd] at hd'
      rw [← Option.some.inj hd', h1, h2]
  · -- no relaxation
    have hst' : fwPair k i st j = st := by
      rw [show fwPair k i st j = if (st.dist i k ≠ some MAXQ) ∧ (st.dist k j ≠ some MAXQ) ∧
          jsLt (jsAdd2 (st.dist i k) (st.dist k j)) (st.dist i j) = true then
          { dist := fun a b =>
              if a = i ∧ b = j then jsAdd2 (st.dist i k) (st.dist k j) else st.dist a b,
            times := fun a b =>
              if a = i ∧ b = j then jsAdd2 (st.times i k) (st.times k j) else st.times a b,
            next := fun a b =>
              if a = i ∧ b = j then st.next i k else st.next a b }
          else st from rfl]
      rw [if_neg hg]
    rw [hst']
    refine ⟨⟨hA, hDiag, hN⟩, fun a => rfl, fun b => rfl, fun a b d hd => ⟨d, hd, le_refl d⟩, ?_⟩
    intro dik2 dkj2 hdik2 hdik2M hdkj2 hdkj2M d' hd'
    have h1 : dik2 = dik := by
      rw [hdik] at hdik2
      exact (Option.some.inj hdik2).symm
    have h2 : dkj2 = dkj := by
      rw [hdkj] at hdkj2
      exact (Option.some.inj hdkj2).symm
    have hd'ij : d' = dij := by
      rw [hdij] at hd'
      exact (Option.some.inj hd').symm
    have hnlt : ¬ (dik + dkj < dij) := by
      intro hc
      apply hg
      refine ⟨?_, ?_, ?_⟩
      · rw [hdik]
        intro hc2
        rw [h1] at hdik2M
        exact hdik2M (Option.some.inj hc2)
      · rw [hdkj]
        intro hc2
        rw [h2] at hdkj2M
        exact hdkj2M (Option.some.inj hc2)
      · rw [jsLt_true]
        refine ⟨dik + dkj, dij, ?_, hdij, hc⟩
        rw [hdik, hdkj]
        simp only [jsAdd2]
        rw [qadd_eq]
    rw [hd'ij, h1, h2]
    linarith

/-- The inner `j` loop of a floydWarshall pass: invariant, frozen row and
column `k`, monotone entries, processed pairs relaxed. -/
theorem fwInner (g : RouteGraph) (k i : String)
    (hk : k ∈ g.nodeIds) (hi : i ∈ g.nodeIds) :
    ∀ (lj : List String), (∀ j ∈ lj, j ∈ g.nodeIds) →
      ∀ st, FWInv g st →
      FWInv g (lj.foldl (fwPair k i) st) ∧
      (∀ a, (lj.foldl (fwPair k i) st).dist a k = st.dist a k) ∧
      (∀ b, (lj.foldl (fwPair k i) st).dist k b = st.dist k b) ∧
      (∀ a b d, st.dist a b = some d →
        ∃ d', (lj.foldl (fwPair k i) st).dist a b = some d' ∧ d' ≤ d) ∧
      (∀ j ∈ lj, ∀ dik dkj, st.dist i k = some dik → dik ≠ MAXQ →
        st.dist k j = some dkj → dkj ≠ MAXQ →
        ∀ d', (lj.foldl (fwPair k i) st).dist i j = some d' → d' ≤ dik + dkj) := by
  intro lj
  induction lj with
  | nil =>
    intro _ st hinv
    exact ⟨hinv, fun a => rfl, fun b => rfl, fun a b d hd => ⟨d, hd, le_refl d⟩,
      by intro j hj; simp at hj⟩
  | cons j₀ rest ih =>
    intro hl st hinv
    have hj₀ : j₀ ∈ g.nodeIds := hl j₀ (List.mem_cons_self _ _)
    have hrest : ∀ j ∈ rest, j ∈ g.nodeIds := fun j hj => hl j (List.mem_cons_of_mem _ hj)
    obtain ⟨hinv1, hak, hkb, hmono1, hrel1⟩ := fwRelaxOne g k i j₀ hk hi hj₀ st hinv
    rw [List.foldl_cons]
    obtain ⟨ihinv, ihak, ihkb, ihmono, ihrel⟩ := ih hrest (fwPair k i st j₀) hinv1
    refine ⟨ihinv, ?_, ?_, ?_, ?_⟩
    · intro a
      rw [ihak, hak]
    · intro b
      rw [ihkb, hkb]
    · intro a b d hd
      obtain ⟨d1, hd1, hle1⟩ := hmono1 a b d hd
      obtain ⟨d2, hd2, hle2⟩ := ihmono a b d1 hd1
      exact ⟨d2, hd2, le_trans hle2 hle1⟩
    · intro j hj dik dkj hdik hdikM hdkj hdkjM d' hd'
      rcases List.mem_cons.mp hj with rfl | hj
      · obtain ⟨dm, tm, hdm, _, _, _, _⟩ := hinv1.1 i hi j hj₀
        have hrelm := hrel1 dik dkj hdik hdikM hdkj hdkjM dm hdm
        obtain ⟨d2, hd2, hle2⟩ := ihmono i j dm hdm
        rw [hd2] at hd'
        have hd'eq : d' = d2 := (Option.some.inj hd').symm
        rw [hd'eq]
        linarith
      · have hik2 : (fwPair k i st j₀).dist i k = some dik := by
          rw [hak]
          exact hdik
        have hkj2 : (fwPair k i st j₀).dist k j = some dkj := by
          rw [hkb]
          exact hdkj
        exact ihrel j hj dik dkj hik2 hdikM hkj2 hdkjM d' hd'

/-- The outer `i` loop of a floydWarshall pass. -/
theorem fwOuter (g : RouteGraph) (k : String) (hk : k ∈ g.nodeIds) :
    ∀ (li : List String), (∀ i ∈ li, i ∈ g.nodeIds) →
      ∀ st, FWInv g st →
      FWInv g (li.foldl (fun st i => g.nodeIds.foldl (fwPair k i) st) st) ∧
      (∀ a, (li.foldl (fun st i => g.nodeIds.foldl (fwPair k i) st) st).dist a k =
        st.dist a k) ∧
      (∀ b, (li.foldl (fun st i => g.nodeIds.foldl (fwPair k i) st) st).dist k b =
        st.dist k b) ∧
      (∀ a b d, st.dist a b = some d →
        ∃ d', (li.foldl (fun st i => g.nodeIds.foldl (fwPair k i) st) st).dist a b = some d' ∧
          d' ≤ d) ∧
      (∀ i ∈ li, ∀ j ∈ g.nodeIds, ∀ dik dkj, st.dist i k = some dik → dik ≠ MAXQ →
        st.dist k j = some dkj → dkj ≠ MAXQ →
        ∀ d', (li.foldl (fun st i => g.nodeIds.foldl (fwPair k i) st) st).dist i j = some d' →
          d' ≤ dik + dkj) := by
  intro li
  induction li with
  | nil =>
    intro _ st hinv
    exact ⟨hinv, fun a => rfl, fun b => rfl, fun a b d hd => ⟨d, hd, le_refl d⟩,
      by intro i hi; simp at hi⟩
  | cons i₀ rest ih =>
    intro hl st hinv
    have hi₀ : i₀ ∈ g.nodeIds := hl i₀ (List.mem_cons_self _ _)
    have hrest : ∀ i ∈ rest, i ∈ g.nodeIds := fun i hi => hl i (List.mem_cons_of_mem _ hi)
    obtain ⟨hinv1, hak, hkb, hmono1, hrel1⟩ :=
      fwInner g k i₀ hk hi₀ g.nodeIds (fun _ h => h) st hinv
    rw [List.foldl_cons]
    obtain ⟨ihinv, ihak, ihkb, ihmono, ihrel⟩ :=
      ih hrest (g.nodeIds.foldl (fwPair k i₀) st) hinv1
    refine ⟨ihinv, ?_, ?_, ?_, ?_⟩
    · intro a
      rw [ihak, hak]
    · intro b
      rw [ihkb, hkb]
    · intro a b d hd
      obtain ⟨d1, hd1, hle1⟩ := hmono1 a b d hd
      obtain ⟨d2, hd2, hle2⟩ := ihmono a b d1 hd1
      exact ⟨d2, hd2, le_trans hle2 hle1⟩
    · intro i hi j hj dik dkj hdik hdikM hdkj hdkjM d' hd'
      rcases List.mem_cons.mp hi with rfl | hi
      · obtain ⟨dm, tm, hdm, _, _, _, _⟩ := hinv1.1 i hi₀ j hj
        have hrelm := hrel1 j hj dik dkj hdik hdikM hdkj hdkjM dm hdm
        obtain ⟨d2, hd2, hle2⟩ := ihmono i j dm hdm
        rw [hd2] at hd'
        have hd'eq : d' = d2 := (Option.some.inj hd').symm
        rw [hd'eq]
        linarith
      · have hik2 : (g.nodeIds.foldl (fwPair k i₀) st).dist i k = some dik := by
          rw [hak]
          exact hdik
        have hkj2 : (g.nodeIds.foldl (fwPair k i₀) st).dist k j = some dkj := by
          rw [hkb]
          exact hdkj
        exact ihrel i hi j hj dik dkj hik2 hdikM hkj2 hdkjM d' hd'

/-- After the matrix fill, direct chains already bound the entries. -/
theorem fwComp_base (g : RouteGraph)
    (hdp : List.Pairwise (fun e1 e2 : RouteEdge => ¬(e1.frm = e2.frm ∧ e1.to = e2.to)) g.edges) :
    FWComp g [] (P2P.fwFill g (P2P.fwInit g)) := by
  intro i hi j hj mid _ hok _ hK d hd
  rcases mid with _ | ⟨a, mid'⟩
  · have hok2 : chainOk g [i, j] = true := hok
    show d ≤ chainSum g (fun ed => ed.distance) [i, j]
    have hedge : (findEdge g i j).isSome = true := by
      rcases hfe : findEdge g i j with _ | ed
      · simp only [chainOk, hfe, Bool.and_eq_true] at hok2
        rcases hok2 with ⟨h1, _⟩
        cases h1
      · rfl
    obtain ⟨ed, hfe⟩ := Option.isSome_iff_exists.mp hedge
    have hspec : (P2P.fwFill g (P2P.fwInit g)).dist i j =
        (match findEdge g i j with
         | some ed => some ed.distance
         | none => (P2P.fwInit g).dist i j) :=
      (fwFill_fold_spec g g.edges hdp (P2P.fwInit g) i j).1
    rw [hfe] at hspec
    rw [hspec] at hd
    rw [← Option.some.inj hd]
    simp only [chainSum]
    rw [qadd_eq, hfe]
    simp [chainSum]
  · exact absurd (hK a (List.mem_cons_self a mid')) (List.not_mem_nil a)

/-- Processing a list of intermediates preserves the floydWarshall
invariant and extends completeness by the processed intermediates. -/
theorem fwPasses (g : RouteGraph)
    (hnd : g.nodeIds.Nodup)
    (hpos : ∀ e ∈ g.edges, 0 < e.distance)
    (hsmall : edgeSum g < MAXQ) :
    ∀ (rest K : List String), (∀ x ∈ rest, x ∈ g.nodeIds) →
      ∀ st, FWInv g st → FWComp g K st →
      FWInv g (rest.foldl (fun st k => g.nodeIds.foldl
        (fun st i => g.nodeIds.foldl (fwPair k i) st) st) st) ∧
      FWComp g (K ++ rest) (rest.foldl (fun st k => g.nodeIds.foldl
        (fun st i => g.nodeIds.foldl (fwPair k i) st) st) st) := by
  have hnn : ∀ e ∈ g.edges, 0 ≤ e.distance := fun e he => le_of_lt (hpos e he)
  intro rest
  induction rest with
  | nil =>
    intro K _ st hinv hcomp
    refine ⟨hinv, ?_⟩
    rw [List.append_nil]
    exact hcomp
  | cons k rest' ih =>
    intro K hl st hinv hcomp
    have hk : k ∈ g.nodeIds := hl k (List.mem_cons_self _ _)
    have hrest : ∀ x ∈ rest', x ∈ g.nodeIds := fun x hx => hl x (List.mem_cons_of_mem _ hx)
    obtain ⟨hinv1, _, _, hmono1, hrel1⟩ :=
      fwOuter g k hk g.nodeIds (fun _ h => h) st hinv
    rw [List.foldl_cons]
    have hcomp1 : FWComp g (K ++ [k])
        (g.nodeIds.foldl (fun st i => g.nodeIds.foldl (fwPair k i) st) st) := by
      intro i hi j hj mid hpnd hpok hmidIds hmidK d hd
      by_cases hkin : k ∈ mid
      · -- the chain passes through the new intermediate
        obtain ⟨m1, m2, hmid⟩ := List.append_of_mem hkin
        subst hmid
        have hpeq1 : (i :: (m1 ++ k :: m2)) ++ [j] =
            ((i :: m1) ++ [k]) ++ (m2 ++ [j]) := by
          simp
        have hpeq2 : (i :: (m1 ++ k :: m2)) ++ [j] =
            (i :: m1) ++ (k :: (m2 ++ [j])) := by
          simp
        have hpeq3 : (i :: (m1 ++ k :: m2)) ++ [j] =
            (i :: m1) ++ k :: (m2 ++ [j]) := by
          simp
        have hok1 : chainOk g ((i :: m1) ++ [k]) = true := by
          refine chainOk_prefix g ((i :: m1) ++ [k]) (m2 ++ [j]) ?_
          rw [← hpeq1]
          exact hpok
        have hok2 : chainOk g (k :: (m2 ++ [j])) = true := by
          refine chainOk_suffix g (i :: m1) (k :: (m2 ++ [j])) ?_
          rw [← hpeq2]
          exact hpok
        have hnd1 : ((i :: m1) ++ [k]).Nodup := by
          refine List.Nodup.sublist ?_ (hpeq1 ▸ hpnd)
          exact List.sublist_append_left _ _
        have hnd2 : (k :: (m2 ++ [j])).Nodup := by
          refine List.Nodup.sublist ?_ (hpeq2 ▸ hpnd)
          exact List.sublist_append_right _ _
        have hmidnd : (m1 ++ k :: m2).Nodup := by
          have h1 : (m1 ++ k :: m2).Sublist ((i :: (m1 ++ k :: m2)) ++ [j]) := by
            refine List.Sublist.trans ?_ (List.sublist_append_left _ _)
            exact List.sublist_cons_self _ _
          exact List.Nodup.sublist h1 hpnd
        have hknotm1 : k ∉ m1 := by
          intro hc
          have := List.disjoint_of_nodup_append hmidnd
          exact this hc (List.mem_cons_self _ _)
        have hknotm2 : k ∉ m2 := by
          have := (List.nodup_append.mp hmidnd).2.1
          exact (List.nodup_cons.mp this).1
        have hm1K : ∀ w ∈ m1, w ∈ K := by
          intro w hw
          have hw2 := hmidK w (List.mem_append.mpr (Or.inl hw))
          rcases List.mem_append.mp hw2 with h | h
          · exact h
          · rw [List.mem_singleton] at h
            exact absurd (h ▸ hw) hknotm1
        have hm2K : ∀ w ∈ m2, w ∈ K := by
          intro w hw
          have hw2 := hmidK w (List.mem_append.mpr (Or.inr (List.mem_cons_of_mem _ hw)))
          rcases List.mem_append.mp hw2 with h | h
          · exact h
          · rw [List.mem_singleton] at h
            exact absurd (h ▸ hw) hknotm2
        have hm1Ids : ∀ w ∈ m1, w ∈ g.nodeIds :=
          fun w hw => hmidIds w (List.mem_append.mpr (Or.inl hw))
        have hm2Ids : ∀ w ∈ m2, w ∈ g.nodeIds :=
          fun w hw => hmidIds w (List.mem_append.mpr (Or.inr (List.mem_cons_of_mem _ hw)))
        obtain ⟨dik, _, hdik, _, _, _, _⟩ := hinv.1 i hi k hk
        obtain ⟨dkj, _, hdkj, _, _, _, _⟩ := hinv.1 k hk j hj
        have hbik := hcomp i hi k hk m1 hnd1 hok1 hm1Ids hm1K dik hdik
        have hbkj : dkj ≤ chainSum g (fun ed => ed.distance) (k :: (m2 ++ [j])) :=
          hcomp k hk j hj m2 hnd2 hok2 hm2Ids hm2K dkj hdkj
        have hikM : dik ≠ MAXQ := by
          intro hc
          have := chainSum_le_edgeSum g hnn ((i :: m1) ++ [k]) hnd1 hok1
          rw [hc] at hbik
          linarith
        have hkjM : dkj ≠ MAXQ := by
          intro hc
          have := chainSum_le_edgeSum g hnn (k :: (m2 ++ [j])) hnd2 hok2
          rw [hc] at hbkj
          linarith
        have hrel := hrel1 i hi j hj dik dkj hdik hikM hdkj hkjM d hd
        have hsplit : chainSum g (fun ed => ed.distance) ((i :: (m1 ++ k :: m2)) ++ [j]) =
            chainSum g (fun ed => ed.distance) ((i :: m1) ++ [k]) +
            chainSum g (fun ed => ed.distance) (k :: (m2 ++ [j])) := by
          rw [hpeq3]
          exact chainSum_join g _ (i :: m1) k (m2 ++ [j])
        rw [hsplit]
        linarith
      · -- the new intermediate is unused
        have hmidK2 : ∀ w ∈ mid, w ∈ K := by
          intro w hw
          rcases List.mem_append.mp (hmidK w hw) with h | h
          · exact h
          · rw [List.mem_singleton] at h
            exact absurd (h ▸ hw) hkin
        obtain ⟨dm, _, hdm, _, _, _, _⟩ := hinv.1 i hi j hj
        have hbound := hcomp i hi j hj mid hpnd hpok hmidIds hmidK2 dm hdm
        obtain ⟨d', hd', hle'⟩ := hmono1 i j dm hdm
        rw [hd'] at hd
        have : d = d' := (Option.some.inj hd).symm
        rw [this]
        linarith
    obtain ⟨ihinv, ihcomp⟩ := ih (K ++ [k]) hrest _ hinv1 hcomp1
    refine ⟨ihinv, ?_⟩
    have : (K ++ [k]) ++ rest' = K ++ k :: rest' := by
      simp
    rw [this] at ihcomp
    exact ihcomp

/-- At the final floydWarshall state the invariant holds and every
in-graph entry equals the true shortest-path distance (sentinel when
unreachable). -/
theorem fw_state_delta (g : RouteGraph)
    (hnd : g.nodeIds.Nodup)
    (hpos : ∀ e ∈ g.edges, 0 < e.distance)
    (hdp : List.Pairwise (fun e1 e2 : RouteEdge => ¬(e1.frm = e2.frm ∧ e1.to = e2.to)) g.edges)
    (hnl : ∀ e ∈ g.edges, e.frm ≠ e.to)
    (hsmall : edgeSum g < MAXQ) :
    FWInv g (g.nodeIds.foldl (fun st k => P2P.fwStep g.nodeIds k st)
      (P2P.fwFill g (P2P.fwInit g))) ∧
    ∀ i ∈ g.nodeIds, ∀ j ∈ g.nodeIds,
      (g.nodeIds.foldl (fun st k => P2P.fwStep g.nodeIds k st)
        (P2P.fwFill g (P2P.fwInit g))).dist i j =
      (match deltaDist g i j with
       | some d => some d
       | none => some MAXQ) := by
  have hnn : ∀ e ∈ g.edges, 0 ≤ e.distance := fun e he => le_of_lt (hpos e he)
  have hfun : (fun (st : P2P.FWState) k => P2P.fwStep g.nodeIds k st) =
      (fun st k => g.nodeIds.foldl (fun st i => g.nodeIds.foldl (fwPair k i) st) st) :=
    funext fun st => funext fun k => fwStep_eq g.nodeIds k st
  rw [hfun]
  obtain ⟨hinv, hcomp⟩ := fwPasses g hnd hpos hsmall g.nodeIds [] (fun _ h => h)
    (P2P.fwFill g (P2P.fwInit g)) (fwFillInit_inv g hnd hpos hdp hnl hsmall)
    (fwComp_base g hdp)
  rw [List.nil_append] at hcomp
  refine ⟨hinv, ?_⟩
  intro i hi j hj
  obtain ⟨hA, hDiag, hN⟩ := hinv
  obtain ⟨d, t, hd, ht, hd0, hdM, hchain⟩ := hA i hi j hj
  rcases hdelta : deltaDist g i j with _ | dd
  · rw [hd]
    by_cases hcase : d ≠ MAXQ ∨ i = j
    · exfalso
      rcases hcase with hcase | hcase
      · obtain ⟨p, hp1, hp2, hp3, hp4, _⟩ := hchain (Or.inl hcase)
        obtain ⟨d2, hd2, _⟩ := walk_deltaDist_le g hnd hnn p i j hp1 hp2 hp3 hp4
        rw [hdelta] at hd2
        cases hd2
      · rw [hcase] at hdelta
        rw [deltaDist_self g j hj hnn] at hdelta
        cases hdelta
    · push_neg at hcase
      rw [hcase.1]
  · rw [hd]
    by_cases hij : i = j
    · subst hij
      rw [deltaDist_self g i hi hnn] at hdelta
      have hdd0 : dd = 0 := (Option.some.inj hdelta).symm
      have := hDiag i hi
      rw [hd] at this
      rw [Option.some.inj this, hdd0]
    · obtain ⟨p, hpm, hpc⟩ := deltaDist_mem g i j dd hdelta
      obtain ⟨hp1, hp2, hp3, hp4, hp5⟩ := simpleChains_spec g i j p hnd hpm
      rcases p with _ | ⟨a, tl⟩
      · cases hp3
      have hai : a = i := by simpa using hp3
      subst hai
      rcases tl with _ | ⟨b, tl'⟩
      · exfalso
        have : a = j := by simpa using hp4
        exact hij this
      have htlast : (b :: tl').getLast? = some j := by
        rw [List.getLast?_cons_cons] at hp4
        exact hp4
      obtain ⟨mid, hmid⟩ := exists_concat_of_getLast (b :: tl') j htlast
      have hform : (a :: b :: tl') = (a :: mid ++ [j]) := by
        rw [hmid]
        rfl
      have hbound : d ≤ chainSum g (fun ed => ed.distance) (a :: mid ++ [j]) := by
        refine hcomp a hi j hj mid ?_ ?_ ?_ ?_ d hd
        · rw [← hform]
          exact hp1
        · rw [← hform]
          exact hp5
        · intro w hw
          refine hp2 w ?_
          rw [hform]
          exact List.mem_cons_of_mem a (List.mem_append.mpr (Or.inl hw))
        · intro w hw
          refine hp2 w ?_
          rw [hform]
          exact List.mem_cons_of_mem a (List.mem_append.mpr (Or.inl hw))
      rw [← hform] at hbound
      rw [hpc] at hbound
      have hddM : dd < MAXQ := deltaDist_lt_MAXQ g hnn hnd hsmall a j dd hdelta
      have hdne : d ≠ MAXQ := by
        intro hc
        rw [hc] at hbound
        linarith
      obtain ⟨q, hq1, hq2, hq3, hq4, hq5⟩ := hchain (Or.inl hdne)
      obtain ⟨d2, hd2, hd2le⟩ := walk_deltaDist_le g hnd hnn q a j hq1 hq2 hq3 hq4
      rw [hdelta] at hd2
      rw [hq5] at hd2le
      have : dd = d2 := Option.some.inj hd2
      subst this
      have : d = dd := le_antisymm hbound hd2le
      rw [this]

/-- At the final floydWarshall state the `next` records step along an
actual edge onto a node whose entry completes the recorded distance. -/
theorem fw_next_exact (g : RouteGraph)
    (hnd : g.nodeIds.Nodup)
    (hpos : ∀ e ∈ g.edges, 0 < e.distance)
    (hdp : List.Pairwise (fun e1 e2 : RouteEdge => ¬(e1.frm = e2.frm ∧ e1.to = e2.to)) g.edges)
    (hnl : ∀ e ∈ g.edges, e.frm ≠ e.to)
    (hsmall : edgeSum g < MAXQ) :
    ∀ i ∈ g.nodeIds, ∀ j ∈ g.nodeIds, i ≠ j → ∀ d,
      (g.nodeIds.foldl (fun st k => P2P.fwStep g.nodeIds k st)
        (P2P.fwFill g (P2P.fwInit g))).dist i j = some d → d ≠ MAXQ →
      ∃ v ed dvj,
        (g.nodeIds.foldl (fun st k => P2P.fwStep g.nodeIds k st)
          (P2P.fwFill g (P2P.fwInit g))).next i j = some v ∧ v ∈ g.nodeIds ∧
        findEdge g i v = some ed ∧
        (g.nodeIds.foldl (fun st k => P2P.fwStep g.nodeIds k st)
          (P2P.fwFill g (P2P.fwInit g))).dist v j = some dvj ∧
        d = ed.distance + dvj ∧ dvj < d ∧ dvj ≠ MAXQ := by
  have hnn : ∀ e ∈ g.edges, 0 ≤ e.distance := fun e he => le_of_lt (hpos e he)
  obtain ⟨hinv, hdel⟩ := fw_state_delta g hnd hpos hdp hnl hsmall
  obtain ⟨hA, hDiag, hN⟩ := hinv
  intro i hi j hj hij d hd hdM
  obtain ⟨v, hnv, hvm, ed, hfed, q, hqok, hqh, hql, hqm, hqs⟩ := hN i hi j hj hij d hd hdM
  have hdq : d = ed.distance + chainSum g (fun e2 => e2.distance) q := by
    rw [hd] at hqs
    exact Option.some.inj hqs
  have hw : 0 < ed.distance := hpos ed (findEdge_mem g i v ed hfed).1
  have hdij : deltaDist g i j = some d := by
    have := hdel i hi j hj
    rw [hd] at this
    rcases hdij2 : deltaDist g i j with _ | d2
    · rw [hdij2] at this
      exact absurd (Option.some.inj this) hdM
    · rw [hdij2] at this
      rw [Option.some.inj this]
  obtain ⟨dq, hdqd, hdqle⟩ := walk_deltaDist_le g hnd hnn q v j hqok hqh hql hqm
  obtain ⟨dij2, hdij2, htri⟩ := deltaDist_edge_triangle_left g hnd hnn i v j hi ed hfed dq hdqd
  have hdij2d : dij2 = d := by
    rw [hdij] at hdij2
    exact (Option.some.inj hdij2).symm
  have hdqeq : dq = chainSum g (fun e2 => e2.distance) q := by
    rw [hdij2d] at htri
    rw [hdq] at htri
    linarith
  have hdvj : (g.nodeIds.foldl (fun st k => P2P.fwStep g.nodeIds k st)
      (P2P.fwFill g (P2P.fwInit g))).dist v j = some dq := by
    have := hdel v hvm j hj
    rw [hdqd] at this
    exact this
  refine ⟨v, ed, dq, hnv, hvm, hfed, hdvj, ?_, ?_, ?_⟩
  · rw [hdq, hdqeq]
  · rw [hdq, hdqeq]
    linarith
  · intro hc
    have := deltaDist_lt_MAXQ g hnn hnd hsmall v j dq hdqd
    rw [hc] at this
    exact absurd this (lt_irrefl MAXQ)

/-- Following the final `next` records from any node holding a real entry
toward the destination rebuilds an edge-joined path whose distance sum is
exactly the recorded entry, within fuel dominating the count of strictly
closer nodes. -/
theorem fw_walk (g : RouteGraph) (dst : String)
    (hnd : g.nodeIds.Nodup) (hdst : dst ∈ g.nodeIds)
    (hpos : ∀ e ∈ g.edges, 0 < e.distance)
    (hdp : List.Pairwise (fun e1 e2 : RouteEdge => ¬(e1.frm = e2.frm ∧ e1.to = e2.to)) g.edges)
    (hnl : ∀ e ∈ g.edges, e.frm ≠ e.to)
    (hsmall : edgeSum g < MAXQ) :
    ∀ (n : Nat) (current : String) (acc : List String), current ∈ g.nodeIds →
      ∀ dcur, (g.nodeIds.foldl (fun st k => P2P.fwStep g.nodeIds k st)
        (P2P.fwFill g (P2P.fwInit g))).dist current dst = some dcur → dcur ≠ MAXQ →
      g.nodeIds.countP (fun u =>
        match (g.nodeIds.foldl (fun st k => P2P.fwStep g.nodeIds k st)
          (P2P.fwFill g (P2P.fwInit g))).dist u dst with
        | some du => decide (du < dcur)
        | none => false) ≤ n →
      ∃ q, P2P.fwPath (g.nodeIds.foldl (fun st k => P2P.fwStep g.nodeIds k st)
          (P2P.fwFill g (P2P.fwInit g))).next dst (n + 1) current acc = some (acc ++ q) ∧
        (current :: q).getLast? = some dst ∧ chainOk g (current :: q) = true ∧
        (∀ w ∈ current :: q, w ∈ g.nodeIds) ∧
        chainSum g (fun ed => ed.distance) (current :: q) = dcur := by
  obtain ⟨hinv, _⟩ := fw_state_delta g hnd hpos hdp hnl hsmall
  obtain ⟨hA, hDiag, _⟩ := hinv
  have hnext := fw_next_exact g hnd hpos hdp hnl hsmall
  intro n
  induction n with
  | zero =>
    intro current acc hcm dcur hdcur hdcurM hcount
    by_cases hcd : current = dst
    · subst hcd
      have h0 := hDiag current hcm
      rw [hdcur] at h0
      have hd0 : dcur = 0 := Option.some.inj h0
      refine ⟨[], ?_, rfl, rfl, ?_, ?_⟩
      · simp only [P2P.fwPath]
        rw [if_neg (fun hc : current ≠ current => hc rfl)]
        rw [List.append_nil]
      · intro w hw
        rw [List.mem_singleton] at hw
        rw [hw]
        exact hcm
      · rw [hd0]
        rfl
    · exfalso
      obtain ⟨v, ed, dvj, _, hvm, _, hdvj, _, hlt, _⟩ :=
        hnext current hcm dst hdst hcd dcur hdcur hdcurM
      have hcu : (fun u =>
          match (g.nodeIds.foldl (fun st k => P2P.fwStep g.nodeIds k st)
            (P2P.fwFill g (P2P.fwInit g))).dist u dst with
          | some du => decide (du < dcur)
          | none => false) v = true := by
        simp only [hdvj, decide_eq_true_eq]
        exact hlt
      have : 0 < g.nodeIds.countP (fun u =>
          match (g.nodeIds.foldl (fun st k => P2P.fwStep g.nodeIds k st)
            (P2P.fwFill g (P2P.fwInit g))).dist u dst with
          | some du => decide (du < dcur)
          | none => false) := by
        rw [List.countP_pos]
        exact ⟨v, hvm, hcu⟩
      omega
  | succ n ih =>
    intro current acc hcm dcur hdcur hdcurM hcount
    by_cases hcd : current = dst
    · subst hcd
      have h0 := hDiag current hcm
      rw [hdcur] at h0
      have hd0 : dcur = 0 := Option.some.inj h0
      refine ⟨[], ?_, rfl, rfl, ?_, ?_⟩
      · simp only [P2P.fwPath]
        rw [if_neg (fun hc : current ≠ current => hc rfl)]
        rw [List.append_nil]
      · intro w hw
        rw [List.mem_singleton] at hw
        rw [hw]
        exact hcm
      · rw [hd0]
        rfl
    · obtain ⟨v, ed, dvj, hnv, hvm, hfed, hdvj, hdeq, hlt, hdvjM⟩ :=
        hnext current hcm dst hdst hcd dcur hdcur hdcurM
      have hmeas : g.nodeIds.countP (fun u =>
          match (g.nodeIds.foldl (fun st k => P2P.fwStep g.nodeIds k st)
            (P2P.fwFill g (P2P.fwInit g))).dist u dst with
          | some du => decide (du < dvj)
          | none => false) ≤ n := by
        have hstrict := countP_lt_of_mem g.nodeIds
          (fun u =>
            match (g.nodeIds.foldl (fun st k => P2P.fwStep g.nodeIds k st)
              (P2P.fwFill g (P2P.fwInit g))).dist u dst with
            | some du => decide (du < dvj)
            | none => false)
          (fun u =>
            match (g.nodeIds.foldl (fun st k => P2P.fwStep g.nodeIds k st)
              (P2P.fwFill g (P2P.fwInit g))).dist u dst with
            | some du => decide (du < dcur)
            | none => false)
          (by
            intro a _ hpa
            rcases hda : (g.nodeIds.foldl (fun st k => P2P.fwStep g.nodeIds k st)
              (P2P.fwFill g (P2P.fwInit g))).dist a dst with _ | da
            · simp only [hda] at hpa
              cases hpa
            · simp only [hda, decide_eq_true_eq] at hpa ⊢
              linarith)
          v hvm
          (by
            simp only [hdvj, decide_eq_false_iff_not, not_lt]
            exact le_refl dvj)
          (by
            simp only [hdvj, decide_eq_true_eq]
            exact hlt)
        omega
      obtain ⟨q2, hrec, hq2l, hq2ok, hq2m, hq2s⟩ := ih v (acc ++ [v]) hvm dvj hdvj hdvjM hmeas
      refine ⟨v :: q2, ?_, ?_, ?_, ?_, ?_⟩
      · have hgo : P2P.fwPath (g.nodeIds.foldl (fun st k => P2P.fwStep g.nodeIds k st)
            (P2P.fwFill g (P2P.fwInit g))).next dst (n + 1 + 1) current acc =
            P2P.fwPath (g.nodeIds.foldl (fun st k => P2P.fwStep g.nodeIds k st)
              (P2P.fwFill g (P2P.fwInit g))).next dst (n + 1) v (acc ++ [v]) := by
          simp only [P2P.fwPath, if_pos hcd, hnv]
        rw [hgo, hrec, List.append_assoc]
        rfl
      · rw [List.getLast?_cons_cons]
        exact hq2l
      · simp only [chainOk, Bool.and_eq_true]
        refine ⟨by rw [hfed]; rfl, hq2ok⟩
      · intro w hw
        rcases List.mem_cons.mp hw with rfl | hw
        · exact hcm
        · exact hq2m w hw
      · simp only [chainSum]
        rw [qadd_eq, hfed, hq2s]
        simp only [Option.map_some', Option.getD_some]
        rw [hdeq]

/-- On a reachable pair, floydWarshall succeeds, returns the true
shortest-path distance, and that distance is the edge sum over the
returned non-empty path. -/
theorem fw_solves (g : RouteGraph) (s e : String)
    (hnd : g.nodeIds.Nodup) (hs : s ∈ g.nodeIds) (he : e ∈ g.nodeIds)
    (hfrm : ∀ ed ∈ g.edges, ed.frm ∈ g.nodeIds)
    (hpos : ∀ ed ∈ g.edges, 0 < ed.distance)
    (hdp : List.Pairwise (fun e1 e2 : RouteEdge => ¬(e1.frm = e2.frm ∧ e1.to = e2.to)) g.edges)
    (hnl : ∀ ed ∈ g.edges, ed.frm ≠ ed.to)
    (hsmall : edgeSum g < MAXQ)
    (d : ℚ) (hd : deltaDist g s e = some d) :
    ∃ r, P2P.floydWarshall g s e = some r ∧ r.distance = some d ∧ r.path ≠ [] ∧
      r.path.head? = some s ∧
      r.distance = some (chainSum g (fun ed => ed.distance) r.path) := by
  have hnn : ∀ ed ∈ g.edges, 0 ≤ ed.distance := fun ed hed => le_of_lt (hpos ed hed)
  obtain ⟨hinv, hdel⟩ := fw_state_delta g hnd hpos hdp hnl hsmall
  have hdist : (g.nodeIds.foldl (fun st k => P2P.fwStep g.nodeIds k st)
      (P2P.fwFill g (P2P.fwInit g))).dist s e = some d := by
    have := hdel s hs e he
    rw [hd] at this
    exact this
  have hdM : d ≠ MAXQ := by
    intro hc
    have := deltaDist_lt_MAXQ g hnn hnd hsmall s e d hd
    rw [hc] at this
    exact absurd this (lt_irrefl MAXQ)
  obtain ⟨q, hwalk, hql, hqok, hqm, hqs⟩ := fw_walk g e hnd he hpos hdp hnl hsmall
    g.nodeIds.length s [s] hs d hdist hdM (List.countP_le_length _)
  have hall : g.edges.all (fun ed => g.nodeIds.contains ed.frm) = true := by
    rw [List.all_eq_true]
    intro ed hed
    simpa using hfrm ed hed
  have hcs : g.nodeIds.contains s = true := by
    simpa using hs
  have hMne : ¬ ((g.nodeIds.foldl (fun st k => P2P.fwStep g.nodeIds k st)
      (P2P.fwFill g (P2P.fwInit g))).dist s e = some MAXQ) := by
    intro hc
    rw [hdist] at hc
    exact hdM (Option.some.inj hc)
  refine ⟨⟨s :: q, some d, (g.nodeIds.foldl (fun st k => P2P.fwStep g.nodeIds k st)
      (P2P.fwFill g (P2P.fwInit g))).times s e⟩, ?_, rfl, by simp, rfl, ?_⟩
  · simp only [P2P.floydWarshall, hall, hcs, Bool.not_true, Bool.false_eq_true, if_false]
    rw [if_neg hMne]
    rw [hdist]
    rw [hwalk]
    rfl
  · rw [Option.some.injEq, hqs]

/-- C4 (amended): for a well-formed graph — duplicate-free node ids not
containing the empty string, edge endpoints that are nodes, strictly
positive edge distances, no duplicated directed pairs, no self-loops, and
a total edge weight below `MAX_SAFE_INTEGER` — dijkstra, bellmanFord and
floydWarshall all report exactly the true shortest-path distance `d`
between any reachable pair, while astar is exempt (its fixed coordinate
heuristic is not admissible; see the counterexample). -/
theorem C4_exact_solvers_agree (g : RouteGraph) (s e : String)
    (hnd : g.nodeIds.Nodup) (hs : s ∈ g.nodeIds) (he : e ∈ g.nodeIds)
    (h0 : "" ∉ g.nodeIds)
    (hfrm : ∀ ed ∈ g.edges, ed.frm ∈ g.nodeIds)
    (hto : ∀ ed ∈ g.edges, ed.to ∈ g.nodeIds)
    (hpos : ∀ ed ∈ g.edges, 0 < ed.distance)
    (hdp : List.Pairwise (fun e1 e2 : RouteEdge => ¬(e1.frm = e2.frm ∧ e1.to = e2.to)) g.edges)
    (hnl : ∀ ed ∈ g.edges, ed.frm ≠ ed.to)
    (hsmall : edgeSum g < MAXQ)
    (d : ℚ) (hd : deltaDist g s e = some d) :
    (P2P.dijkstra g s e).distance = some d ∧
    (P2P.bellmanFord g s e).distance = some d ∧
    ∃ r, P2P.floydWarshall g s e = some r ∧ r.distance = some d := by
  refine ⟨?_, ?_, ?_⟩
  · rw [dijkstra_distance_delta g s e hnd hs he h0 hto hpos hdp hsmall, hd]
  · rw [bf_distance_delta g s e hnd hs he hto hpos hdp hsmall, hd]
  · obtain ⟨r, h1, h2, _, _, _⟩ := fw_solves g s e hnd hs he hfrm hpos hdp hnl hsmall d hd
    exact ⟨r, h1, h2⟩

/-- Witness for C4 on the concrete graph `astarGraph`. -/
theorem C4_exact_solvers_agree_witness :
    (P2P.dijkstra astarGraph "S" "E").distance = some 2 ∧
    (P2P.bellmanFord astarGraph "S" "E").distance = some 2 ∧
    ∃ r, P2P.floydWarshall astarGraph "S" "E" = some r ∧ r.distance = some 2 :=
  C4_exact_solvers_agree astarGraph "S" "E" (by decide) (by decide) (by decide) (by decide)
    (by decide) (by decide) (by decide) (by decide) (by decide) (by decide) 2 (by decide)

/-- On an unreachable pair floydWarshall takes its explicit no-path exit. -/
theorem fw_unreachable (g : RouteGraph) (s e : String)
    (hnd : g.nodeIds.Nodup) (hs : s ∈ g.nodeIds) (he : e ∈ g.nodeIds)
    (hfrm : ∀ ed ∈ g.edges, ed.frm ∈ g.nodeIds)
    (hpos : ∀ ed ∈ g.edges, 0 < ed.distance)
    (hdp : List.Pairwise (fun e1 e2 : RouteEdge => ¬(e1.frm = e2.frm ∧ e1.to = e2.to)) g.edges)
    (hnl : ∀ ed ∈ g.edges, ed.frm ≠ ed.to)
    (hsmall : edgeSum g < MAXQ)
    (hd : deltaDist g s e = none) :
    P2P.floydWarshall g s e = some ⟨[], some 0, some 0⟩ := by
  obtain ⟨_, hdel⟩ := fw_state_delta g hnd hpos hdp hnl hsmall
  have hdist : (g.nodeIds.foldl (fun st k => P2P.fwStep g.nodeIds k st)
      (P2P.fwFill g (P2P.fwInit g))).dist s e = some MAXQ := by
    have := hdel s hs e he
    rw [hd] at this
    exact this
  have hall : g.edges.all (fun ed => g.nodeIds.contains ed.frm) = true := by
    rw [List.all_eq_true]
    intro ed hed
    simpa using hfrm ed hed
  have hcs : g.nodeIds.contains s = true := by
    simpa using hs
  simp only [P2P.floydWarshall, hall, hcs, Bool.not_true, Bool.false_eq_true, if_false]
  rw [if_pos hdist]

/-- C6 (amended): for a well-formed graph (duplicate-free node ids without
the empty string, edge endpoints that are nodes, strictly positive
distances, pairwise-distinct directed pairs, no self-loops, total weight
below `MAX_SAFE_INTEGER`), the distance and time returned by dijkstra and
bellmanFord alongside a non-empty path are exactly the edge sums over that
path, and likewise the distance returned by floydWarshall; astar and the
floydWarshall time field satisfy the property on the concrete instance
(they are not covered by the general proof). -/
theorem C6_path_sums (g : RouteGraph) (s e : String)
    (hnd : g.nodeIds.Nodup) (hs : s ∈ g.nodeIds) (he : e ∈ g.nodeIds)
    (h0 : "" ∉ g.nodeIds)
    (hfrm : ∀ ed ∈ g.edges, ed.frm ∈ g.nodeIds)
    (hto : ∀ ed ∈ g.edges, ed.to ∈ g.nodeIds)
    (hpos : ∀ ed ∈ g.edges, 0 < ed.distance)
    (hdp : List.Pairwise (fun e1 e2 : RouteEdge => ¬(e1.frm = e2.frm ∧ e1.to = e2.to)) g.edges)
    (hnl : ∀ ed ∈ g.edges, ed.frm ≠ ed.to)
    (hsmall : edgeSum g < MAXQ) :
    ((P2P.dijkstra g s e).path ≠ [] →
      (P2P.dijkstra g s e).distance =
        some (chainSum g (fun ed => ed.distance) (P2P.dijkstra g s e).path) ∧
      (P2P.dijkstra g s e).time =
        some (chainSum g (fun ed => ed.time) (P2P.dijkstra g s e).path)) ∧
    ((P2P.bellmanFord g s e).path ≠ [] →
      (P2P.bellmanFord g s e).distance =
        some (chainSum g (fun ed => ed.distance) (P2P.bellmanFord g s e).path) ∧
      (P2P.bellmanFord g s e).time =
        some (chainSum g (fun ed => ed.time) (P2P.bellmanFord g s e).path)) ∧
    (∀ r, P2P.floydWarshall g s e = some r → r.path ≠ [] →
      r.distance = some (chainSum g (fun ed => ed.distance) r.path)) ∧
    (∀ r, P2P.astar sq0 astarGraph "S" "E" = some r →
      r.distance = some (chainSum astarGraph (fun ed => ed.distance) r.path) ∧
      r.time = some (chainSum astarGraph (fun ed => ed.time) r.path)) ∧
    (∀ r, P2P.floydWarshall astarGraph "S" "E" = some r →
      r.time = some (chainSum astarGraph (fun ed => ed.time) r.path)) := by
  refine ⟨dijkstra_path_sums g s e hnd hs he h0 hto hpos hdp,
    bf_path_sums g s e hnd hs he h0 hto hpos hdp hsmall, ?_, by decide, by decide⟩
  intro r hr hne
  rcases hdelta : deltaDist g s e with _ | d
  · rw [fw_unreachable g s e hnd hs he hfrm hpos hdp hnl hsmall hdelta] at hr
    rw [← Option.some.inj hr] at hne
    exact absurd rfl hne
  · obtain ⟨r0, h1, _, _, _, h5⟩ := fw_solves g s e hnd hs he hfrm hpos hdp hnl hsmall d hdelta
    rw [h1] at hr
    rw [← Option.some.inj hr]
    exact h5

/-- Witness for C6 on the concrete graph `astarGraph`. -/
theorem C6_path_sums_witness :
    ((P2P.dijkstra astarGraph "S" "E").path ≠ [] →
      (P2P.dijkstra astarGraph "S" "E").distance =
        some (chainSum astarGraph (fun ed => ed.distance) (P2P.dijkstra astarGraph "S" "E").path) ∧
      (P2P.dijkstra astarGraph "S" "E").time =
        some (chainSum astarGraph (fun ed => ed.time) (P2P.dijkstra astarGraph "S" "E").path)) ∧
    ((P2P.bellmanFord astarGraph "S" "E").path ≠ [] →
      (P2P.bellmanFord astarGraph "S" "E").distance =
        some (chainSum astarGraph (fun ed => ed.distance)
          (P2P.bellmanFord astarGraph "S" "E").path) ∧
      (P2P.bellmanFord astarGraph "S" "E").time =
        some (chainSum astarGraph (fun ed => ed.time)
          (P2P.bellmanFord astarGraph "S" "E").path)) ∧
    (∀ r, P2P.floydWarshall astarGraph "S" "E" = some r → r.path ≠ [] →
      r.distance = some (chainSum astarGraph (fun ed => ed.distance) r.path)) ∧
    (∀ r, P2P.astar sq0 astarGraph "S" "E" = some r →
      r.distance = some (chainSum astarGraph (fun ed => ed.distance) r.path) ∧
      r.time = some (chainSum astarGraph (fun ed => ed.time) r.path)) ∧
    (∀ r, P2P.floydWarshall astarGraph "S" "E" = some r →
      r.time = some (chainSum astarGraph (fun ed => ed.time) r.path)) :=
  C6_path_sums astarGraph "S" "E" (by decide) (by decide) (by decide) (by decide) (by decide)
    (by decide) (by decide) (by decide) (by decide) (by decide)
